import Mathlib

/-!
Verification of the AliceScreep novel-downloader core: the site-adapter,
chapter-discovery and content-extraction pipeline (`downloader/text.py`,
`downloader/sites.py`, `downloader/epub.py`).

The Python code is shallowly embedded over `List Char` (one entry per
Unicode code point, matching Python `str` semantics).  Standard-library
collaborators (the `re` patterns actually used, `html.unescape`,
`urllib.parse`, `html.parser`) are modelled as explicit executable
functions whose semantics follow CPython for the constructs the source
exercises; each model notes its scope in a doc comment.  All recursion is
structural (or fuelled by the input length), so every definition
evaluates by `decide`/`rfl`.
-/

/-! ## Character classes (Python `str` semantics) -/

/-- Whitespace recognised by Python's `str.strip()` and the `re` class `\s`
for `str` patterns: ASCII whitespace, the C1 separators, and the Unicode
space separators. -/
def isPySpace (c : Char) : Bool :=
  c.toNat = 32 || c.toNat = 9 || c.toNat = 10 || c.toNat = 13 ||
  c.toNat = 11 || c.toNat = 12 ||
  (28 ≤ c.toNat && c.toNat ≤ 31) || c.toNat = 0x85 || c.toNat = 0xa0 ||
  c.toNat = 0x1680 || (0x2000 ≤ c.toNat && c.toNat ≤ 0x200a) ||
  c.toNat = 0x2028 || c.toNat = 0x2029 || c.toNat = 0x202f ||
  c.toNat = 0x205f || c.toNat = 0x3000

def isAsciiDigit (c : Char) : Bool := 48 ≤ c.toNat && c.toNat ≤ 57

def isAsciiUpper (c : Char) : Bool := 65 ≤ c.toNat && c.toNat ≤ 90

def isAsciiLower (c : Char) : Bool := 97 ≤ c.toNat && c.toNat ≤ 122

def isAsciiAlpha (c : Char) : Bool := isAsciiUpper c || isAsciiLower c

/-- ASCII lower-casing, modelling Python `str.lower()` on the characters the
source compares case-insensitively (scheme letters, tag names, the `.html`
and `.png` suffixes, `ALICESW.COM`); non-ASCII letters pass through. -/
def lowerChar (c : Char) : Char :=
  if isAsciiUpper c then Char.ofNat (c.toNat + 32) else c

def lowerL (l : List Char) : List Char := l.map lowerChar

/-- Case-insensitive prefix test (pattern first). -/
def ciIsPrefixOf : List Char → List Char → Bool
  | [], _ => true
  | _ :: _, [] => false
  | c :: p, d :: l => (lowerChar c = lowerChar d : Bool) && ciIsPrefixOf p l

/-! ## Generic list-of-char utilities -/

def dropTrailing (p : Char → Bool) (l : List Char) : List Char :=
  (l.reverse.dropWhile p).reverse

/-- Python `str.strip()` (no argument): trim whitespace at both ends. -/
def pyStripL (l : List Char) : List Char :=
  dropTrailing isPySpace (l.dropWhile isPySpace)

/-- Python `str.strip(chars)`: trim any of the given characters at both
ends. -/
def stripSetL (set : List Char) (l : List Char) : List Char :=
  dropTrailing (fun c => set.contains c) (l.dropWhile (fun c => set.contains c))

/-- Split at the first occurrence of `sep`, like Python
`s.split(sep, 1)` when `sep` occurs (returns `none` when it does not). -/
def splitFirstAt (sep : Char) : List Char → Option (List Char × List Char)
  | [] => none
  | c :: rest =>
    if c = sep then some ([], rest)
    else
      match splitFirstAt sep rest with
      | some (l, r) => some (c :: l, r)
      | none => none

def digitsToNat (ds : List Char) : Nat :=
  ds.foldl (fun a c => 10 * a + (c.toNat - 48)) 0

/-! ## `html.unescape` model

Models CPython `html.unescape` for the character references
`&amp; &lt; &gt; &quot; &apos;` (with semicolon) and numeric references
`&#N;` / `&#xN;`; any other text after `&` is left untouched.  The source
pages exercised by the spec use only these. -/

def hexDigitVal (c : Char) : Option Nat :=
  if isAsciiDigit c then some (c.toNat - 48)
  else if 97 ≤ c.toNat && c.toNat ≤ 102 then some (c.toNat - 87)
  else if 65 ≤ c.toNat && c.toNat ≤ 70 then some (c.toNat - 55)
  else none

/-- Valid Unicode scalar values (what Lean `Char` can hold and Python `chr`
accepts outside surrogates). -/
def isScalar (n : Nat) : Bool := (n < 0xd800 || (0xe000 ≤ n && n ≤ 0x10ffff))

def charOfScalar (n : Nat) : Char :=
  if isScalar n then Char.ofNat n else Char.ofNat 0xfffd

/-- Try to read one character reference right after a `&`; returns the
decoded character and the remaining input. -/
def matchCharRef (l : List Char) : Option (Char × List Char) :=
  if ciIsPrefixOf "amp;".data l then some ('&', l.drop 4)
  else if ciIsPrefixOf "lt;".data l then some ('<', l.drop 3)
  else if ciIsPrefixOf "gt;".data l then some ('>', l.drop 3)
  else if ciIsPrefixOf "quot;".data l then some ('"', l.drop 5)
  else if ciIsPrefixOf "apos;".data l then some ('\'', l.drop 5)
  else
    match l with
    | '#' :: 'x' :: rest =>
      let hs := rest.takeWhile (fun c => (hexDigitVal c).isSome)
      let n := hs.foldl (fun a c => 16 * a + ((hexDigitVal c).getD 0)) 0
      if hs.isEmpty then none
      else match rest.drop hs.length with
        | ';' :: r => some (charOfScalar n, r)
        | _ => none
    | '#' :: rest =>
      let ds := rest.takeWhile isAsciiDigit
      if ds.isEmpty then none
      else match rest.drop ds.length with
        | ';' :: r => some (charOfScalar (digitsToNat ds), r)
        | _ => none
    | _ => none

def unescapeF : Nat → List Char → List Char
  | 0, l => l
  | _ + 1, [] => []
  | f + 1, c :: rest =>
    if c = '&' then
      match matchCharRef rest with
      | some (d, rest') => d :: unescapeF f rest'
      | none => '&' :: unescapeF f rest
    else c :: unescapeF f rest

def htmlUnescapeL (l : List Char) : List Char := unescapeF l.length l

/-! ## `re.sub(r"\s+", " ", ...)`: collapse whitespace runs -/

/-- Auxiliary traversal: `inRun` records whether the previous input
character was whitespace (in which case further whitespace is dropped,
the run having already emitted its single `' '`). -/
def collapseWsAux : Bool → List Char → List Char
  | _, [] => []
  | inRun, c :: rest =>
    if isPySpace c then
      if inRun then collapseWsAux true rest
      else ' ' :: collapseWsAux true rest
    else c :: collapseWsAux false rest

/-- Model of `re.sub(r"\s+", " ", s)`: every maximal whitespace run becomes
a single space. -/
def collapseWsL (l : List Char) : List Char := collapseWsAux false l

/-! ## Brand-suffix removal

Model of `re.sub(r"[\s_\-]*(?:愛麗絲書屋|ALICESW\.COM).*$", "", title,
flags=re.IGNORECASE)` from `normalize_chapter_title`.  Without `re.DOTALL`
the trailing `.*$` matches only when at most one newline follows the brand
marker, and that newline must be the final character (in which case it
survives the substitution); the match otherwise runs to the end of the
string and swallows the `[\s_\-]*` run immediately before the leftmost
such marker. -/

def isStrippy (c : Char) : Bool := isPySpace c || c = '_' || c = '-'

/-- Length of the brand marker matched at the head of `l`, if any. -/
def brandLenAt (l : List Char) : Option Nat :=
  if ciIsPrefixOf "alicesw.com".data l then some 11
  else if ciIsPrefixOf "愛麗絲書屋".data l then some 5
  else none

def noNlB (l : List Char) : Bool := !(l.contains '\n')

def dropOneTrailingNl (l : List Char) : List Char :=
  if l.getLast? = some '\n' then l.dropLast else l

/-- The `.*$` tail (no DOTALL) can match the remainder `t` exactly when `t`
contains no newline except possibly a single final one. -/
def brandTailOk (l : List Char) : Bool := noNlB (dropOneTrailingNl l)

/-- Locate the leftmost feasible brand occurrence, splitting the string as
`pre ++ marker ++ tail`.  Returns `(pre, markerLength, tail)`. -/
def brandSplit : List Char → Option (List Char × Nat × List Char)
  | [] => none
  | c :: rest =>
    match brandLenAt (c :: rest) with
    | some len =>
      if brandTailOk ((c :: rest).drop len) then some ([], len, (c :: rest).drop len)
      else
        match brandSplit rest with
        | some (pre, len', t) => some (c :: pre, len', t)
        | none => none
    | none =>
      match brandSplit rest with
      | some (pre, len', t) => some (c :: pre, len', t)
      | none => none

def brandSubL (s : List Char) : List Char :=
  match brandSplit s with
  | none => s
  | some (pre, _, t) =>
    dropTrailing isStrippy pre ++ (if t.getLast? = some '\n' then ['\n'] else [])

/-! ## The chapter-number pattern `第\s*(\d+)\s*章` -/

/-- After a `第`, try to match `\s*(\d+)\s*章` (the pattern is
deterministic: the whitespace and digit classes are disjoint and `章` is
neither). -/
def chapterMarkAfter (l : List Char) : Option Nat :=
  let l1 := l.dropWhile isPySpace
  let ds := l1.takeWhile isAsciiDigit
  if ds.isEmpty then none
  else
    match (l1.drop ds.length).dropWhile isPySpace with
    | '章' :: _ => some (digitsToNat ds)
    | _ => none

/-- Model of `re.search(r"第\s*(\d+)\s*章", s)`, returning the first
captured number. -/
def chapterNumSearch : List Char → Option Nat
  | [] => none
  | c :: rest =>
    if c = '第' then
      match chapterMarkAfter rest with
      | some n => some n
      | none => chapterNumSearch rest
    else chapterNumSearch rest

/-! ## `normalize_chapter_title` (text.py lines 54-64) -/

def unknownChapterL : List Char := "未知章节".data

/-- The underscore heuristic of `normalize_chapter_title`: split at the
first `_`; keep only the left half when it carries a `第N章` marker and
the right half is longer than 3 characters. -/
def underscoreHeuristic (t : List Char) : List Char :=
  match splitFirstAt '_' t with
  | some (left, right) =>
    if (chapterNumSearch left).isSome && decide (right.length > 3) then left else t
  | none => t

/-- Cleaning pipeline applied to a non-empty unescaped title: brand-suffix
removal, the underscore heuristic, whitespace collapsing, and trimming of
spaces/underscores/hyphens. -/
def nctCore (t : List Char) : List Char :=
  stripSetL [' ', '_', '-'] (collapseWsL (underscoreHeuristic (brandSubL t)))

def normalizeChapterTitleL (raw : List Char) : List Char :=
  let title := htmlUnescapeL (pyStripL raw)
  if title.isEmpty then unknownChapterL
  else if (nctCore title).isEmpty then unknownChapterL else nctCore title

def normalize_chapter_title (raw : String) : String :=
  ⟨normalizeChapterTitleL raw.data⟩

example : normalize_chapter_title "第1章" = "第1章" := by decide
example : normalize_chapter_title "第2章_番外" = "第2章_番外" := by decide
example : normalize_chapter_title "第2章_番外篇续章" = "第2章" := by decide
example : normalize_chapter_title "  foo   bar _" = "foo bar" := by decide
example : normalize_chapter_title "第1章 ALICESW.COM" = "第1章" := by decide
example : normalize_chapter_title "" = "未知章节" := by decide
example : normalize_chapter_title "-_第1章_abcdefg" = "第1章_abcdefg" := by decide
example : normalize_chapter_title "第1章_abcdefg" = "第1章" := by decide

/-! ### Character-class arithmetic -/

theorem toNat_charOfNat {n : Nat} (h : n.isValidChar) : (Char.ofNat n).toNat = n := by
  unfold Char.ofNat
  rw [dif_pos h]
  simp [Char.toNat, Char.ofNatAux, UInt32.toNat, BitVec.toNat_ofNatLt]

theorem lowerChar_toNat_of_upper {c : Char} (h : isAsciiUpper c = true) :
    (lowerChar c).toNat = c.toNat + 32 := by
  have h' : 65 ≤ c.toNat ∧ c.toNat ≤ 90 := by
    unfold isAsciiUpper at h; simpa using h
  unfold lowerChar
  rw [if_pos h]
  exact toNat_charOfNat (by unfold Nat.isValidChar; omega)

theorem isPySpace_eq_false_of_range {c : Char} (h1 : 65 ≤ c.toNat) (h2 : c.toNat ≤ 122) :
    isPySpace c = false := by
  unfold isPySpace
  simp only [Bool.or_eq_false_iff, Bool.and_eq_false_iff, decide_eq_false_iff_not]
  omega

theorem isPySpace_lowerChar (c : Char) : isPySpace (lowerChar c) = isPySpace c := by
  by_cases h : isAsciiUpper c = true
  · have h' : 65 ≤ c.toNat ∧ c.toNat ≤ 90 := by
      unfold isAsciiUpper at h; simpa using h
    have ht := lowerChar_toNat_of_upper h
    rw [@isPySpace_eq_false_of_range (lowerChar c) (by omega) (by omega)]
    rw [isPySpace_eq_false_of_range (by omega) (by omega)]
  · unfold lowerChar
    rw [if_neg h]

theorem lowerChar_ne_of_ws {a b : Char} (ha : isPySpace a = false) (hb : isPySpace b = true) :
    lowerChar a ≠ lowerChar b := by
  intro h
  have h1 := isPySpace_lowerChar a
  have h2 := isPySpace_lowerChar b
  rw [h, h2] at h1
  rw [h1] at hb
  exact absurd hb (by rw [ha]; simp)

/-! ### `html.unescape` acts as the identity on `&`-free text -/

theorem unescapeF_eq_self : ∀ (f : Nat) (l : List Char), l.length ≤ f → '&' ∉ l →
    unescapeF f l = l := by
  intro f
  induction f with
  | zero => intro l _ _; rfl
  | succ f ih =>
    intro l hl hamp
    match l with
    | [] => rfl
    | c :: rest =>
      have hc : ¬(c = '&') := fun h => hamp (h ▸ List.mem_cons_self c rest)
      show (if c = '&' then _ else c :: unescapeF f rest) = c :: rest
      rw [if_neg hc, ih rest (Nat.le_of_succ_le_succ (by simpa using hl))
        (fun h => hamp (List.mem_cons_of_mem _ h))]

theorem htmlUnescapeL_eq_self {l : List Char} (h : '&' ∉ l) : htmlUnescapeL l = l :=
  unescapeF_eq_self l.length l (Nat.le_refl _) h

/-! ### Sublist and membership transport -/

theorem dropTrailing_sublist (p : Char → Bool) (l : List Char) :
    (dropTrailing p l).Sublist l := by
  unfold dropTrailing
  have h : (List.dropWhile p l.reverse).Sublist l.reverse := by
    apply List.dropWhile_sublist
  simpa using h.reverse

theorem dropTrailing_isPre (p : Char → Bool) (l : List Char) :
    dropTrailing p l <+: l := by
  refine ⟨(l.reverse.takeWhile p).reverse, ?_⟩
  unfold dropTrailing
  rw [← List.reverse_append, List.takeWhile_append_dropWhile, List.reverse_reverse]

theorem stripSetL_sublist (set : List Char) (l : List Char) :
    (stripSetL set l).Sublist l :=
  (dropTrailing_sublist _ _).trans (List.dropWhile_sublist _)

theorem pyStripL_sublist (l : List Char) : (pyStripL l).Sublist l :=
  (dropTrailing_sublist _ _).trans (List.dropWhile_sublist _)

theorem mem_collapseWsAux : ∀ (b : Bool) (l : List Char) {c : Char},
    c ∈ collapseWsAux b l → c = ' ' ∨ c ∈ l := by
  intro b l
  induction l generalizing b with
  | nil => intro c h; cases h
  | cons d rest ih =>
    intro c h
    unfold collapseWsAux at h
    by_cases hd : isPySpace d = true
    · rw [if_pos hd] at h
      by_cases hb : b = true
      · rw [if_pos hb] at h
        rcases ih true h with h' | h'
        · exact Or.inl h'
        · exact Or.inr (List.mem_cons_of_mem _ h')
      · rw [if_neg hb] at h
        rcases List.mem_cons.mp h with h' | h'
        · exact Or.inl h'
        · rcases ih true h' with h'' | h''
          · exact Or.inl h''
          · exact Or.inr (List.mem_cons_of_mem _ h'')
    · rw [if_neg hd] at h
      rcases List.mem_cons.mp h with h' | h'
      · exact Or.inr (h' ▸ List.mem_cons_self _ _)
      · rcases ih false h' with h'' | h''
        · exact Or.inl h''
        · exact Or.inr (List.mem_cons_of_mem _ h'')

theorem mem_collapseWsL {l : List Char} {c : Char} (h : c ∈ collapseWsL l) :
    c = ' ' ∨ c ∈ l := mem_collapseWsAux false l h

/-! ### Helpers on `dropWhile`, `dropTrailing`, `take` -/

theorem dropWhile_eq_drop (p : Char → Bool) (l : List Char) :
    l.dropWhile p = l.drop (l.takeWhile p).length := by
  calc l.dropWhile p
      = (l.takeWhile p ++ l.dropWhile p).drop (l.takeWhile p).length := by
        rw [List.drop_left]
    _ = l.drop (l.takeWhile p).length := by
        rw [List.takeWhile_append_dropWhile]

theorem head?_dropWhile_false {p : Char → Bool} {z : List Char} {c : Char}
    (h : (z.dropWhile p).head? = some c) : p c = false := by
  cases hd : z.dropWhile p with
  | nil => rw [hd] at h; cases h
  | cons a r =>
    have hne : z.dropWhile p ≠ [] := by rw [hd]; simp
    have := List.head_dropWhile_not p z hne
    rw [hd] at h
    simp at h
    rw [← h]
    simpa [hd] using this

theorem getLast?_dropTrailing_false {p : Char → Bool} {l : List Char} {c : Char}
    (h : (dropTrailing p l).getLast? = some c) : p c = false := by
  unfold dropTrailing at h
  rw [List.getLast?_reverse] at h
  exact head?_dropWhile_false h

theorem head?_of_isPre {l' l : List Char} {c : Char} (hp : l' <+: l)
    (h : l'.head? = some c) : l.head? = some c := by
  rcases hp with ⟨r, rfl⟩
  rw [List.head?_append, h]
  rfl

theorem head?_dropTrailing {p : Char → Bool} {l : List Char} {c : Char}
    (h : (dropTrailing p l).head? = some c) : l.head? = some c :=
  head?_of_isPre (dropTrailing_isPre p l) h

theorem getLast?_dropWhile {p : Char → Bool} {l : List Char} {c : Char}
    (h : (l.dropWhile p).getLast? = some c) : l.getLast? = some c := by
  have ht : l.takeWhile p ++ l.dropWhile p = l := by
    apply List.takeWhile_append_dropWhile
  conv_lhs => rw [← ht]
  rw [List.getLast?_append, h]
  rfl

theorem head?_stripSetL_false {set l : List Char} {c : Char}
    (h : (stripSetL set l).head? = some c) : set.contains c = false :=
  head?_dropWhile_false (head?_dropTrailing h)

theorem getLast?_stripSetL_false {set l : List Char} {c : Char}
    (h : (stripSetL set l).getLast? = some c) : set.contains c = false :=
  getLast?_dropTrailing_false h

theorem dropWhile_eq_self_of_head {p : Char → Bool} {l : List Char}
    (h : ∀ c, l.head? = some c → p c = false) : l.dropWhile p = l := by
  cases l with
  | nil => rfl
  | cons a r =>
    rw [List.dropWhile_cons, if_neg]
    simp [h a rfl]

theorem dropTrailing_eq_self_of_getLast {p : Char → Bool} {l : List Char}
    (h : ∀ c, l.getLast? = some c → p c = false) : dropTrailing p l = l := by
  unfold dropTrailing
  rw [dropWhile_eq_self_of_head, List.reverse_reverse]
  intro c hc
  rw [List.head?_reverse] at hc
  exact h c hc

theorem stripSetL_eq_self {set l : List Char}
    (hh : ∀ c, l.head? = some c → set.contains c = false)
    (hl : ∀ c, l.getLast? = some c → set.contains c = false) :
    stripSetL set l = l := by
  unfold stripSetL
  rw [dropWhile_eq_self_of_head hh, dropTrailing_eq_self_of_getLast hl]

theorem pyStripL_eq_self {l : List Char}
    (hh : ∀ c, l.head? = some c → isPySpace c = false)
    (hl : ∀ c, l.getLast? = some c → isPySpace c = false) :
    pyStripL l = l := by
  unfold pyStripL
  rw [dropWhile_eq_self_of_head hh, dropTrailing_eq_self_of_getLast hl]

theorem splitFirstAt_eq_none {sep : Char} {l : List Char} (h : sep ∉ l) :
    splitFirstAt sep l = none := by
  induction l with
  | nil => rfl
  | cons c rest ih =>
    unfold splitFirstAt
    rw [if_neg (fun (hc : c = sep) => h (hc ▸ List.mem_cons_self c rest)),
      ih (fun hm => h (List.mem_cons_of_mem _ hm))]

/-! ### Brand-occurrence bookkeeping -/

/-- No brand marker occurs at any position of `l`. -/
def brandFreeB : List Char → Bool
  | [] => true
  | c :: rest => (brandLenAt (c :: rest)).isNone && brandFreeB rest

theorem brandLenAt_nil : brandLenAt [] = none := by decide

theorem brandFreeB_iff (l : List Char) :
    brandFreeB l = true ↔ ∀ j, brandLenAt (l.drop j) = none := by
  induction l with
  | nil => simp [brandFreeB, brandLenAt_nil]
  | cons c rest ih =>
    constructor
    · intro h j
      have h' : (brandLenAt (c :: rest)).isNone = true ∧ brandFreeB rest = true := by
        simpa [brandFreeB] using h
      cases j with
      | zero => exact Option.isNone_iff_eq_none.mp h'.1
      | succ j => exact (ih.mp h'.2) j
    · intro h
      have h0 : brandLenAt (c :: rest) = none := by simpa using h 0
      have hrest : ∀ j, brandLenAt (rest.drop j) = none := fun j => h (j + 1)
      simp [brandFreeB, Option.isNone_iff_eq_none, h0, ih.mpr hrest]

theorem ciIsPrefixOf_take {p : List Char} : ∀ {l : List Char} {m : Nat},
    ciIsPrefixOf p (l.take m) = true → ciIsPrefixOf p l = true := by
  induction p with
  | nil => intro l m _; rfl
  | cons c p' ih =>
    intro l m h
    match l, m with
    | [], _ => simpa [List.take_nil] using h
    | _ :: _, 0 => exact absurd h (by simp [List.take_zero, ciIsPrefixOf])
    | d :: l', m' + 1 =>
      simp only [List.take_succ_cons, ciIsPrefixOf, Bool.and_eq_true] at h ⊢
      exact ⟨h.1, ih h.2⟩

theorem ciIsPrefixOf_head {c : Char} {p l : List Char}
    (h : ciIsPrefixOf (c :: p) l = true) :
    ∃ d l', l = d :: l' ∧ lowerChar c = lowerChar d := by
  match l with
  | [] => exact absurd h (by simp [ciIsPrefixOf])
  | d :: l' =>
    simp only [ciIsPrefixOf, Bool.and_eq_true, decide_eq_true_eq] at h
    exact ⟨d, l', rfl, h.1⟩

theorem brand1_data : "alicesw.com".data = 'a' :: "licesw.com".data := by decide

theorem brand2_data : "愛麗絲書屋".data = '愛' :: "麗絲書屋".data := by decide

theorem brandLenAt_take {l : List Char} {m : Nat} {len : Nat}
    (h : brandLenAt (l.take m) = some len) : brandLenAt l = some len := by
  unfold brandLenAt at h ⊢
  by_cases h1 : ciIsPrefixOf "alicesw.com".data (l.take m) = true
  · rw [if_pos h1] at h
    rw [if_pos (ciIsPrefixOf_take h1)]
    exact h
  · rw [if_neg h1] at h
    by_cases h2 : ciIsPrefixOf "愛麗絲書屋".data (l.take m) = true
    · rw [if_pos h2] at h
      have h2' := ciIsPrefixOf_take h2
      have hno1 : ¬(ciIsPrefixOf "alicesw.com".data l = true) := by
        intro hc
        rw [brand2_data] at h2'
        rw [brand1_data] at hc
        rcases ciIsPrefixOf_head h2' with ⟨d, l', hl, hd2⟩
        rcases ciIsPrefixOf_head hc with ⟨d', l'', hl', hd1⟩
        rw [hl] at hl'
        injection hl' with hdd _
        rw [← hdd] at hd1
        rw [← hd1] at hd2
        exact absurd hd2 (by decide)
      rw [if_neg hno1, if_pos h2']
      exact h
    · rw [if_neg h2] at h
      cases h

theorem brandFreeB_take {l : List Char} (h : brandFreeB l = true) (m : Nat) :
    brandFreeB (l.take m) = true := by
  rw [brandFreeB_iff] at h ⊢
  intro j
  rw [List.drop_take]
  cases heq : brandLenAt ((l.drop j).take (m - j)) with
  | none => rfl
  | some len => exact absurd (brandLenAt_take heq) (by rw [h j]; simp)

theorem brandFreeB_drop {l : List Char} (h : brandFreeB l = true) (m : Nat) :
    brandFreeB (l.drop m) = true := by
  rw [brandFreeB_iff] at h ⊢
  intro j
  rw [List.drop_drop]
  exact h (m + j)

theorem brandFreeB_of_isPre {l' l : List Char} (hp : l' <+: l)
    (h : brandFreeB l = true) : brandFreeB l' = true := by
  rw [List.prefix_iff_eq_take.mp hp]
  exact brandFreeB_take h _

/-! ### `brandSplit` specification (newline-free case) -/

theorem brandTailOk_of_noNl {l : List Char} (h : '\n' ∉ l) : brandTailOk l = true := by
  unfold brandTailOk dropOneTrailingNl
  rw [if_neg]
  · simpa [noNlB] using h
  · intro hl
    exact h (List.mem_of_mem_getLast? (by simp [hl]))

theorem brandSplit_some_spec : ∀ {s pre : List Char} {len : Nat} {t : List Char},
    '\n' ∉ s → brandSplit s = some (pre, len, t) →
    (∃ mid, s = pre ++ mid ++ t) ∧ (∀ j, j < pre.length → brandLenAt (s.drop j) = none) := by
  intro s
  induction s with
  | nil => intro pre len t _ h; cases h
  | cons c rest ih =>
    intro pre len t hnl h
    have hnl' : '\n' ∉ rest := fun hm => hnl (List.mem_cons_of_mem _ hm)
    unfold brandSplit at h
    split at h
    · -- brandLenAt (c :: rest) = some len0
      rename_i len0 hb
      split at h
      · -- tail matchable: the match starts here, pre = []
        simp only [Option.some.injEq, Prod.mk.injEq] at h
        obtain ⟨h1, _, h3⟩ := h
        subst h1
        subst h3
        refine ⟨⟨(c :: rest).take len0, ?_⟩, ?_⟩
        · rw [List.nil_append, List.take_append_drop]
        · intro j hj
          cases hj
      · -- impossible without a newline: the tail is always matchable
        rename_i htail
        exact absurd (brandTailOk_of_noNl
          (fun hm => hnl ((List.drop_sublist _ _).subset hm))) htail
    · -- brandLenAt (c :: rest) = none: recurse
      rename_i hb
      split at h
      · rename_i pre' len' t' hs
        simp only [Option.some.injEq, Prod.mk.injEq] at h
        obtain ⟨h1, h2, h3⟩ := h
        subst h1
        subst h2
        subst h3
        rcases ih hnl' hs with ⟨⟨mid, hmid⟩, hfree⟩
        refine ⟨⟨mid, by simp [hmid]⟩, ?_⟩
        intro j hj
        cases j with
        | zero => exact hb
        | succ j => exact hfree j (by simpa using hj)
      · cases h

theorem brandSplit_eq_none_of_brandFree : ∀ {s : List Char},
    brandFreeB s = true → brandSplit s = none := by
  intro s
  induction s with
  | nil => intro _; rfl
  | cons c rest ih =>
    intro h
    have h' : (brandLenAt (c :: rest)).isNone = true ∧ brandFreeB rest = true := by
      simpa [brandFreeB] using h
    unfold brandSplit
    rw [Option.isNone_iff_eq_none.mp h'.1, ih h'.2]

theorem brandFreeB_of_brandSplit_none : ∀ {s : List Char},
    '\n' ∉ s → brandSplit s = none → brandFreeB s = true := by
  intro s
  induction s with
  | nil => intro _ _; rfl
  | cons c rest ih =>
    intro hnl h
    unfold brandSplit at h
    split at h
    · rename_i len0 hb
      have htail : brandTailOk ((c :: rest).drop len0) = true :=
        brandTailOk_of_noNl (fun hm => hnl ((List.drop_sublist _ _).subset hm))
      rw [if_pos htail] at h
      cases h
    · rename_i hb
      have hrest : brandSplit rest = none := by
        cases hs : brandSplit rest with
        | none => rfl
        | some v =>
          obtain ⟨a, b, c'⟩ := v
          rw [hs] at h
          cases h
      simp [brandFreeB, hb, ih (fun hm => hnl (List.mem_cons_of_mem _ hm)) hrest]

/-! ### Unfolding equations for `collapseWsAux` -/

theorem collapseWsAux_cons_ws_false {d : Char} {rest : List Char} (hd : isPySpace d = true) :
    collapseWsAux false (d :: rest) = ' ' :: collapseWsAux true rest := by
  show (if isPySpace d = true then
      if false = true then collapseWsAux true rest else ' ' :: collapseWsAux true rest
    else d :: collapseWsAux false rest) = ' ' :: collapseWsAux true rest
  rw [if_pos hd]
  simp

theorem collapseWsAux_cons_ws_true {d : Char} {rest : List Char} (hd : isPySpace d = true) :
    collapseWsAux true (d :: rest) = collapseWsAux true rest := by
  show (if isPySpace d = true then
      if true = true then collapseWsAux true rest else ' ' :: collapseWsAux true rest
    else d :: collapseWsAux false rest) = collapseWsAux true rest
  rw [if_pos hd]
  simp

theorem collapseWsAux_cons_nonws (b : Bool) {d : Char} {rest : List Char}
    (hd : isPySpace d = false) :
    collapseWsAux b (d :: rest) = d :: collapseWsAux false rest := by
  cases b with
  | true =>
    show (if isPySpace d = true then
        if true = true then collapseWsAux true rest else ' ' :: collapseWsAux true rest
      else d :: collapseWsAux false rest) = d :: collapseWsAux false rest
    rw [if_neg (by simp [hd])]
  | false =>
    show (if isPySpace d = true then
        if false = true then collapseWsAux true rest else ' ' :: collapseWsAux true rest
      else d :: collapseWsAux false rest) = d :: collapseWsAux false rest
    rw [if_neg (by simp [hd])]

/-! ### Collapsing whitespace cannot create a brand occurrence -/

def allNonWs (p : List Char) : Bool := p.all (fun c => !isPySpace c)

theorem allNonWs_tail {c : Char} {p : List Char} (hp : allNonWs (c :: p) = true) :
    allNonWs p = true := by
  rw [allNonWs, List.all_eq_true] at hp ⊢
  exact fun x hx => hp x (List.mem_cons_of_mem _ hx)

theorem allNonWs_head {c : Char} {p : List Char} (hp : allNonWs (c :: p) = true) :
    isPySpace c = false := by
  have := (List.all_eq_true.mp hp) c (List.mem_cons_self _ _)
  simpa using this

theorem ciIsPrefixOf_collapseAux_false : ∀ (l p : List Char), allNonWs p = true →
    ciIsPrefixOf p (collapseWsAux false l) = ciIsPrefixOf p l := by
  intro l
  induction l with
  | nil => intro p _; rfl
  | cons d rest ih =>
    intro p hp
    match p with
    | [] => rfl
    | c :: p' =>
      have hc : isPySpace c = false := allNonWs_head hp
      have hp' : allNonWs p' = true := allNonWs_tail hp
      by_cases hd : isPySpace d = true
      · rw [collapseWsAux_cons_ws_false hd]
        show (decide (lowerChar c = lowerChar ' ') && _) = (decide (lowerChar c = lowerChar d) && _)
        rw [decide_eq_false (lowerChar_ne_of_ws hc (by decide)),
          decide_eq_false (lowerChar_ne_of_ws hc hd)]
        simp
      · have hd' : isPySpace d = false := by simpa using hd
        rw [collapseWsAux_cons_nonws false hd']
        show (decide (lowerChar c = lowerChar d) && ciIsPrefixOf p' (collapseWsAux false rest))
          = (decide (lowerChar c = lowerChar d) && ciIsPrefixOf p' rest)
        rw [ih p' hp']

theorem ciIsPrefixOf_brand_cons (p : List Char) (hp : allNonWs p = true) (d : Char)
    (rest : List Char) :
    ciIsPrefixOf p (d :: collapseWsAux false rest) = ciIsPrefixOf p (d :: rest) := by
  match p with
  | [] => rfl
  | c :: p' =>
    have hp' : allNonWs p' = true := allNonWs_tail hp
    show (decide (lowerChar c = lowerChar d) && ciIsPrefixOf p' (collapseWsAux false rest))
      = (decide (lowerChar c = lowerChar d) && ciIsPrefixOf p' rest)
    rw [ciIsPrefixOf_collapseAux_false rest p' hp']

theorem brandLenAt_cons_collapse (d : Char) (rest : List Char) :
    brandLenAt (d :: collapseWsAux false rest) = brandLenAt (d :: rest) := by
  unfold brandLenAt
  rw [ciIsPrefixOf_brand_cons "alicesw.com".data (by decide) d rest,
    ciIsPrefixOf_brand_cons "愛麗絲書屋".data (by decide) d rest]

theorem brandLenAt_cons_of_ws {d : Char} (hd : isPySpace d = true) (X : List Char) :
    brandLenAt (d :: X) = none := by
  have h1 : ciIsPrefixOf "alicesw.com".data (d :: X) = false := by
    rw [brand1_data]
    show (decide (lowerChar 'a' = lowerChar d) && _) = false
    rw [decide_eq_false (lowerChar_ne_of_ws (by decide) hd)]
    rfl
  have h2 : ciIsPrefixOf "愛麗絲書屋".data (d :: X) = false := by
    rw [brand2_data]
    show (decide (lowerChar '愛' = lowerChar d) && _) = false
    rw [decide_eq_false (lowerChar_ne_of_ws (by decide) hd)]
    rfl
  unfold brandLenAt
  simp [h1, h2]

theorem brandFreeB_collapseAux : ∀ (l : List Char) (b : Bool),
    brandFreeB l = true → brandFreeB (collapseWsAux b l) = true := by
  intro l
  induction l with
  | nil => intro b _; cases b <;> rfl
  | cons d rest ih =>
    intro b h
    have h' : (brandLenAt (d :: rest)).isNone = true ∧ brandFreeB rest = true := by
      simpa [brandFreeB] using h
    by_cases hd : isPySpace d = true
    · cases b with
      | true =>
        rw [collapseWsAux_cons_ws_true hd]
        exact ih true h'.2
      | false =>
        rw [collapseWsAux_cons_ws_false hd]
        simp [brandFreeB, brandLenAt_cons_of_ws (show isPySpace ' ' = true by decide),
          ih true h'.2]
    · have hd' : isPySpace d = false := by simpa using hd
      rw [collapseWsAux_cons_nonws b hd']
      have hnone : brandLenAt (d :: collapseWsAux false rest) = none := by
        rw [brandLenAt_cons_collapse]
        exact Option.isNone_iff_eq_none.mp h'.1
      simp [brandFreeB, hnone, ih false h'.2]

/-! ### Normal form produced by whitespace collapsing -/

def wsAllSpaceB (l : List Char) : Bool := l.all (fun c => !isPySpace c || c = ' ')

/-- No two adjacent whitespace characters. -/
def noWsPairB : List Char → Bool
  | [] => true
  | [_] => true
  | a :: b :: r => (!(isPySpace a && isPySpace b)) && noWsPairB (b :: r)

theorem wsAllSpaceB_of_sublist {l' l : List Char} (h : l'.Sublist l)
    (hl : wsAllSpaceB l = true) : wsAllSpaceB l' = true := by
  rw [wsAllSpaceB, List.all_eq_true] at hl ⊢
  exact fun c hc => hl c (h.subset hc)

theorem head?_collapseAux_true : ∀ (l : List Char) {c : Char},
    (collapseWsAux true l).head? = some c → isPySpace c = false := by
  intro l
  induction l with
  | nil => intro c h; cases h
  | cons d rest ih =>
    intro c h
    by_cases hd : isPySpace d = true
    · rw [collapseWsAux_cons_ws_true hd] at h
      exact ih h
    · have hd' : isPySpace d = false := by simpa using hd
      rw [collapseWsAux_cons_nonws true hd'] at h
      injection h with h
      exact h ▸ hd'

theorem wsAllSpaceB_collapseAux : ∀ (l : List Char) (b : Bool),
    wsAllSpaceB (collapseWsAux b l) = true := by
  intro l
  induction l with
  | nil => intro b; cases b <;> rfl
  | cons d rest ih =>
    intro b
    by_cases hd : isPySpace d = true
    · cases b with
      | true => rw [collapseWsAux_cons_ws_true hd]; exact ih true
      | false =>
        rw [collapseWsAux_cons_ws_false hd]
        have hih := ih true
        rw [wsAllSpaceB, List.all_eq_true] at hih ⊢
        intro c hc
        rcases List.mem_cons.mp hc with hc | hc
        · subst hc; decide
        · exact hih c hc
    · have hd' : isPySpace d = false := by simpa using hd
      rw [collapseWsAux_cons_nonws b hd']
      have hih := ih false
      rw [wsAllSpaceB, List.all_eq_true] at hih ⊢
      intro c hc
      rcases List.mem_cons.mp hc with hc | hc
      · subst hc; simp [hd']
      · exact hih c hc

theorem noWsPairB_singleton (a : Char) : noWsPairB [a] = true := rfl

theorem noWsPairB_cons_cons (a b : Char) (r : List Char) :
    noWsPairB (a :: b :: r) = ((!(isPySpace a && isPySpace b)) && noWsPairB (b :: r)) := rfl

theorem noWsPairB_tail : ∀ {a : Char} {r : List Char}, noWsPairB (a :: r) = true →
    noWsPairB r = true := by
  intro a r h
  cases r with
  | nil => rfl
  | cons b r' =>
    rw [noWsPairB_cons_cons, Bool.and_eq_true] at h
    exact h.2

theorem noWsPairB_collapseAux : ∀ (l : List Char) (b : Bool),
    noWsPairB (collapseWsAux b l) = true := by
  intro l
  induction l with
  | nil => intro b; cases b <;> rfl
  | cons d rest ih =>
    intro b
    by_cases hd : isPySpace d = true
    · cases b with
      | true => rw [collapseWsAux_cons_ws_true hd]; exact ih true
      | false =>
        rw [collapseWsAux_cons_ws_false hd]
        cases hX : collapseWsAux true rest with
        | nil => rfl
        | cons e r =>
          have he : isPySpace e = false := head?_collapseAux_true rest (by rw [hX]; rfl)
          have hpair : noWsPairB (e :: r) = true := hX ▸ ih true
          rw [noWsPairB_cons_cons]
          simp [he, hpair]
    · have hd' : isPySpace d = false := by simpa using hd
      rw [collapseWsAux_cons_nonws b hd']
      cases hX : collapseWsAux false rest with
      | nil => rfl
      | cons e r =>
        have hpair : noWsPairB (e :: r) = true := hX ▸ ih false
        rw [noWsPairB_cons_cons]
        simp [hd', hpair]

theorem noWsPairB_drop : ∀ (l : List Char) (m : Nat), noWsPairB l = true →
    noWsPairB (l.drop m) = true := by
  intro l
  induction l with
  | nil => intro m _; simp [noWsPairB]
  | cons a r ih =>
    intro m h
    cases m with
    | zero => exact h
    | succ m => exact ih m (noWsPairB_tail h)

theorem noWsPairB_take : ∀ (l : List Char) (m : Nat), noWsPairB l = true →
    noWsPairB (l.take m) = true := by
  intro l
  induction l with
  | nil => intro m _; simp [noWsPairB]
  | cons a r ih =>
    intro m h
    cases m with
    | zero => rfl
    | succ m =>
      rw [List.take_succ_cons]
      cases r with
      | nil => simp [noWsPairB_singleton]
      | cons b r' =>
        cases m with
        | zero => exact noWsPairB_singleton a
        | succ m' =>
          rw [List.take_succ_cons, noWsPairB_cons_cons, Bool.and_eq_true]
          have h' : noWsPairB (b :: r'.take m') = true := by
            have := ih (m' + 1) (noWsPairB_tail h)
            simpa [List.take_succ_cons] using this
          refine ⟨?_, h'⟩
          rw [noWsPairB_cons_cons, Bool.and_eq_true] at h
          exact h.1

theorem collapseAux_true_eq_false_of_head {l : List Char}
    (h : ∀ c, l.head? = some c → isPySpace c = false) :
    collapseWsAux true l = collapseWsAux false l := by
  cases l with
  | nil => rfl
  | cons d r =>
    have hd := h d rfl
    rw [collapseWsAux_cons_nonws true hd, collapseWsAux_cons_nonws false hd]

theorem collapseAux_false_eq_self : ∀ (l : List Char), wsAllSpaceB l = true →
    noWsPairB l = true → collapseWsAux false l = l := by
  intro l
  induction l with
  | nil => intro _ _; rfl
  | cons d r ih =>
    intro hall hpair
    have hall' : wsAllSpaceB r = true :=
      wsAllSpaceB_of_sublist (List.sublist_cons_self d r) hall
    have hpair' := noWsPairB_tail hpair
    by_cases hd : isPySpace d = true
    · have hds : d = ' ' := by
        have := (List.all_eq_true.mp hall) d (List.mem_cons_self _ _)
        simp [hd] at this
        simpa using this
      rw [collapseWsAux_cons_ws_false hd, hds]
      congr 1
      cases r with
      | nil => rfl
      | cons e r' =>
        have he : isPySpace e = false := by
          rw [noWsPairB_cons_cons, Bool.and_eq_true] at hpair
          have h1 := hpair.1
          cases hcase : isPySpace e with
          | false => rfl
          | true => rw [hd, hcase] at h1; simp at h1
        rw [collapseAux_true_eq_false_of_head (fun c hc => by
          injection hc with hc; exact hc ▸ he)]
        exact ih hall' hpair'
    · have hd' : isPySpace d = false := by simpa using hd
      rw [collapseWsAux_cons_nonws false hd']
      rw [ih hall' hpair']

/-! ### Properties of `brandSubL` on newline-free input -/

theorem brandSubL_props {s : List Char} (hnl : '\n' ∉ s) :
    brandSubL s <+: s ∧ brandFreeB (brandSubL s) = true := by
  cases hs : brandSplit s with
  | none =>
    have heq : brandSubL s = s := by
      simp only [brandSubL, hs]
    rw [heq]
    exact ⟨List.prefix_refl s, brandFreeB_of_brandSplit_none hnl hs⟩
  | some v =>
    obtain ⟨pre, len, t⟩ := v
    rcases brandSplit_some_spec hnl hs with ⟨⟨mid, hmid⟩, hfree⟩
    have ht : ¬(t.getLast? = some '\n') := by
      intro h
      apply hnl
      rw [hmid]
      exact List.mem_append.mpr (Or.inr (List.mem_of_mem_getLast? (by simp [h])))
    have heq : brandSubL s = dropTrailing isStrippy pre := by
      simp only [brandSubL, hs]
      rw [if_neg ht, List.append_nil]
    rw [heq]
    have hpre_pre : pre <+: s := ⟨mid ++ t, by rw [hmid]; simp⟩
    have hfree_pre : brandFreeB pre = true := by
      rw [brandFreeB_iff]
      intro j
      by_cases hj : j < pre.length
      · have hpt : pre.drop j = (s.drop j).take (pre.length - j) := by
          conv_lhs => rw [List.prefix_iff_eq_take.mp hpre_pre]
          rw [List.drop_take]
        rw [hpt]
        cases heq : brandLenAt ((s.drop j).take (pre.length - j)) with
        | none => rfl
        | some len' => exact absurd (brandLenAt_take heq) (by rw [hfree j hj]; simp)
      · rw [List.drop_eq_nil_of_le (by omega), brandLenAt_nil]
    exact ⟨(dropTrailing_isPre _ _).trans hpre_pre,
      brandFreeB_of_isPre (dropTrailing_isPre _ _) hfree_pre⟩

theorem underscoreHeuristic_eq_self {t : List Char} (h : '_' ∉ t) :
    underscoreHeuristic t = t := by
  unfold underscoreHeuristic
  rw [splitFirstAt_eq_none h]

/-! ### The fixed-point argument for `normalize_chapter_title` -/

theorem normalize_unknown_fixed :
    normalizeChapterTitleL unknownChapterL = unknownChapterL := by decide

/-- Any list satisfying the normal-form invariants established by
`nctCore` is a fixed point of the full normalization. -/
theorem normalizeChapterTitleL_fixed {y : List Char} (hne : y ≠ [])
    (hamp : '&' ∉ y) (hund : '_' ∉ y)
    (hbf : brandFreeB y = true)
    (hws : wsAllSpaceB y = true) (hpair : noWsPairB y = true)
    (hh : ∀ c, y.head? = some c → ([' ', '_', '-'].contains c) = false)
    (hl : ∀ c, y.getLast? = some c → ([' ', '_', '-'].contains c) = false) :
    normalizeChapterTitleL y = y := by
  have hh_ws : ∀ c, y.head? = some c → isPySpace c = false := by
    intro c hc
    cases hcase : isPySpace c with
    | false => rfl
    | true =>
      have hmem : c ∈ y := List.mem_of_mem_head? (by simp [hc])
      have := (List.all_eq_true.mp hws) c hmem
      rw [hcase] at this
      simp at this
      rw [this] at hc
      have := hh ' ' hc
      simp at this
  have hl_ws : ∀ c, y.getLast? = some c → isPySpace c = false := by
    intro c hc
    cases hcase : isPySpace c with
    | false => rfl
    | true =>
      have hmem : c ∈ y := List.mem_of_mem_getLast? (by simp [hc])
      have := (List.all_eq_true.mp hws) c hmem
      rw [hcase] at this
      simp at this
      rw [this] at hc
      have := hl ' ' hc
      simp at this
  have hstrip : pyStripL y = y := pyStripL_eq_self hh_ws hl_ws
  have hunesc : htmlUnescapeL y = y := htmlUnescapeL_eq_self hamp
  have hbsub : brandSubL y = y := by
    unfold brandSubL
    rw [brandSplit_eq_none_of_brandFree hbf]
  have hund' : underscoreHeuristic y = y := underscoreHeuristic_eq_self hund
  have hcoll : collapseWsL y = y := collapseAux_false_eq_self y hws hpair
  have hstripset : stripSetL [' ', '_', '-'] y = y := stripSetL_eq_self hh hl
  unfold normalizeChapterTitleL
  rw [hstrip, hunesc]
  rw [if_neg (by simpa [List.isEmpty_iff] using hne)]
  unfold nctCore
  rw [hbsub, hund', hcoll, hstripset]
  rw [if_neg (by simpa [List.isEmpty_iff] using hne)]

/-- The list produced by `nctCore` satisfies all the fixed-point
invariants, provided the input has no underscore and no newline. -/
theorem nctCore_invariants {t : List Char} (hund : '_' ∉ t) (hnl : '\n' ∉ t) :
    ('&' ∉ t → '&' ∉ nctCore t) ∧ '_' ∉ nctCore t ∧
    brandFreeB (nctCore t) = true ∧ wsAllSpaceB (nctCore t) = true ∧
    noWsPairB (nctCore t) = true ∧
    (∀ c, (nctCore t).head? = some c → ([' ', '_', '-'].contains c) = false) ∧
    (∀ c, (nctCore t).getLast? = some c → ([' ', '_', '-'].contains c) = false) := by
  rcases brandSubL_props hnl with ⟨hbpre, hbfree⟩
  have hb_sub : (brandSubL t).Sublist t := hbpre.sublist
  have hund1 : '_' ∉ brandSubL t := fun h => hund (hb_sub.subset h)
  have hheur : underscoreHeuristic (brandSubL t) = brandSubL t :=
    underscoreHeuristic_eq_self hund1
  have hcore : nctCore t = stripSetL [' ', '_', '-'] (collapseWsL (brandSubL t)) := by
    unfold nctCore
    rw [hheur]
  -- the collapsed list
  have hfree2 : brandFreeB (collapseWsL (brandSubL t)) = true :=
    brandFreeB_collapseAux _ false hbfree
  have hws2 : wsAllSpaceB (collapseWsL (brandSubL t)) = true :=
    wsAllSpaceB_collapseAux _ false
  have hpair2 : noWsPairB (collapseWsL (brandSubL t)) = true :=
    noWsPairB_collapseAux _ false
  -- stripSetL is a drop of a take
  have hstrip_decomp : ∀ (z : List Char), stripSetL [' ', '_', '-'] z =
      dropTrailing (fun c => ([' ', '_', '-'] : List Char).contains c)
        (z.dropWhile (fun c => ([' ', '_', '-'] : List Char).contains c)) := by
    intro z; rfl
  constructor
  · intro hamp
    intro h
    rw [hcore] at h
    have h1 := (stripSetL_sublist _ _).subset h
    rcases mem_collapseWsL h1 with h2 | h2
    · cases h2
    · exact hamp (hb_sub.subset h2)
  refine ⟨?_, ?_, ?_, ?_, ?_, ?_⟩
  · intro h
    rw [hcore] at h
    have h1 := (stripSetL_sublist _ _).subset h
    rcases mem_collapseWsL h1 with h2 | h2
    · cases h2
    · exact hund1 h2
  · rw [hcore]
    have h1 : brandFreeB ((collapseWsL (brandSubL t)).dropWhile
        (fun c => ([' ', '_', '-'] : List Char).contains c)) = true := by
      rw [dropWhile_eq_drop]
      exact brandFreeB_drop hfree2 _
    exact brandFreeB_of_isPre (dropTrailing_isPre _ _) h1
  · rw [hcore]
    exact wsAllSpaceB_of_sublist (stripSetL_sublist _ _) hws2
  · rw [hcore, hstrip_decomp]
    have h1 : noWsPairB ((collapseWsL (brandSubL t)).dropWhile
        (fun c => ([' ', '_', '-'] : List Char).contains c)) = true := by
      rw [dropWhile_eq_drop]
      exact noWsPairB_drop _ _ hpair2
    rw [List.prefix_iff_eq_take.mp (dropTrailing_isPre _ _)]
    exact noWsPairB_take _ _ h1
  · intro c hc
    rw [hcore] at hc
    exact head?_stripSetL_false hc
  · intro c hc
    rw [hcore] at hc
    exact getLast?_stripSetL_false hc

/-- Unfolded form of the normalization on a non-underscore input. -/
theorem normalizeChapterTitleL_eq_core {l : List Char}
    (h : ¬((htmlUnescapeL (pyStripL l)).isEmpty = true)) :
    normalizeChapterTitleL l =
      (if (nctCore (htmlUnescapeL (pyStripL l))).isEmpty then unknownChapterL
       else nctCore (htmlUnescapeL (pyStripL l))) := by
  unfold normalizeChapterTitleL
  rw [if_neg h]

theorem normalizeChapterTitleL_idem {l : List Char}
    (h1 : '_' ∉ l) (h2 : '&' ∉ l) (h3 : '\n' ∉ l) :
    normalizeChapterTitleL (normalizeChapterTitleL l) = normalizeChapterTitleL l := by
  by_cases he : (htmlUnescapeL (pyStripL l)).isEmpty = true
  · have hy : normalizeChapterTitleL l = unknownChapterL := by
      unfold normalizeChapterTitleL
      rw [if_pos he]
    rw [hy, normalize_unknown_fixed]
  · -- the unescape is the identity here, so the title inherits the char bans
    have hsub : (pyStripL l).Sublist l := pyStripL_sublist l
    have ht2 : '&' ∉ pyStripL l := fun h => h2 (hsub.subset h)
    have huid : htmlUnescapeL (pyStripL l) = pyStripL l := htmlUnescapeL_eq_self ht2
    have ht1 : '_' ∉ pyStripL l := fun h => h1 (hsub.subset h)
    have ht3 : '\n' ∉ pyStripL l := fun h => h3 (hsub.subset h)
    rw [normalizeChapterTitleL_eq_core he]
    rw [huid] at he ⊢
    rcases nctCore_invariants ht1 ht3 with ⟨hampf, hundf, hbff, hwsf, hpairf, hhf, hlf⟩
    by_cases hce : (nctCore (pyStripL l)).isEmpty = true
    · rw [if_pos hce, normalize_unknown_fixed]
    · rw [if_neg hce]
      exact normalizeChapterTitleL_fixed
        (by simpa [List.isEmpty_iff] using hce)
        (hampf ht2) hundf hbff hwsf hpairf hhf hlf

/-- String-level wrapper equalities. -/
theorem normalize_chapter_title_def (s : String) :
    normalize_chapter_title s = ⟨normalizeChapterTitleL s.data⟩ := rfl

/-- C1 counterexample.  The claim `normalize_chapter_title` is idempotent
for every string fails: on `-_第1章_abcdefg` the first pass does not split
(the text left of the first underscore is `-`, which carries no `第N章`
marker) but the final `strip(" _-")` removes the leading `-_`, so the
second pass sees `第1章_abcdefg`, splits it, and returns `第1章`. -/
theorem C1_counterexample :
    normalize_chapter_title (normalize_chapter_title "-_第1章_abcdefg") ≠
      normalize_chapter_title "-_第1章_abcdefg" := by decide

/-- C1 (amended): `normalize_chapter_title` is idempotent on every string
that contains no underscore, no `&` (HTML character reference lead-in) and
no newline. -/
theorem C1_normalize_chapter_title_idempotent (s : String)
    (h1 : '_' ∉ s.data) (h2 : '&' ∉ s.data) (h3 : '\n' ∉ s.data) :
    normalize_chapter_title (normalize_chapter_title s) = normalize_chapter_title s :=
  congrArg String.mk (normalizeChapterTitleL_idem h1 h2 h3)

/-- C1 witness: the amended idempotence theorem applied at a concrete
title. -/
theorem C1_witness :
    normalize_chapter_title (normalize_chapter_title " 第 7 章 -尾声 ALICESW.COM") =
      normalize_chapter_title " 第 7 章 -尾声 ALICESW.COM" :=
  C1_normalize_chapter_title_idempotent " 第 7 章 -尾声 ALICESW.COM"
    (by decide) (by decide) (by decide)

/-! ## `urllib.parse` model

Models the parts of CPython `urllib.parse` the source uses: `urlparse`
(scheme extraction, `//`-netloc, fragment and query splitting, parameter
splitting for the schemes in `uses_params`), `urlunparse`, `urljoin`
(RFC-3986-style segment resolution as implemented in CPython), and
`quote`/`unquote` (percent-(re)coding over the UTF-8 byte encoding). -/

structure UrlParts where
  scheme : List Char
  netloc : List Char
  path : List Char
  params : List Char
  query : List Char
  fragment : List Char
deriving DecidableEq

def isSchemeChar (c : Char) : Bool :=
  isAsciiAlpha c || isAsciiDigit c || c = '+' || c = '-' || c = '.'

/-- Scheme extraction of `urlsplit`: an initial run of scheme characters
starting with an ASCII letter, terminated by `:`. -/
def splitSchemeL (url : List Char) : Option (List Char × List Char) :=
  match splitFirstAt ':' url with
  | none => none
  | some (before, after) =>
    match before with
    | [] => none
    | c :: _ =>
      if isAsciiAlpha c && before.all isSchemeChar then some (lowerL before, after)
      else none

def isNetlocEnd (c : Char) : Bool := c = '/' || c = '?' || c = '#'

/-- Netloc extraction: after a leading `//`, everything up to the first of
`/`, `?`, `#`. -/
def splitNetlocL (url : List Char) : List Char × List Char :=
  match url with
  | '/' :: '/' :: rest =>
    let n := rest.takeWhile (fun c => !isNetlocEnd c)
    (n, rest.drop n.length)
  | _ => ([], url)

structure SplitParts where
  scheme : List Char
  netloc : List Char
  path : List Char
  query : List Char
  fragment : List Char
deriving DecidableEq

/-- Fragment split (`url.split('#', 1)` when a `#` occurs). -/
def splitFragment (l : List Char) : List Char × List Char :=
  match splitFirstAt '#' l with
  | some (a, b) => (a, b)
  | none => (l, [])

/-- Query split (`url.split('?', 1)` when a `?` occurs). -/
def splitQuery (l : List Char) : List Char × List Char :=
  match splitFirstAt '?' l with
  | some (a, b) => (a, b)
  | none => (l, [])

/-- The raise-free computation of `urlsplit`; CPython's up-front
tab/CR/LF removal and its `ValueError("Invalid IPv6 URL")` on a netloc
with mismatched brackets are modelled separately by `stripUnsafeL` and
`urlsplitRaisesB` below. -/
def urlsplitL (default : List Char) (url : List Char) : SplitParts :=
  let sch := splitSchemeL url
  let scheme := match sch with | some (s, _) => s | none => default
  let rest := match sch with | some (_, r) => r | none => url
  let nl := splitNetlocL rest
  let fr := splitFragment nl.2
  let qr := splitQuery fr.1
  ⟨scheme, nl.1, qr.1, qr.2, fr.2⟩

def usesParams : List (List Char) :=
  [[], "ftp".data, "hdl".data, "prospero".data, "http".data, "imap".data,
   "https".data, "shttp".data, "rtsp".data, "rtspu".data, "sip".data,
   "sips".data, "mms".data, "sftp".data, "tel".data]

/-- CPython `_splitparams`: split the path at the first `;` that lies in
the last path segment. -/
def splitParamsL (path : List Char) : List Char × List Char :=
  if path.contains '/' then
    match splitFirstAt '/' path.reverse with
    | some (ra, rb) =>
      -- path = rb.reverse ++ '/' :: ra.reverse, and ra.reverse is the last segment
      (match splitFirstAt ';' ra.reverse with
       | some (a, b) => (rb.reverse ++ '/' :: a, b)
       | none => (path, []))
    | none => (path, [])
  else
    match splitFirstAt ';' path with
    | some (a, b) => (a, b)
    | none => (path, [])

def urlparseL (default : List Char) (url : List Char) : UrlParts :=
  let s := urlsplitL default url
  if usesParams.contains s.scheme && s.path.contains ';' then
    let pp := splitParamsL s.path
    ⟨s.scheme, s.netloc, pp.1, pp.2, s.query, s.fragment⟩
  else ⟨s.scheme, s.netloc, s.path, [], s.query, s.fragment⟩

def urlunsplitL (scheme netloc url query fragment : List Char) : List Char :=
  let url1 :=
    if ¬(netloc = []) ∨ (¬(url = []) ∧ url.take 2 = ['/', '/']) then
      let u := if ¬(url = []) ∧ ¬(url.head? = some '/') then '/' :: url else url
      '/' :: '/' :: (netloc ++ u)
    else url
  let url2 := if ¬(scheme = []) then scheme ++ ':' :: url1 else url1
  let url3 := if ¬(query = []) then url2 ++ '?' :: query else url2
  if ¬(fragment = []) then url3 ++ '#' :: fragment else url3

def urlunparseL (p : UrlParts) : List Char :=
  let url := if ¬(p.params = []) then p.path ++ ';' :: p.params else p.path
  urlunsplitL p.scheme p.netloc url p.query p.fragment

/-! ### `quote` / `unquote` -/

def utf8Bytes (c : Char) : List Nat :=
  let n := c.toNat
  if n < 0x80 then [n]
  else if n < 0x800 then [0xc0 + n / 64, 0x80 + n % 64]
  else if n < 0x10000 then [0xe0 + n / 4096, 0x80 + (n / 64) % 64, 0x80 + n % 64]
  else [0xf0 + n / 0x40000, 0x80 + (n / 4096) % 64, 0x80 + (n / 64) % 64, 0x80 + n % 64]

def hexDigitUpper (n : Nat) : Char :=
  if n < 10 then Char.ofNat (48 + n) else Char.ofNat (55 + n)

def pctEncodeByte (b : Nat) : List Char :=
  ['%', hexDigitUpper (b / 16), hexDigitUpper (b % 16)]

/-- Characters `quote` never touches, besides the caller's `safe` set. -/
def alwaysSafe (c : Char) : Bool :=
  isAsciiAlpha c || isAsciiDigit c || c = '_' || c = '.' || c = '-' || c = '~'

/-- Model of `urllib.parse.quote(s, safe)`: keep unreserved and safe
characters, percent-encode everything else via its UTF-8 bytes. -/
def quoteL (safe : List Char) (l : List Char) : List Char :=
  l.flatMap fun c =>
    if alwaysSafe c || safe.contains c then [c] else (utf8Bytes c).flatMap pctEncodeByte

def replChar : Char := Char.ofNat 0xfffd

def utf8Cont (b : Nat) : Bool := 0x80 ≤ b && b ≤ 0xbf

def contVal (b : Nat) : Nat := b - 0x80

/-- UTF-8 decoding with U+FFFD replacement for invalid sequences,
modelling `bytes.decode("utf-8", errors="replace")` (replacement
granularity may differ from CPython on invalid input; the source never
decodes invalid sequences). -/
def utf8DecodeF : Nat → List Nat → List Char
  | 0, _ => []
  | _ + 1, [] => []
  | f + 1, b :: rest =>
    if b < 0x80 then Char.ofNat b :: utf8DecodeF f rest
    else if 0xc2 ≤ b && b ≤ 0xdf then
      match rest with
      | b2 :: r2 =>
        if utf8Cont b2 then Char.ofNat ((b - 0xc0) * 64 + contVal b2) :: utf8DecodeF f r2
        else replChar :: utf8DecodeF f rest
      | [] => [replChar]
    else if 0xe0 ≤ b && b ≤ 0xef then
      match rest with
      | b2 :: b3 :: r3 =>
        if utf8Cont b2 && utf8Cont b3 &&
            !(b = 0xe0 && b2 < 0xa0) && !(b = 0xed && b2 > 0x9f) then
          Char.ofNat ((b - 0xe0) * 4096 + contVal b2 * 64 + contVal b3) :: utf8DecodeF f r3
        else replChar :: utf8DecodeF f rest
      | _ => replChar :: utf8DecodeF f rest
    else if 0xf0 ≤ b && b ≤ 0xf4 then
      match rest with
      | b2 :: b3 :: b4 :: r4 =>
        if utf8Cont b2 && utf8Cont b3 && utf8Cont b4 &&
            !(b = 0xf0 && b2 < 0x90) && !(b = 0xf4 && b2 > 0x8f) then
          Char.ofNat ((b - 0xf0) * 0x40000 + contVal b2 * 4096 + contVal b3 * 64 + contVal b4)
            :: utf8DecodeF f r4
        else replChar :: utf8DecodeF f rest
      | _ => replChar :: utf8DecodeF f rest
    else replChar :: utf8DecodeF f rest

def utf8DecodeL (bs : List Nat) : List Char := utf8DecodeF bs.length bs

/-- Collect a maximal leading run of `%XX` escapes as bytes. -/
def pctBytes : List Char → List Nat × List Char
  | '%' :: h1 :: h2 :: rest =>
    match hexDigitVal h1, hexDigitVal h2 with
    | some a, some b =>
      let r := pctBytes rest
      ((16 * a + b) :: r.1, r.2)
    | _, _ => ([], '%' :: h1 :: h2 :: rest)
  | l => ([], l)

/-- Model of `urllib.parse.unquote`: decode maximal `%XX` runs as UTF-8
byte sequences; a `%` not followed by two hex digits stays literal. -/
def unquoteF : Nat → List Char → List Char
  | 0, l => l
  | _ + 1, [] => []
  | f + 1, '%' :: rest =>
    match pctBytes ('%' :: rest) with
    | ([], _) => '%' :: unquoteF f rest
    | (bs, r) => utf8DecodeL bs ++ unquoteF f r
  | f + 1, c :: rest => c :: unquoteF f rest

def unquoteL (l : List Char) : List Char := unquoteF l.length l

/-! ### `urljoin` -/

def usesRelative : List (List Char) :=
  [[], "ftp".data, "http".data, "gopher".data, "nntp".data, "imap".data,
   "wais".data, "file".data, "https".data, "shttp".data, "mms".data,
   "prospero".data, "rtsp".data, "rtspu".data, "sftp".data, "svn".data,
   "svn+ssh".data, "ws".data, "wss".data]

def usesNetloc : List (List Char) :=
  [[], "ftp".data, "http".data, "gopher".data, "nntp".data, "telnet".data,
   "imap".data, "wais".data, "file".data, "mms".data, "https".data,
   "shttp".data, "snews".data, "prospero".data, "rtsp".data, "rtspu".data,
   "rsync".data, "svn".data, "svn+ssh".data, "sftp".data, "nfs".data,
   "git".data, "git+ssh".data, "ws".data, "wss".data]

/-- Python `str.split(sep)` for a single separator character. -/
def splitOnCharAux (sep : Char) : List Char → List Char → List (List Char)
  | [], acc => [acc.reverse]
  | c :: rest, acc =>
    if c = sep then acc.reverse :: splitOnCharAux sep rest []
    else splitOnCharAux sep rest (c :: acc)

def splitOnChar (sep : Char) (l : List Char) : List (List Char) :=
  splitOnCharAux sep l []

/-- CPython `urljoin`'s `segments[1:-1] = filter(None, segments[1:-1])`:
drop empty segments other than the first and last. -/
def dropMidEmpty (segs : List (List Char)) : List (List Char) :=
  match segs with
  | [] => []
  | [a] => [a]
  | a :: b :: rest =>
    let r := b :: rest
    a :: (r.dropLast.filter (fun s => !s.isEmpty) ++ [(r.getLast?).getD []])

def urljoinL (base url : List Char) : List Char :=
  if base.isEmpty then url
  else if url.isEmpty then base
  else
    let b := urlparseL [] base
    let u := urlparseL b.scheme url
    if ¬(u.scheme = b.scheme) ∨ ¬(usesRelative.contains u.scheme) then url
    else if usesNetloc.contains u.scheme ∧ ¬(u.netloc = []) then
      urlunparseL u
    else
      let netloc := if usesNetloc.contains u.scheme then b.netloc else u.netloc
      if u.path = [] ∧ u.params = [] then
        let query := if u.query = [] then b.query else u.query
        urlunparseL ⟨u.scheme, netloc, b.path, b.params, query, u.fragment⟩
      else
        let segments :=
          if u.path.head? = some '/' then splitOnChar '/' u.path
          else
            let baseParts := splitOnChar '/' b.path
            let baseParts :=
              if baseParts.getLast? = some [] then baseParts else baseParts.dropLast
            dropMidEmpty (baseParts ++ splitOnChar '/' u.path)
        let resolved := segments.foldl
          (fun acc seg =>
            if seg = "..".data then acc.dropLast
            else if seg = ".".data then acc
            else acc ++ [seg]) ([] : List (List Char))
        let resolved :=
          if segments.getLast? = some "..".data ∨ segments.getLast? = some ".".data then
            resolved ++ [[]]
          else resolved
        let path := List.intercalate ['/'] resolved
        let path := if path = [] then ['/'] else path
        urlunparseL ⟨u.scheme, netloc, path, u.params, u.query, u.fragment⟩

/-! ## `sanitize_url` (text.py lines 12-23) -/

def safePath : List Char := "/%:@-._~!$&'()*+,;=".data

def safeQuery : List Char := "=&/%:@-._~!$'()*+,;?".data

/-- Resolution step of `sanitize_url`: join against the base when one is
given. -/
def resolveCandidate (base candidate : List Char) : List Char :=
  if ¬(base = []) then urljoinL base candidate else candidate

/-- The raise-free pipeline of `sanitize_url`; the urllib `ValueError`
that `sanitize_url` propagates (it has no handler) is modelled by
`sanitizeUrlE` below. -/
def sanitizeUrlL (rawUrl baseUrl : List Char) : Option (List Char) :=
  let candidate := pyStripL (htmlUnescapeL rawUrl)
  if candidate.isEmpty then none
  else
    let candidate := resolveCandidate baseUrl candidate
    let p := urlparseL [] candidate
    if ¬(p.scheme = "http".data ∨ p.scheme = "https".data) ∨ p.netloc = [] then none
    else
      some (urlunparseL ⟨p.scheme, p.netloc, quoteL safePath (unquoteL p.path),
        p.params, quoteL safeQuery (unquoteL p.query), []⟩)

def sanitize_url (rawUrl : String) (baseUrl : String := "") : Option String :=
  (sanitizeUrlL rawUrl.data baseUrl.data).map String.mk

example : sanitize_url "/book/5/1.html" "https://site.com/index.html" =
    some "https://site.com/book/5/1.html" := by decide
example : sanitize_url "https://other.com/book/1.html" "https://site.com/index.html" =
    some "https://other.com/book/1.html" := by decide
example : sanitize_url "javascript:void(0)" "https://site.com/index.html" = none := by decide
example : sanitize_url "  " "https://site.com/index.html" = none := by decide
example : sanitize_url "a b.html" "https://site.com/x/" =
    some "https://site.com/x/a%20b.html" := by decide
example : sanitize_url "https://site.com/p.html#frag" "" =
    some "https://site.com/p.html" := by decide
example : sanitize_url "../up.html" "https://site.com/a/b/c.html" =
    some "https://site.com/a/up.html" := by decide

/-! ### Facts about `splitFirstAt` -/

theorem splitFirstAt_spec {sep : Char} : ∀ {l a b : List Char},
    splitFirstAt sep l = some (a, b) → l = a ++ sep :: b ∧ sep ∉ a := by
  intro l
  induction l with
  | nil => intro a b h; cases h
  | cons c rest ih =>
    intro a b h
    unfold splitFirstAt at h
    by_cases hc : c = sep
    · rw [if_pos hc] at h
      simp only [Option.some.injEq, Prod.mk.injEq] at h
      obtain ⟨h1, h2⟩ := h
      subst h1
      subst h2
      exact ⟨by rw [hc]; rfl, by simp⟩
    · rw [if_neg hc] at h
      cases hs : splitFirstAt sep rest with
      | none => rw [hs] at h; cases h
      | some v =>
        obtain ⟨a', b'⟩ := v
        rw [hs] at h
        simp only [Option.some.injEq, Prod.mk.injEq] at h
        obtain ⟨h1, h2⟩ := h
        subst h2
        rcases ih hs with ⟨heq, hnm⟩
        subst h1
        constructor
        · rw [heq]; rfl
        · intro hmem
          rcases List.mem_cons.mp hmem with hmem | hmem
          · exact hc hmem.symm
          · exact hnm hmem

theorem splitFirstAt_append {sep : Char} : ∀ {a : List Char} (b : List Char),
    sep ∉ a → splitFirstAt sep (a ++ sep :: b) = some (a, b) := by
  intro a
  induction a with
  | nil =>
    intro b _
    show splitFirstAt sep (sep :: b) = some ([], b)
    unfold splitFirstAt
    simp
  | cons c a' ih =>
    intro b h
    have hc : ¬(c = sep) := fun hc => h (hc ▸ List.mem_cons_self c a')
    show splitFirstAt sep (c :: (a' ++ sep :: b)) = _
    unfold splitFirstAt
    rw [if_neg hc, ih b (fun hm => h (List.mem_cons_of_mem _ hm))]

/-! ### Character provenance in the URL parsers -/

theorem char_toNat_lt (c : Char) : c.toNat < 0x110000 := by
  have h := c.valid
  unfold UInt32.isValidChar Nat.isValidChar at h
  unfold Char.toNat
  rcases h with h | h
  · omega
  · omega

theorem mem_splitNetlocL {u : List Char} {c : Char} (h : c ∈ (splitNetlocL u).1) :
    isNetlocEnd c = false := by
  unfold splitNetlocL at h
  split at h
  · have h' : c ∈ List.takeWhile (fun c => !isNetlocEnd c) _ := h
    have := List.mem_takeWhile_imp h'
    simpa using this
  · exact absurd h (List.not_mem_nil c)

theorem mem_urlsplit_netloc {d s : List Char} {c : Char}
    (h : c ∈ (urlsplitL d s).netloc) : isNetlocEnd c = false := by
  have h' : c ∈ (splitNetlocL
      (match splitSchemeL s with | some (_, r) => r | none => s)).1 := h
  exact mem_splitNetlocL h'

theorem urlparseL_netloc_eq (d s : List Char) :
    (urlparseL d s).netloc = (urlsplitL d s).netloc := by
  by_cases h : (urlsplitL d s).scheme ∈ usesParams ∧ ';' ∈ (urlsplitL d s).path
  · simp [urlparseL, h]
  · simp [urlparseL, h]

theorem urlparseL_scheme_eq (d s : List Char) :
    (urlparseL d s).scheme = (urlsplitL d s).scheme := by
  by_cases h : (urlsplitL d s).scheme ∈ usesParams ∧ ';' ∈ (urlsplitL d s).path
  · simp [urlparseL, h]
  · simp [urlparseL, h]

theorem urlparseL_fragment_eq (d s : List Char) :
    (urlparseL d s).fragment = (urlsplitL d s).fragment := by
  by_cases h : (urlsplitL d s).scheme ∈ usesParams ∧ ';' ∈ (urlsplitL d s).path
  · simp [urlparseL, h]
  · simp [urlparseL, h]

theorem urlparseL_query_eq (d s : List Char) :
    (urlparseL d s).query = (urlsplitL d s).query := by
  by_cases h : (urlsplitL d s).scheme ∈ usesParams ∧ ';' ∈ (urlsplitL d s).path
  · simp [urlparseL, h]
  · simp [urlparseL, h]

theorem mem_urlparseL_netloc {d s : List Char} {c : Char}
    (h : c ∈ (urlparseL d s).netloc) : isNetlocEnd c = false := by
  rw [urlparseL_netloc_eq] at h
  exact mem_urlsplit_netloc h

/-! ### No-`#` facts for `quote` and the parsed components -/

theorem splitFirstAt_eq_none_iff {sep : Char} {l : List Char} :
    splitFirstAt sep l = none ↔ sep ∉ l := by
  constructor
  · intro h hmem
    induction l with
    | nil => cases hmem
    | cons c rest ih =>
      unfold splitFirstAt at h
      by_cases hc : c = sep
      · rw [if_pos hc] at h; cases h
      · rw [if_neg hc] at h
        rcases List.mem_cons.mp hmem with hm | hm
        · exact hc hm.symm
        · cases hs : splitFirstAt sep rest with
          | some v => rw [hs] at h; cases h
          | none => exact ih hs hm
  · exact splitFirstAt_eq_none

theorem hexDigitUpper_ne_hash {n : Nat} (hn : n < 16) : hexDigitUpper n ≠ '#' := by
  have h35 : ('#' : Char).toNat = 35 := by decide
  unfold hexDigitUpper
  by_cases h : n < 10
  · rw [if_pos h]
    intro he
    have := congrArg Char.toNat he
    rw [toNat_charOfNat (by unfold Nat.isValidChar; omega), h35] at this
    omega
  · rw [if_neg h]
    intro he
    have := congrArg Char.toNat he
    rw [toNat_charOfNat (by unfold Nat.isValidChar; omega), h35] at this
    omega

theorem mem_utf8Bytes_lt {c : Char} {b : Nat} (h : b ∈ utf8Bytes c) : b < 256 := by
  have hc := char_toNat_lt c
  simp only [utf8Bytes] at h
  split at h
  · simp at h; omega
  · split at h
    · simp at h; rcases h with h | h <;> omega
    · split at h
      · simp at h; rcases h with h | h | h <;> omega
      · simp at h; rcases h with h | h | h | h <;> omega

theorem pctEncodeByte_ne_hash {b : Nat} (hb : b < 256) {c : Char}
    (h : c ∈ pctEncodeByte b) : c ≠ '#' := by
  unfold pctEncodeByte at h
  have h' : c = '%' ∨ c = hexDigitUpper (b / 16) ∨ c = hexDigitUpper (b % 16) := by
    simpa using h
  rcases h' with h' | h' | h'
  · subst h'; decide
  · subst h'; exact hexDigitUpper_ne_hash (by omega)
  · subst h'; exact hexDigitUpper_ne_hash (by omega)

theorem hash_not_mem_quoteL {safe l : List Char} (hs : ('#' : Char) ∉ safe) :
    ('#' : Char) ∉ quoteL safe l := by
  intro h
  rw [quoteL, List.mem_flatMap] at h
  obtain ⟨c, _, hmem⟩ := h
  by_cases hk : (alwaysSafe c || safe.contains c) = true
  · rw [if_pos hk] at hmem
    simp only [List.mem_singleton] at hmem
    subst hmem
    have hk' : alwaysSafe '#' = true ∨ ('#' : Char) ∈ safe := by
      simpa using hk
    rcases hk' with hk' | hk'
    · exact absurd hk' (by decide)
    · exact hs hk'
  · rw [if_neg hk] at hmem
    rw [List.mem_flatMap] at hmem
    obtain ⟨b, hb, hmem⟩ := hmem
    exact pctEncodeByte_ne_hash (mem_utf8Bytes_lt hb) hmem rfl

theorem splitFragment_fst_no_hash (l : List Char) : ('#' : Char) ∉ (splitFragment l).1 := by
  unfold splitFragment
  cases hs : splitFirstAt '#' l with
  | some v =>
    obtain ⟨a, b⟩ := v
    exact (splitFirstAt_spec hs).2
  | none =>
    exact splitFirstAt_eq_none_iff.mp hs

theorem mem_splitQuery_fst {l : List Char} {c : Char} (h : c ∈ (splitQuery l).1) : c ∈ l := by
  unfold splitQuery at h
  cases hs : splitFirstAt '?' l with
  | some v =>
    obtain ⟨a, b⟩ := v
    rw [hs] at h
    rw [(splitFirstAt_spec hs).1]
    exact List.mem_append.mpr (Or.inl h)
  | none =>
    rw [hs] at h
    exact h

theorem urlsplitL_path_no_hash (d s : List Char) : ('#' : Char) ∉ (urlsplitL d s).path :=
  fun h => splitFragment_fst_no_hash _ (mem_splitQuery_fst h)

theorem mem_splitParamsL {path : List Char} {c : Char} :
    (c ∈ (splitParamsL path).1 → c ∈ path) ∧ (c ∈ (splitParamsL path).2 → c ∈ path) := by
  by_cases hsl : path.contains '/' = true
  · have hsl' : '/' ∈ path := by simpa using hsl
    cases h1 : splitFirstAt '/' path.reverse with
    | none =>
      have e : splitParamsL path = (path, []) := by
        simp [splitParamsL, hsl', h1]
      rw [e]
      exact ⟨fun h => h, fun h => absurd h (List.not_mem_nil c)⟩
    | some v =>
      obtain ⟨ra, rb⟩ := v
      cases h2 : splitFirstAt ';' ra.reverse with
      | none =>
        have e : splitParamsL path = (path, []) := by
          simp [splitParamsL, hsl', h1, h2]
        rw [e]
        exact ⟨fun h => h, fun h => absurd h (List.not_mem_nil c)⟩
      | some w =>
        obtain ⟨a, b⟩ := w
        have e : splitParamsL path = (rb.reverse ++ '/' :: a, b) := by
          simp [splitParamsL, hsl', h1, h2]
        have hpath : path = rb.reverse ++ '/' :: ra.reverse := by
          have h3 := congrArg List.reverse (splitFirstAt_spec h1).1
          simpa using h3
        have hra : ra.reverse = a ++ ';' :: b := (splitFirstAt_spec h2).1
        rw [e]
        constructor
        · intro h
          rw [hpath, hra]
          rcases List.mem_append.mp h with h | h
          · exact List.mem_append.mpr (Or.inl h)
          · rcases List.mem_cons.mp h with h | h
            · exact List.mem_append.mpr (Or.inr (h ▸ List.mem_cons_self _ _))
            · exact List.mem_append.mpr (Or.inr (List.mem_cons_of_mem _
                (List.mem_append.mpr (Or.inl h))))
        · intro h
          rw [hpath, hra]
          exact List.mem_append.mpr (Or.inr (List.mem_cons_of_mem _
            (List.mem_append.mpr (Or.inr (List.mem_cons_of_mem _ h)))))
  · have hsl' : '/' ∉ path := by simpa using hsl
    cases h2 : splitFirstAt ';' path with
    | none =>
      have e : splitParamsL path = (path, []) := by
        simp [splitParamsL, hsl', h2]
      rw [e]
      exact ⟨fun h => h, fun h => absurd h (List.not_mem_nil c)⟩
    | some w =>
      obtain ⟨a, b⟩ := w
      have e : splitParamsL path = (a, b) := by
        simp [splitParamsL, hsl', h2]
      have hp : path = a ++ ';' :: b := (splitFirstAt_spec h2).1
      rw [e]
      constructor
      · intro h
        rw [hp]
        exact List.mem_append.mpr (Or.inl h)
      · intro h
        rw [hp]
        exact List.mem_append.mpr (Or.inr (List.mem_cons_of_mem _ h))

theorem urlparseL_path_params_no_hash (d s : List Char) :
    ('#' : Char) ∉ (urlparseL d s).path ∧ ('#' : Char) ∉ (urlparseL d s).params := by
  by_cases h : (urlsplitL d s).scheme ∈ usesParams ∧ ';' ∈ (urlsplitL d s).path
  · constructor
    · intro hm
      have hm' : ('#' : Char) ∈ (splitParamsL (urlsplitL d s).path).1 := by
        simpa [urlparseL, h] using hm
      exact urlsplitL_path_no_hash d s (mem_splitParamsL.1 hm')
    · intro hm
      have hm' : ('#' : Char) ∈ (splitParamsL (urlsplitL d s).path).2 := by
        simpa [urlparseL, h] using hm
      exact urlsplitL_path_no_hash d s (mem_splitParamsL.2 hm')
  · constructor
    · intro hm
      have hm' : ('#' : Char) ∈ (urlsplitL d s).path := by
        simpa [urlparseL, h] using hm
      exact urlsplitL_path_no_hash d s hm'
    · intro hm
      have hm' : ('#' : Char) ∈ ([] : List Char) := by
        simpa [urlparseL, h] using hm
      exact absurd hm' (List.not_mem_nil _)

/-! ### Re-parsing a URL built by `urlunparse` -/

theorem splitSchemeL_http (rest : List Char) :
    splitSchemeL ("http".data ++ ':' :: rest) = some ("http".data, rest) := rfl

theorem splitSchemeL_https (rest : List Char) :
    splitSchemeL ("https".data ++ ':' :: rest) = some ("https".data, rest) := rfl

theorem urlsplitL_scheme_of (d : List Char) {s p r : List Char}
    (h : splitSchemeL s = some (p, r)) : (urlsplitL d s).scheme = p := by
  simp [urlsplitL, h]

theorem urlsplitL_netloc_of (d : List Char) {s p r : List Char}
    (h : splitSchemeL s = some (p, r)) :
    (urlsplitL d s).netloc = (splitNetlocL r).1 := by
  simp [urlsplitL, h]

theorem mem_splitNetlocL_snd {u : List Char} {c : Char}
    (h : c ∈ (splitNetlocL u).2) : c ∈ u := by
  unfold splitNetlocL at h
  split at h
  · rename_i rest
    have h' : c ∈ List.drop (rest.takeWhile (fun c => !isNetlocEnd c)).length rest := h
    exact List.mem_cons_of_mem _ (List.mem_cons_of_mem _ ((List.drop_sublist _ _).subset h'))
  · exact h

theorem splitSchemeL_some_sub {s p r : List Char} (h : splitSchemeL s = some (p, r)) :
    ∀ c, c ∈ r → c ∈ s := by
  unfold splitSchemeL at h
  cases h1 : splitFirstAt ':' s with
  | none => rw [h1] at h; cases h
  | some v =>
    obtain ⟨before, after⟩ := v
    rw [h1] at h
    have hspec := (splitFirstAt_spec h1).1
    cases before with
    | nil => exact Option.noConfusion h
    | cons c0 b0 =>
      by_cases hcond : (isAsciiAlpha c0 && ((c0 :: b0).all isSchemeChar)) = true
      · have h2 : some (lowerL (c0 :: b0), after) = some (p, r) := by
          have h3 : (if (isAsciiAlpha c0 && ((c0 :: b0).all isSchemeChar)) = true
              then some (lowerL (c0 :: b0), after) else none) = some (p, r) := h
          rwa [if_pos hcond] at h3
        simp only [Option.some.injEq, Prod.mk.injEq] at h2
        intro c hc
        rw [hspec]
        exact List.mem_append.mpr (Or.inr (List.mem_cons_of_mem _ (h2.2 ▸ hc)))
      · have h3 : (if (isAsciiAlpha c0 && ((c0 :: b0).all isSchemeChar)) = true
            then some (lowerL (c0 :: b0), after) else none) = some (p, r) := h
        rw [if_neg hcond] at h3
        exact Option.noConfusion h3

theorem splitFragment_snd_empty {l : List Char} (h : ('#' : Char) ∉ l) :
    (splitFragment l).2 = [] := by
  unfold splitFragment
  rw [splitFirstAt_eq_none h]

theorem urlsplitL_fragment_of_no_hash {d s : List Char} (h : ('#' : Char) ∉ s) :
    (urlsplitL d s).fragment = [] := by
  cases hs : splitSchemeL s with
  | none =>
    have heq : (urlsplitL d s).fragment = (splitFragment (splitNetlocL s).2).2 := by
      simp [urlsplitL, hs]
    rw [heq]
    exact splitFragment_snd_empty (fun hm => h (mem_splitNetlocL_snd hm))
  | some v =>
    obtain ⟨p, r⟩ := v
    have heq : (urlsplitL d s).fragment = (splitFragment (splitNetlocL r).2).2 := by
      simp [urlsplitL, hs]
    rw [heq]
    exact splitFragment_snd_empty
      (fun hm => h (splitSchemeL_some_sub hs _ (mem_splitNetlocL_snd hm)))

theorem urlparseL_fragment_of_no_hash {s : List Char} (h : ('#' : Char) ∉ s)
    (d : List Char) : (urlparseL d s).fragment = [] := by
  rw [urlparseL_fragment_eq]
  exact urlsplitL_fragment_of_no_hash h

/-! ### Character provenance of `urlunsplit`/`urlunparse` output -/

set_option maxHeartbeats 2000000 in
theorem urlunsplit_mem {scheme netloc url query fragment : List Char} {c : Char}
    (h : c ∈ urlunsplitL scheme netloc url query fragment) :
    c ∈ scheme ∨ c ∈ netloc ∨ c ∈ url ∨ c ∈ query ∨ c ∈ fragment ∨
      c = ':' ∨ c = '/' ∨ c = '?' ∨ (c = '#' ∧ ¬(fragment = [])) := by
  by_cases b1 : netloc = []
  all_goals by_cases b2 : url = []
  all_goals by_cases b3 : url.take 2 = ['/', '/']
  all_goals by_cases b4 : url.head? = some '/'
  all_goals by_cases b5 : scheme = []
  all_goals by_cases b6 : query = []
  all_goals by_cases b7 : fragment = []
  all_goals
    (simp [urlunsplitL, b1, b2, b3, b4, b5, b6, b7,
      List.mem_append, List.mem_cons] at h
     try tauto)

theorem urlunparseL_mem {p : UrlParts} {c : Char} (h : c ∈ urlunparseL p) :
    c ∈ p.scheme ∨ c ∈ p.netloc ∨ c ∈ p.path ∨ c ∈ p.params ∨ c ∈ p.query ∨
      c ∈ p.fragment ∨ c = ':' ∨ c = '/' ∨ c = '?' ∨ (c = '#' ∧ ¬(p.fragment = [])) ∨
      c = ';' := by
  simp only [urlunparseL] at h
  rcases urlunsplit_mem h with h | h | h | h | h | h | h | h | h
  · tauto
  · tauto
  · -- the path-with-params component
    by_cases hp : ¬(p.params = [])
    · rw [if_pos hp] at h
      rcases List.mem_append.mp h with h | h
      · tauto
      · rcases List.mem_cons.mp h with h | h <;> tauto
    · rw [if_neg hp] at h
      tauto
  · tauto
  · tauto
  · tauto
  · tauto
  · tauto
  · tauto

theorem reparse_scheme_netloc {scheme netloc url query : List Char}
    (hs : scheme = "http".data ∨ scheme = "https".data)
    (hn : ¬(netloc = [])) (hnp : ∀ c ∈ netloc, isNetlocEnd c = false) :
    (urlsplitL [] (urlunsplitL scheme netloc url query [])).scheme = scheme ∧
    ¬((urlsplitL [] (urlunsplitL scheme netloc url query [])).netloc = []) := by
  have hsne : ¬(scheme = []) := by
    rcases hs with h | h <;> subst h <;> decide
  have hshape : ∃ Y, urlunsplitL scheme netloc url query [] =
      scheme ++ ':' :: '/' :: '/' :: (netloc ++ Y) := by
    by_cases hq : query = []
    · refine ⟨if ¬(url = []) ∧ ¬(url.head? = some '/') then '/' :: url else url, ?_⟩
      simp [urlunsplitL, hn, hsne, hq]
    · refine ⟨(if ¬(url = []) ∧ ¬(url.head? = some '/') then '/' :: url else url) ++
        '?' :: query, ?_⟩
      simp [urlunsplitL, hn, hsne, hq, List.append_assoc]
  obtain ⟨Y, hr⟩ := hshape
  rw [hr]
  have hsch : splitSchemeL (scheme ++ ':' :: ('/' :: '/' :: (netloc ++ Y))) =
      some (scheme, '/' :: '/' :: (netloc ++ Y)) := by
    rcases hs with h | h <;> subst h
    · exact splitSchemeL_http _
    · exact splitSchemeL_https _
  refine ⟨urlsplitL_scheme_of [] hsch, ?_⟩
  rw [urlsplitL_netloc_of [] hsch]
  cases netloc with
  | nil => exact absurd rfl hn
  | cons n0 ntl =>
    have hpred : (!isNetlocEnd n0) = true := by
      simp [hnp n0 (List.mem_cons_self _ _)]
    show ¬((splitNetlocL ('/' :: '/' :: ((n0 :: ntl) ++ Y))).1 = [])
    unfold splitNetlocL
    simp only [List.cons_append]
    intro hcon
    rw [List.takeWhile_cons, if_pos hpred] at hcon
    cases hcon

/-! ## C6: the error contract of `sanitize_url` -/

theorem sanitizeUrlL_none_iff (raw base : List Char) :
    sanitizeUrlL raw base = none ↔
      pyStripL (htmlUnescapeL raw) = [] ∨
      ¬((urlparseL [] (resolveCandidate base (pyStripL (htmlUnescapeL raw)))).scheme
          = "http".data ∨
        (urlparseL [] (resolveCandidate base (pyStripL (htmlUnescapeL raw)))).scheme
          = "https".data) ∨
      (urlparseL [] (resolveCandidate base (pyStripL (htmlUnescapeL raw)))).netloc = [] := by
  by_cases he : (pyStripL (htmlUnescapeL raw)).isEmpty = true
  · have he' := List.isEmpty_iff.mp he
    simp [sanitizeUrlL, he, he']
  · have he' : ¬(pyStripL (htmlUnescapeL raw) = []) :=
      fun h => he (List.isEmpty_iff.mpr h)
    by_cases hc :
        ¬((urlparseL [] (resolveCandidate base (pyStripL (htmlUnescapeL raw)))).scheme
            = "http".data ∨
          (urlparseL [] (resolveCandidate base (pyStripL (htmlUnescapeL raw)))).scheme
            = "https".data) ∨
        (urlparseL [] (resolveCandidate base (pyStripL (htmlUnescapeL raw)))).netloc = []
    · simp [sanitizeUrlL, he, he', hc]
      try tauto
    · simp [sanitizeUrlL, he, he', hc]
      try tauto

theorem sanitizeUrlL_some_spec {raw base r : List Char}
    (h : sanitizeUrlL raw base = some r) :
    ((urlparseL [] r).scheme = "http".data ∨ (urlparseL [] r).scheme = "https".data) ∧
    ¬((urlparseL [] r).netloc = []) ∧ ('#' : Char) ∉ r ∧
    (urlparseL [] r).fragment = [] := by
  simp only [sanitizeUrlL] at h
  split at h
  · cases h
  · split at h
    · cases h
    · rename_i he hcond
      push_neg at hcond
      obtain ⟨hscheme, hnetloc⟩ := hcond
      simp only [Option.some.injEq] at h
      have hnp : ∀ c, c ∈ (urlparseL []
          (resolveCandidate base (pyStripL (htmlUnescapeL raw)))).netloc →
          isNetlocEnd c = false := fun c hc => mem_urlparseL_netloc hc
      have hpp := urlparseL_path_params_no_hash []
        (resolveCandidate base (pyStripL (htmlUnescapeL raw)))
      generalize hp : urlparseL [] (resolveCandidate base (pyStripL (htmlUnescapeL raw)))
        = p at h hscheme hnetloc hnp hpp
      have hunp : urlunparseL ⟨p.scheme, p.netloc, quoteL safePath (unquoteL p.path),
          p.params, quoteL safeQuery (unquoteL p.query), []⟩ =
          urlunsplitL p.scheme p.netloc
            (if ¬(p.params = []) then
              quoteL safePath (unquoteL p.path) ++ ';' :: p.params
            else quoteL safePath (unquoteL p.path))
            (quoteL safeQuery (unquoteL p.query)) [] := rfl
      rw [hunp] at h
      have hnohash : ('#' : Char) ∉ r := by
        intro hmem
        rw [← h] at hmem
        rcases urlunsplit_mem hmem with hm | hm | hm | hm | hm | hm | hm | hm | hm
        · rcases hscheme with hsc | hsc <;> rw [hsc] at hm <;> exact absurd hm (by decide)
        · exact absurd (hnp '#' hm) (by decide)
        · by_cases hpar : ¬(p.params = [])
          · rw [if_pos hpar] at hm
            rcases List.mem_append.mp hm with hm | hm
            · exact hash_not_mem_quoteL (by decide) hm
            · rcases List.mem_cons.mp hm with hm | hm
              · exact absurd hm (by decide)
              · exact hpp.2 hm
          · rw [if_neg hpar] at hm
            exact hash_not_mem_quoteL (by decide) hm
        · exact hash_not_mem_quoteL (by decide) hm
        · exact absurd hm (List.not_mem_nil _)
        · exact absurd hm (by decide)
        · exact absurd hm (by decide)
        · exact absurd hm (by decide)
        · exact hm.2 rfl
      have hre := @reparse_scheme_netloc p.scheme p.netloc
        (if ¬(p.params = []) then
            quoteL safePath (unquoteL p.path) ++ ';' :: p.params
          else quoteL safePath (unquoteL p.path))
        (quoteL safeQuery (unquoteL p.query))
        hscheme hnetloc hnp
      refine ⟨?_, ?_, hnohash, urlparseL_fragment_of_no_hash hnohash []⟩
      · rw [urlparseL_scheme_eq, ← h]
        rcases hscheme with hsc | hsc
        · exact Or.inl (hre.1.trans hsc)
        · exact Or.inr (hre.1.trans hsc)
      · rw [urlparseL_netloc_eq, ← h]
        exact hre.2

/-! ## Generic scanning combinators

The `re.sub`/`re.findall`/`re.search` loops of the source all scan the
input left to right, trying a pattern at each position; these fuelled
combinators capture that common shape (the fuel is the input length:
every step consumes at least one character). -/

/-- One `re.sub` pass: at each position try `step`; on a match emit the
replacement and continue after the match, otherwise emit the character
and move on. -/
def subScanF (step : List Char → Option (List Char × List Char)) :
    Nat → List Char → List Char
  | 0, l => l
  | _ + 1, [] => []
  | f + 1, c :: rest =>
    match step (c :: rest) with
    | some (repl, after) => repl ++ subScanF step f after
    | none => c :: subScanF step f rest

/-- One `re.findall` pass: collect every non-overlapping match's payload. -/
def collectScanF (step : List Char → Option (List Char × List Char)) :
    Nat → List Char → List (List Char)
  | 0, _ => []
  | _ + 1, [] => []
  | f + 1, c :: rest =>
    match step (c :: rest) with
    | some (item, after) => item :: collectScanF step f after
    | none => collectScanF step f rest

/-- One `re.search`: the payload of the leftmost match. -/
def findScanF {α : Type} (step : List Char → Option α) :
    Nat → List Char → Option α
  | 0, _ => none
  | _ + 1, [] => none
  | f + 1, c :: rest =>
    match step (c :: rest) with
    | some v => some v
    | none => findScanF step f rest

/-- Split at the leftmost case-insensitive occurrence of `pat`, returning
the text before it and the text after it (the lazy `(.*?)pat` idiom). -/
def findCiSub (pat : List Char) : List Char → Option (List Char × List Char)
  | [] => none
  | c :: rest =>
    if ciIsPrefixOf pat (c :: rest) then some ([], (c :: rest).drop pat.length)
    else
      match findCiSub pat rest with
      | some (a, b) => some (c :: a, b)
      | none => none

/-! ## `strip_tags` (text.py lines 26-51) -/

def isWordChar (c : Char) : Bool := isAsciiAlpha c || isAsciiDigit c || c = '_'

/-- Opening-tag matcher for `<name[^>]*>` (case-insensitive), as used for
`<rt`, `<rp`, `<h1`, `<title`, `<article`, `<body`. -/
def tagOpenAt (name : List Char) (l : List Char) : Option (List Char) :=
  match l with
  | [] => none
  | c :: l1 =>
    if c = '<' then
      if ciIsPrefixOf name l1 then
        let l2 := l1.drop name.length
        let mid := l2.takeWhile (fun c => !(c = '>'))
        match l2.drop mid.length with
        | '>' :: r => some r
        | _ => none
      else none
    else none

/-- Matcher for `<ruby\b[^>]*>`; `\b` is modelled over ASCII word
characters (the pages only ever have `>` or a space after `ruby`). -/
def matchRubyOpen (l : List Char) : Option (List Char) :=
  match l with
  | [] => none
  | c :: l1 =>
    if c = '<' then
      if ciIsPrefixOf "ruby".data l1 then
        let l2 := l1.drop 4
        match l2.head? with
        | none => none
        | some d =>
          if isWordChar d then none
          else
            let mid := l2.takeWhile (fun c => !(c = '>'))
            match l2.drop mid.length with
            | '>' :: r => some r
            | _ => none
      else none
    else none

/-- Block pattern `openertag (.*?) close` with a replacement computed from
the lazily captured group. -/
def tagBlockStep (name close : List Char) (repl : List Char → List Char)
    (l : List Char) : Option (List Char × List Char) :=
  match tagOpenAt name l with
  | some afterOpen =>
    match findCiSub close afterOpen with
    | some (content, after) => some (repl content, after)
    | none => none
  | none => none

/-- Model of `re.sub(r"<[^>]+>", "", ...)` from `_strip_tags_fragment`. -/
def angleStep (l : List Char) : Option (List Char × List Char) :=
  match l with
  | [] => none
  | c :: l1 =>
    if c = '<' then
      let mid := l1.takeWhile (fun c => !(c = '>'))
      if mid.isEmpty then none
      else
        match l1.drop mid.length with
        | '>' :: r => some ([], r)
        | _ => none
    else none

/-- `_strip_tags_fragment`: remove tags, then unescape entities. -/
def stripTagsFragmentL (l : List Char) : List Char :=
  htmlUnescapeL (subScanF angleStep l.length l)

def rubyTokenOpen : List Char := "⟦RUBY:".data

/-- Model of `_ruby_to_token` applied to the captured `<ruby>` body. -/
def rubyToToken (inner : List Char) : List Char :=
  let rt_parts := collectScanF (tagBlockStep "rt".data "</rt>".data id) inner.length inner
  let ann := pyStripL (rt_parts.map stripTagsFragmentL).flatten
  let base1 := subScanF (tagBlockStep "rt".data "</rt>".data (fun _ => []))
    inner.length inner
  let base_html := subScanF (tagBlockStep "rp".data "</rp>".data (fun _ => []))
    base1.length base1
  let base_text := pyStripL (stripTagsFragmentL base_html)
  if ¬(base_text = []) ∧ ¬(ann = []) then
    rubyTokenOpen ++ base_text ++ '|' :: (ann ++ ['⟧'])
  else if ¬(base_text = []) then base_text
  else ann

def rubyStep (l : List Char) : Option (List Char × List Char) :=
  match matchRubyOpen l with
  | some afterOpen =>
    match findCiSub "</ruby>".data afterOpen with
    | some (inner, after) => some (rubyToToken inner, after)
    | none => none
  | none => none

/-- Model of `re.sub(r"<br\s*/?>", "\n", ...)`. -/
def brStep (l : List Char) : Option (List Char × List Char) :=
  match l with
  | [] => none
  | c :: l1 =>
    if c = '<' then
      if ciIsPrefixOf "br".data l1 then
        match (l1.drop 2).dropWhile isPySpace with
        | '/' :: '>' :: r => some (['\n'], r)
        | '>' :: r => some (['\n'], r)
        | _ => none
      else none
    else none

/-- Model of `re.sub(r"</p\s*>", "\n\n", ...)`. -/
def pCloseStep (l : List Char) : Option (List Char × List Char) :=
  match l with
  | [] => none
  | c :: l1 =>
    if c = '<' then
      match l1 with
      | '/' :: l2 =>
        if ciIsPrefixOf "p".data l2 then
          match (l2.drop 1).dropWhile isPySpace with
          | '>' :: r => some (['\n', '\n'], r)
          | _ => none
        else none
      | _ => none
    else none

/-- Model of `re.sub(r"\n{3,}", "\n\n", ...)`: `k` counts the newlines of
the current run already emitted (capped at 2). -/
def collapse3Aux : Nat → List Char → List Char
  | _, [] => []
  | k, c :: rest =>
    if c = '\n' then
      if k < 2 then '\n' :: collapse3Aux (k + 1) rest
      else collapse3Aux k rest
    else c :: collapse3Aux 0 rest

def stripTagsL (content_html : List Char) : List Char :=
  let s1 := subScanF rubyStep content_html.length content_html
  let s2 := subScanF brStep s1.length s1
  let s3 := subScanF pCloseStep s2.length s2
  pyStripL (collapse3Aux 0 (stripTagsFragmentL s3))

def strip_tags (s : String) : String := ⟨stripTagsL s.data⟩

/-- Model of `RUBY_TOKEN_RE = re.compile(r"⟦RUBY:(.*?)\|(.*?)⟧")` as used
by `_render_text_with_ruby` (epub.py): the two groups of the leftmost
match.  Without DOTALL neither group may span a newline. -/
def rubyTokenHere (l : List Char) : Option (List Char × List Char) :=
  if rubyTokenOpen.isPrefixOf l then
    let l1 := l.drop rubyTokenOpen.length
    let g1 := l1.takeWhile (fun c => !(c = '|' || c = '\n'))
    match l1.drop g1.length with
    | '|' :: l2 =>
      let g2 := l2.takeWhile (fun c => !(c = '⟧' || c = '\n'))
      match l2.drop g2.length with
      | '⟧' :: _ => some (g1, g2)
      | _ => none
    | _ => none
  else none

def rubyDecodeFirst (l : List Char) : Option (List Char × List Char) :=
  findScanF rubyTokenHere l.length l

example : strip_tags "<p>a<br>b</p><p>c</p>" = "a\nb\n\nc" := by decide
example : strip_tags "<ruby>漢<rt>かん</rt></ruby>字" = "⟦RUBY:漢|かん⟧字" := by decide
example : strip_tags "<ruby> a <rt>b</rt></ruby>" = "⟦RUBY:a|b⟧" := by decide
example : strip_tags "<ruby><rt>b</rt></ruby>" = "b" := by decide
example : strip_tags "<ruby>a<rt></rt></ruby>" = "a" := by decide
example : rubyDecodeFirst "⟦RUBY:漢|かん⟧".data = some ("漢".data, "かん".data) := by decide
example : strip_tags "x &amp; y" = "x & y" := by decide

/-! ## `extract_title` and `extract_content` search patterns (text.py 67-72, sites.py 136-148) -/

/-- `re.search(opener-pattern (.*?) close)`: the lazily captured group of
the leftmost position where the opener matches and the closer occurs
afterwards. -/
def searchGroupL (opener : List Char → Option (List Char)) (close : List Char)
    (page : List Char) : Option (List Char) :=
  findScanF
    (fun l => (opener l).bind (fun afterOpen => (findCiSub close afterOpen).map Prod.fst))
    page.length page

def extractTitleL (page : List Char) : List Char :=
  match searchGroupL (tagOpenAt "h1".data) "</h1>".data page with
  | some g => stripTagsL g
  | none =>
    match searchGroupL (tagOpenAt "title".data) "</title>".data page with
    | some g => stripTagsL g
    | none => "未知标题".data

def extract_title (page_html : String) : String := ⟨extractTitleL page_html.data⟩

def isQuoteChar (c : Char) : Bool := c = '"' || c = '\''

/-- The `id=["\']content["\']` marker of the first `extract_content`
pattern, tried at one position. -/
def idContentHere (l : List Char) : Bool :=
  if ciIsPrefixOf "id=".data l then
    match l.drop 3 with
    | q :: r =>
      if isQuoteChar q then
        if ciIsPrefixOf "content".data r then
          match r.drop 7 with
          | q2 :: _ => isQuoteChar q2
          | [] => false
        else false
      else false
    | [] => false
  else false

def scanIdContent : List Char → Bool
  | [] => false
  | c :: rest => idContentHere (c :: rest) || scanIdContent rest

/-- Opening-tag matcher for `<div[^>]+id=["\']content["\'][^>]*>`: the
attribute region runs to the first `>` after `<div`, must be non-empty,
and must carry the id marker at offset ≥ 1 (the `[^>]+`). -/
def divIdOpenAt (l : List Char) : Option (List Char) :=
  match l with
  | [] => none
  | c :: l1 =>
    if c = '<' then
      if ciIsPrefixOf "div".data l1 then
        let l2 := l1.drop 3
        let region := l2.takeWhile (fun c => !(c = '>'))
        match l2.drop region.length with
        | '>' :: r =>
          match region with
          | [] => none
          | _ :: rrest => if scanIdContent rrest then some r else none
        | _ => none
      else none
    else none

/-- `class=["\'][^"\']*marker[^"\']*["\'][^>]*>` tried at one position:
the quoted class value runs to the next quote character (of either kind)
and must contain `marker`; the match then extends to the next `>`. -/
def classMarkerHere (marker : List Char) (l : List Char) : Option (List Char) :=
  if ciIsPrefixOf "class=".data l then
    match l.drop 6 with
    | q :: r =>
      if isQuoteChar q then
        let body := r.takeWhile (fun c => !(isQuoteChar c))
        match r.drop body.length with
        | _ :: r2 =>
          if (findCiSub marker body).isSome then
            let tail := r2.takeWhile (fun c => !(c = '>'))
            match r2.drop tail.length with
            | '>' :: r3 => some r3
            | _ => none
          else none
        | [] => none
      else none
    | [] => none
  else none

/-- Scan for the `class=` marker inside the `[^>]+` region; the greedy
`[^>]+` makes the regex engine try the rightmost `class=` first, hence
the recursion is preferred over the match at the current position. -/
def scanClassMarker (marker : List Char) : List Char → Option (List Char)
  | [] => none
  | c :: rest =>
    if c = '>' then none
    else
      match scanClassMarker marker rest with
      | some r => some r
      | none => classMarkerHere marker (c :: rest)

/-- Opening-tag matcher for `<tag[^>]+class=["\'][^"\']*marker[^"\']*["\'][^>]*>`. -/
def tagClassOpenAt (tag marker : List Char) (l : List Char) : Option (List Char) :=
  match l with
  | [] => none
  | c :: l1 =>
    if c = '<' then
      if ciIsPrefixOf tag l1 then
        match l1.drop tag.length with
        | [] => none
        | x :: r => if x = '>' then none else scanClassMarker marker r
      else none
    else none

/-- The `if m: text = strip_tags(m.group(1)); if len(text) > 60: return text`
step shared by the three `extract_content` container patterns. -/
def contentPick (o : Option (List Char)) : Option (List Char) :=
  match o with
  | some g => if 60 < (stripTagsL g).length then some (stripTagsL g) else none
  | none => none

/-- `GenericSiteAdapter.extract_content` (sites.py 136-148). -/
def extractContentL (chapter : List Char) : List Char :=
  match contentPick (searchGroupL divIdOpenAt "</div>".data chapter) with
  | some t => t
  | none =>
    match contentPick (searchGroupL (tagClassOpenAt "div".data "content".data)
        "</div>".data chapter) with
    | some t => t
    | none =>
      match contentPick (searchGroupL (tagOpenAt "article".data) "</article>".data chapter) with
      | some t => t
      | none =>
        match searchGroupL (tagOpenAt "body".data) "</body>".data chapter with
        | some g => stripTagsL g
        | none => []

def extract_content (chapter_html : String) : String := ⟨extractContentL chapter_html.data⟩

/-! ## `fetch_cover_bytes` (sites.py 287-291)

`fetch_bytes` performs network I/O; it is passed in as an oracle from
URLs to byte lists. -/

def endsWithB (suffix l : List Char) : Bool := suffix.reverse.isPrefixOf l.reverse

def fetch_cover_bytes (fetch : String → List Nat) (cover_url : String) :
    List Nat × String × String :=
  let data := fetch cover_url
  if endsWithB ".png".data (lowerL cover_url.data) then (data, "image/png", "cover.png")
  else (data, "image/jpeg", "cover.jpg")

example : (fetch_cover_bytes (fun _ => [1]) "https://a.com/x.PNG").2 = ("image/png", "cover.png") := by decide
example : (fetch_cover_bytes (fun _ => [1]) "https://a.com/x.jpg").2 = ("image/jpeg", "cover.jpg") := by decide
example : extract_title "<div><h1> Alice </h1><title>t</title></div>" = "Alice" := by decide
example : extract_title "<p>x</p>" = "未知标题" := by decide
example : extract_content "<body>short</body>" = "short" := by decide
example : extract_content "no body here" = "" := by decide

/-! ## `html.parser` / `AnchorParser` (sites.py 24-45)

A fuelled tokenizer over the relevant fragment of `HTMLParser` with
`convert_charrefs=True`: start tags with lowercased names and unescaped
attribute values, end tags, self-closing tags (which fire
`handle_starttag` then `handle_endtag`), comments/declarations skipped,
text runs unescaped. -/

inductive HtmlEvent where
  | startTag (name : List Char) (attrs : List (List Char × Option (List Char)))
      (selfClosing : Bool)
  | endTag (name : List Char)
  | text (data : List Char)

def tagNameChar (c : Char) : Bool := !(isPySpace c || c = '/' || c = '>')

def attrNameChar (c : Char) : Bool := !(isPySpace c || c = '/' || c = '>' || c = '=')

def parseAttrsF : Nat → List Char →
    (List (List Char × Option (List Char)) × List Char × Bool)
  | 0, l => ([], l, false)
  | f + 1, l =>
    let l1 := l.dropWhile isPySpace
    match l1 with
    | [] => ([], [], false)
    | '>' :: r => ([], r, false)
    | '/' :: '>' :: r => ([], r, true)
    | '/' :: r => parseAttrsF f r
    | _ :: _ =>
      let name := l1.takeWhile attrNameChar
      if name.isEmpty then parseAttrsF f (l1.drop 1)
      else
        let l2 := (l1.drop name.length).dropWhile isPySpace
        match l2 with
        | '=' :: r1 =>
          let r2 := r1.dropWhile isPySpace
          match r2 with
          | '"' :: r3 =>
            let v := r3.takeWhile (fun c => !(c = '"'))
            let rec3 := parseAttrsF f ((r3.drop v.length).drop 1)
            ((lowerL name, some (htmlUnescapeL v)) :: rec3.1, rec3.2)
          | '\'' :: r3 =>
            let v := r3.takeWhile (fun c => !(c = '\''))
            let rec3 := parseAttrsF f ((r3.drop v.length).drop 1)
            ((lowerL name, some (htmlUnescapeL v)) :: rec3.1, rec3.2)
          | _ =>
            let v := r2.takeWhile (fun c => !(isPySpace c || c = '>'))
            let rec3 := parseAttrsF f (r2.drop v.length)
            ((lowerL name, some (htmlUnescapeL v)) :: rec3.1, rec3.2)
        | _ =>
          let rec3 := parseAttrsF f l2
          ((lowerL name, none) :: rec3.1, rec3.2)

def tokenizeF : Nat → List Char → List HtmlEvent
  | 0, _ => []
  | _ + 1, [] => []
  | f + 1, c :: rest =>
    if c = '<' then
      match rest with
      | '/' :: r1 =>
        let name := r1.takeWhile (fun c => !(c = '>'))
        (match r1.drop name.length with
         | '>' :: r2 => .endTag (lowerL (pyStripL name)) :: tokenizeF f r2
         | _ => [])
      | '!' :: r1 =>
        if "--".data.isPrefixOf r1 then
          match findCiSub "-->".data (r1.drop 2) with
          | some (_, after) => tokenizeF f after
          | none => []
        else
          let mid := r1.takeWhile (fun c => !(c = '>'))
          (match r1.drop mid.length with
           | '>' :: r2 => tokenizeF f r2
           | _ => [])
      | d :: _ =>
        if isAsciiAlpha d then
          let name := rest.takeWhile tagNameChar
          let parsed := parseAttrsF (rest.drop name.length).length (rest.drop name.length)
          .startTag (lowerL name) parsed.1 parsed.2.2 :: tokenizeF f parsed.2.1
        else .text ['<'] :: tokenizeF f rest
      | [] => .text ['<'] :: tokenizeF f []
    else
      let d := (c :: rest).takeWhile (fun c => !(c = '<'))
      .text (htmlUnescapeL d) :: tokenizeF f ((c :: rest).drop d.length)

structure AnchorState where
  links : List (List Char × List Char)
  href : Option (List Char)
  textParts : List (List Char)

/-- `dict(attrs).get("href")`: the last `href` entry wins; a bare `href`
(value `None`) behaves like an absent one. -/
def hrefLookup (attrs : List (List Char × Option (List Char))) : Option (List Char) :=
  match attrs.reverse.find? (fun p => p.1 = "href".data) with
  | some (_, some v) => some v
  | _ => none

def handleStart (st : AnchorState) (name : List Char)
    (attrs : List (List Char × Option (List Char))) : AnchorState :=
  if name = "a".data then { st with href := hrefLookup attrs, textParts := [] }
  else st

def handleData (st : AnchorState) (d : List Char) : AnchorState :=
  match st.href with
  | some _ => { st with textParts := st.textParts ++ [d] }
  | none => st

def handleEnd (st : AnchorState) (name : List Char) : AnchorState :=
  if name = "a".data then
    match st.href with
    | some v =>
      if v.isEmpty then st
      else { links := st.links ++ [(v, pyStripL st.textParts.flatten)],
             href := none, textParts := [] }
    | none => st
  else st

def anchorStep (st : AnchorState) : HtmlEvent → AnchorState
  | .startTag name attrs sc =>
    if sc then handleEnd (handleStart st name attrs) name
    else handleStart st name attrs
  | .endTag name => handleEnd st name
  | .text d => handleData st d

def anchorLinks (l : List Char) : List (List Char × List Char) :=
  ((tokenizeF l.length l).foldl anchorStep ⟨[], none, []⟩).links

/-- `GenericSiteAdapter._pick_chapter_list_html` (sites.py 85-87). -/
def pickChapterListHtmlL (page : List Char) : List Char :=
  match searchGroupL (tagClassOpenAt "ul".data "mulu_list".data) "</ul>".data page with
  | some inner => inner
  | none => page

/-! ## Chapter discovery (models.py, sites.py 76-121) -/

def sysMaxsize : Nat := 9223372036854775807

structure Chapter where
  title : String
  url : String
  order : Nat
deriving DecidableEq

/-- `\.html(?:$|\?)` at the current position. -/
def afterHtmlMarker (l : List Char) : Bool :=
  if ".html".data.isPrefixOf l then
    match l.drop 5 with
    | [] => true
    | '?' :: _ => true
    | _ => false
  else false

/-- `re.search(r"(\d+)(?=\.html(?:$|\?))", url)`: the leftmost maximal
digit run directly followed by `.html` at end-of-string or before `?`.
(A failed lookahead also fails at every later position inside the same
digit run, so advancing one character at a time is equivalent.) -/
def urlTrailingNumSearch : List Char → Option Nat
  | [] => none
  | c :: rest =>
    if isAsciiDigit c then
      let run := (c :: rest).takeWhile isAsciiDigit
      if afterHtmlMarker ((c :: rest).drop run.length) then some (digitsToNat run)
      else urlTrailingNumSearch rest
    else urlTrailingNumSearch rest

/-- `GenericSiteAdapter._extract_chapter_order` (sites.py 76-83). -/
def extractChapterOrderL (title url : List Char) : Nat :=
  match chapterNumSearch title with
  | some n => n
  | none =>
    match urlTrailingNumSearch url with
    | some n => n
    | none => sysMaxsize

/-- `pat in l` for strings: contiguous-substring test. -/
def containsSubB (pat : List Char) : List Char → Bool
  | [] => pat.isEmpty
  | c :: rest => pat.isPrefixOf (c :: rest) || containsSubB pat rest

/-- `normalized.split("#", 1)[0]`. -/
def takeBeforeHash (l : List Char) : List Char :=
  match splitFirstAt '#' l with
  | some (a, _) => a
  | none => l

/-- `path.rsplit("/", 1)[-1]`. -/
def lastSegment (path : List Char) : List Char :=
  match splitFirstAt '/' path.reverse with
  | some (ra, _) => ra.reverse
  | none => path

/-- `str.replace(".html", "")` (left-to-right, non-overlapping). -/
def removeHtmlAllF : Nat → List Char → List Char
  | 0, l => l
  | _ + 1, [] => []
  | f + 1, c :: rest =>
    if ".html".data.isPrefixOf (c :: rest) then removeHtmlAllF f ((c :: rest).drop 5)
    else c :: removeHtmlAllF f rest

def chapterSlug (path : List Char) : List Char :=
  removeHtmlAllF (lastSegment path).length (lastSegment path)

/-- The per-anchor filter chain of `discover_chapters` (sites.py 98-112),
up to but excluding the seen-set: `some absolute_url` iff the anchor
survives sanitization, the cross-site check, the `.html` check and the
`/book/` check. -/
def chapterAccept (indexNetloc index_url href : List Char) : Option (List Char) :=
  match sanitizeUrlL href index_url with
  | none => none
  | some normalized =>
    let absolute_url := takeBeforeHash normalized
    let parsed_abs := urlparseL [] absolute_url
    if ¬(parsed_abs.netloc = []) ∧ ¬(parsed_abs.netloc = indexNetloc) then none
    else if ¬(endsWithB ".html".data (lowerL parsed_abs.path) = true) then none
    else if ¬(containsSubB "/book/".data parsed_abs.path = true) then none
    else some absolute_url

/-- `Chapter(title=text.strip() or slug, url=absolute_url, order=...)`
(sites.py 116-117). -/
def builtChapter (text absolute_url : List Char) : Chapter :=
  let title := if ¬(pyStripL text = []) then pyStripL text
               else chapterSlug (urlparseL [] absolute_url).path
  ⟨⟨title⟩, ⟨absolute_url⟩, extractChapterOrderL title absolute_url⟩

def discoverLoop (indexNetloc index_url : List Char) :
    List (List Char × List Char) → List (List Char) → List Chapter → List Chapter
  | [], _, acc => acc
  | (href, text) :: links, seen, acc =>
    match chapterAccept indexNetloc index_url href with
    | none => discoverLoop indexNetloc index_url links seen acc
    | some absolute_url =>
      if absolute_url ∈ seen then discoverLoop indexNetloc index_url links seen acc
      else
        discoverLoop indexNetloc index_url links (absolute_url :: seen)
          (acc ++ [builtChapter text absolute_url])

/-- Strict lexicographic order on code-point sequences (Python `str <`). -/
def listCharLt : List Char → List Char → Bool
  | [], [] => false
  | [], _ :: _ => true
  | _ :: _, [] => false
  | a :: as, b :: bs => a.toNat < b.toNat || (a = b && listCharLt as bs)

/-- The sort key `(c.order, c.url)` of sites.py line 119, compared as a
Python tuple. -/
def chapterKeyLt (a b : Chapter) : Bool :=
  a.order < b.order || (a.order = b.order && listCharLt a.url.data b.url.data)

/-- Stable insertion (a new element goes after existing equal keys),
matching `list.sort`'s stability. -/
def insertSorted (x : Chapter) : List Chapter → List Chapter
  | [] => [x]
  | y :: ys => if chapterKeyLt x y then x :: y :: ys else y :: insertSorted x ys

def sortChapters (l : List Chapter) : List Chapter :=
  l.foldl (fun acc x => insertSorted x acc) []

def discoverFromLinks (index_url : String) (links : List (List Char × List Char)) :
    List Chapter :=
  sortChapters (discoverLoop (urlparseL [] index_url.data).netloc index_url.data links [] [])

/-- `GenericSiteAdapter.discover_chapters` (sites.py 89-121); the logger
only receives diagnostics and does not affect the result. -/
def discover_chapters (index_url html_text : String) : List Chapter :=
  discoverFromLinks index_url (anchorLinks (pickChapterListHtmlL html_text.data))

set_option maxRecDepth 4000 in
example :
    anchorLinks "<ul><li><a href=\"/book/5/1.html\">第1章</a></li><li><a href='/search.html'>搜索</a></li></ul>".data
      = [("/book/5/1.html".data, "第1章".data), ("/search.html".data, "搜索".data)] := by decide
set_option maxRecDepth 8000 in
example :
    discover_chapters "https://site.com/index.html"
        "<ul class=\"mulu_list\"><a href=\"/book/5/2.html\">第2章</a><a href=\"/book/5/1.html\">第1章</a><a href=\"/search.html\">搜索</a></ul>"
      = [⟨"第1章", "https://site.com/book/5/1.html", 1⟩,
         ⟨"第2章", "https://site.com/book/5/2.html", 2⟩] := by decide

set_option maxRecDepth 8000 in
/-- C2 counterexample.  In the claimed scenario the discovered chapters
and their order are as described, but normalizing the second title does
NOT drop the `_番外` suffix: the underscore heuristic only fires when the
part right of the underscore is longer than 3 characters, and `番外` has
length 2, so `normalize_chapter_title "第2章_番外" = "第2章_番外"`,
not `"第2章"`. -/
theorem C2_counterexample :
    discover_chapters "https://site.com/index.html"
        "<ul class=\"mulu_list\"><li><a href=\"/book/5/1.html\">第1章</a></li><li><a href=\"/book/5/2.html\">第2章_番外</a></li><li><a href=\"/search.html\">下一页</a></li></ul>"
      = [⟨"第1章", "https://site.com/book/5/1.html", 1⟩,
         ⟨"第2章_番外", "https://site.com/book/5/2.html", 2⟩] ∧
    ¬(normalize_chapter_title "第2章_番外" = "第2章") := by decide

set_option maxRecDepth 8000 in
/-- C2 (amended): in the three-anchor scenario, `discover_chapters`
returns exactly two chapters, the `1.html` URL before the `2.html` URL
(orders 1 and 2), the `/search.html` nav link filtered out; normalizing
the titles yields `第1章` and `第2章_番外` — the `_番外` suffix is kept
because the right-hand side of the underscore is not longer than 3
characters. -/
theorem C2_discover_scenario :
    discover_chapters "https://site.com/index.html"
        "<ul class=\"mulu_list\"><li><a href=\"/book/5/1.html\">第1章</a></li><li><a href=\"/book/5/2.html\">第2章_番外</a></li><li><a href=\"/search.html\">下一页</a></li></ul>"
      = [⟨"第1章", "https://site.com/book/5/1.html", 1⟩,
         ⟨"第2章_番外", "https://site.com/book/5/2.html", 2⟩] ∧
    normalize_chapter_title "第1章" = "第1章" ∧
    normalize_chapter_title "第2章_番外" = "第2章_番外" := by decide

/-- C9 counterexample.  `fetch_cover_bytes` tests the WHOLE lowered URL
with `.endswith('.png')`, not the URL's path: for
`https://site.com/cover.png?v=1` the path ends in `.png` yet the cover
is classified as JPEG because the query string makes the URL itself not
end in `.png`. -/
theorem C9_counterexample :
    endsWithB ".png".data
        (lowerL (urlparseL [] "https://site.com/cover.png?v=1".data).path) = true ∧
    (fetch_cover_bytes (fun _ => []) "https://site.com/cover.png?v=1").2
      = ("image/jpeg", "cover.jpg") := by decide

/-- C9 (amended): `fetch_cover_bytes` classifies the cover as
`('image/png', 'cover.png')` exactly when the full URL, lowercased, ends
in `.png`, and as `('image/jpeg', 'cover.jpg')` otherwise, independent of
the fetched bytes, which are returned untouched. -/
theorem C9_fetch_cover_bytes_classification (f g : String → List Nat) (url : String) :
    ((fetch_cover_bytes f url).2 = ("image/png", "cover.png") ↔
      endsWithB ".png".data (lowerL url.data) = true) ∧
    (fetch_cover_bytes f url).2 = (fetch_cover_bytes g url).2 ∧
    (fetch_cover_bytes f url).1 = f url := by
  by_cases h : endsWithB ".png".data (lowerL url.data) = true
  · simp [fetch_cover_bytes, h]
  · simp [fetch_cover_bytes, h]

/-- C10: the fixed fallback literal `未知标题` is produced by the branch
taken only when neither the `<h1>` pattern nor the `<title>` pattern
matches; whenever the `<h1>` pattern matches, `extract_title` returns its
stripped group and never consults the `<title>` pattern — so an `<h1>`
whose content strips to nothing makes `extract_title` return the empty
string even though a later non-empty `<title>` exists. -/
theorem C10_extract_title_empty_edge :
    (∀ page : String,
        searchGroupL (tagOpenAt "h1".data) "</h1>".data page.data = none →
        searchGroupL (tagOpenAt "title".data) "</title>".data page.data = none →
        extract_title page = "未知标题") ∧
    (∀ (page : String) (g : List Char),
        searchGroupL (tagOpenAt "h1".data) "</h1>".data page.data = some g →
        extract_title page = ⟨stripTagsL g⟩) ∧
    (extract_title "<h1> <b> </b> </h1><title>Real Title</title>" = "" ∧
      ¬(searchGroupL (tagOpenAt "title".data) "</title>".data
          "<h1> <b> </b> </h1><title>Real Title</title>".data = none)) := by
  refine ⟨?_, ?_, by decide, by decide⟩
  · intro page h1 h2
    simp [extract_title, extractTitleL, h1, h2]
  · intro page g h
    simp [extract_title, extractTitleL, h]

/-- C10 witness: the fallback case and the h1-priority case at concrete
inputs. -/
theorem C10_witness :
    extract_title "x" = "未知标题" ∧ extract_title "<h1>T</h1>" = ⟨stripTagsL "T".data⟩ :=
  ⟨C10_extract_title_empty_edge.1 "x" (by decide) (by decide),
   C10_extract_title_empty_edge.2.1 "<h1>T</h1>" "T".data (by decide)⟩

/-- C7: `extract_content` is a total function; the div-with-id-content
pattern has first priority whenever its stripped text passes the
60-character threshold; when all three container patterns fail the
threshold test, the result is the stripped `<body>` content, and the
empty string when there is no `<body>` either.  Concretely, HTML with
none of the containers but a (short) body yields that body's non-empty
stripped text, and container-free body-free text yields `""`. -/
theorem C7_extract_content_fallback :
    (∀ (ch : String) (t : List Char),
        contentPick (searchGroupL divIdOpenAt "</div>".data ch.data) = some t →
        extract_content ch = ⟨t⟩) ∧
    (∀ ch : String,
        contentPick (searchGroupL divIdOpenAt "</div>".data ch.data) = none →
        contentPick (searchGroupL (tagClassOpenAt "div".data "content".data)
            "</div>".data ch.data) = none →
        contentPick (searchGroupL (tagOpenAt "article".data) "</article>".data ch.data)
            = none →
        (∀ g, searchGroupL (tagOpenAt "body".data) "</body>".data ch.data = some g →
            extract_content ch = ⟨stripTagsL g⟩) ∧
        (searchGroupL (tagOpenAt "body".data) "</body>".data ch.data = none →
            extract_content ch = "")) ∧
    (extract_content "<body>hello</body>" = "hello" ∧
      ¬(extract_content "<body>hello</body>" = "") ∧
      extract_content "plain text, no body" = "") := by
  refine ⟨?_, ?_, by decide, by decide, by decide⟩
  · intro ch t h
    simp [extract_content, extractContentL, h]
  · intro ch h1 h2 h3
    constructor
    · intro g hg
      simp [extract_content, extractContentL, h1, h2, h3, hg]
    · intro hg
      simp [extract_content, extractContentL, h1, h2, h3, hg]

/-- C7 witness: the body fallback applied at a concrete containerless
page. -/
theorem C7_witness :
    extract_content "<body>hi</body>" = ⟨stripTagsL "hi".data⟩ :=
  (C7_extract_content_fallback.2.1 "<body>hi</body>" (by decide) (by decide)
      (by decide)).1 "hi".data (by decide)

/-! ## Order lemmas for the chapter sort -/

theorem listCharLt_asymm : ∀ (x y : List Char),
    listCharLt x y = true → listCharLt y x = false := by
  intro x
  induction x with
  | nil =>
    intro y h
    cases y with
    | nil => simp [listCharLt] at h
    | cons b bs => simp [listCharLt]
  | cons a as ih =>
    intro y h
    cases y with
    | nil => simp [listCharLt] at h
    | cons b bs =>
      simp only [listCharLt, Bool.or_eq_true, Bool.and_eq_true, decide_eq_true_eq] at h
      cases hcase : listCharLt (b :: bs) (a :: as)
      · rfl
      · exfalso
        simp only [listCharLt, Bool.or_eq_true, Bool.and_eq_true,
          decide_eq_true_eq] at hcase
        rcases h with h | ⟨hab, hr⟩
        · rcases hcase with hc | ⟨hba, _⟩
          · omega
          · subst hba
            omega
        · subst hab
          rcases hcase with hc | ⟨_, hr2⟩
          · omega
          · exact absurd hr2 (by simp [ih bs hr])

theorem listCharLt_trans : ∀ (x y z : List Char),
    listCharLt x y = true → listCharLt y z = true → listCharLt x z = true := by
  intro x
  induction x with
  | nil =>
    intro y z hxy hyz
    cases y with
    | nil => simp [listCharLt] at hxy
    | cons b bs =>
      cases z with
      | nil => simp [listCharLt] at hyz
      | cons c cs => simp [listCharLt]
  | cons a as ih =>
    intro y z hxy hyz
    cases y with
    | nil => simp [listCharLt] at hxy
    | cons b bs =>
      cases z with
      | nil => simp [listCharLt] at hyz
      | cons c cs =>
        simp only [listCharLt, Bool.or_eq_true, Bool.and_eq_true,
          decide_eq_true_eq] at hxy hyz ⊢
        rcases hxy with h1 | ⟨hab, hr1⟩
        · rcases hyz with h2 | ⟨hbc, hr2⟩
          · exact Or.inl (by omega)
          · subst hbc
            exact Or.inl h1
        · subst hab
          rcases hyz with h2 | ⟨hbc, hr2⟩
          · exact Or.inl h2
          · subst hbc
            exact Or.inr ⟨rfl, ih bs cs hr1 hr2⟩

theorem chapterKeyLt_asymm {x y : Chapter} (h : chapterKeyLt x y = true) :
    chapterKeyLt y x = false := by
  simp only [chapterKeyLt, Bool.or_eq_true, Bool.and_eq_true, decide_eq_true_eq] at h
  cases hcase : chapterKeyLt y x
  · rfl
  · exfalso
    simp only [chapterKeyLt, Bool.or_eq_true, Bool.and_eq_true,
      decide_eq_true_eq] at hcase
    rcases h with h | ⟨ho, hr⟩
    · rcases hcase with hc | ⟨ho2, _⟩ <;> omega
    · rcases hcase with hc | ⟨ho2, hr2⟩
      · omega
      · exact absurd hr2 (by simp [listCharLt_asymm _ _ hr])

theorem chapterKeyLt_trans {x y z : Chapter} (h1 : chapterKeyLt x y = true)
    (h2 : chapterKeyLt y z = true) : chapterKeyLt x z = true := by
  simp only [chapterKeyLt, Bool.or_eq_true, Bool.and_eq_true, decide_eq_true_eq] at h1 h2 ⊢
  rcases h1 with h1 | ⟨ho1, hr1⟩
  · rcases h2 with h2 | ⟨ho2, hr2⟩
    · exact Or.inl (by omega)
    · exact Or.inl (by omega)
  · rcases h2 with h2 | ⟨ho2, hr2⟩
    · exact Or.inl (by omega)
    · exact Or.inr ⟨by omega, listCharLt_trans _ _ _ hr1 hr2⟩

/-! ## Insertion-sort lemmas -/

theorem mem_insertSorted {x c : Chapter} : ∀ {l : List Chapter},
    c ∈ insertSorted x l ↔ c = x ∨ c ∈ l := by
  intro l
  induction l with
  | nil => simp [insertSorted]
  | cons y ys ih =>
    cases hxy : chapterKeyLt x y
    · rw [insertSorted, if_neg (by simp [hxy])]
      simp only [List.mem_cons, ih]
      tauto
    · rw [insertSorted, if_pos hxy]
      simp [List.mem_cons]

theorem insertSorted_pairwise {x : Chapter} : ∀ {l : List Chapter},
    l.Pairwise (fun a b => chapterKeyLt b a = false) →
    (insertSorted x l).Pairwise (fun a b => chapterKeyLt b a = false) := by
  intro l
  induction l with
  | nil =>
    intro _
    simp [insertSorted]
  | cons y ys ih =>
    intro h
    rcases List.pairwise_cons.mp h with ⟨hy, hys⟩
    cases hxy : chapterKeyLt x y
    · rw [insertSorted, if_neg (by simp [hxy])]
      refine List.pairwise_cons.mpr ⟨?_, ih hys⟩
      intro z hz
      rcases mem_insertSorted.mp hz with hz | hz
      · subst hz
        exact hxy
      · exact hy z hz
    · rw [insertSorted, if_pos hxy]
      refine List.pairwise_cons.mpr ⟨?_, h⟩
      intro z hz
      rcases List.mem_cons.mp hz with hz | hz
      · subst hz
        exact chapterKeyLt_asymm hxy
      · cases hcase : chapterKeyLt z x
        · rfl
        · exfalso
          have := chapterKeyLt_trans hcase hxy
          rw [hy z hz] at this
          cases this

theorem insertSorted_perm (x : Chapter) : ∀ (l : List Chapter),
    (insertSorted x l).Perm (x :: l) := by
  intro l
  induction l with
  | nil => simp [insertSorted]
  | cons y ys ih =>
    cases hxy : chapterKeyLt x y
    · rw [insertSorted, if_neg (by simp [hxy])]
      have h1 : (y :: insertSorted x ys).Perm (y :: x :: ys) := List.Perm.cons y ih
      exact h1.trans (List.Perm.swap x y ys)
    · rw [insertSorted, if_pos hxy]

theorem foldl_insertSorted_perm : ∀ (l acc : List Chapter),
    (l.foldl (fun acc x => insertSorted x acc) acc).Perm (acc ++ l) := by
  intro l
  induction l with
  | nil =>
    intro acc
    simp
  | cons x xs ih =>
    intro acc
    have h1 := ih (insertSorted x acc)
    have hp : (insertSorted x acc).Perm (x :: acc) := insertSorted_perm x acc
    have h2 : (insertSorted x acc ++ xs).Perm (x :: (acc ++ xs)) := hp.append_right xs
    have h3 : (x :: (acc ++ xs)).Perm (acc ++ x :: xs) := List.perm_middle.symm
    exact h1.trans (h2.trans h3)

theorem sortChapters_perm (l : List Chapter) : (sortChapters l).Perm l := by
  have := foldl_insertSorted_perm l []
  simpa [sortChapters] using this

theorem mem_sortChapters {c : Chapter} {l : List Chapter} :
    c ∈ sortChapters l ↔ c ∈ l :=
  (sortChapters_perm l).mem_iff

theorem sortChapters_sorted (l : List Chapter) :
    (sortChapters l).Pairwise (fun a b => chapterKeyLt b a = false) := by
  have h : ∀ (xs acc : List Chapter),
      acc.Pairwise (fun a b => chapterKeyLt b a = false) →
      (xs.foldl (fun acc x => insertSorted x acc) acc).Pairwise
        (fun a b => chapterKeyLt b a = false) := by
    intro xs
    induction xs with
    | nil =>
      intro acc h
      simpa using h
    | cons x xs ih =>
      intro acc hacc
      exact ih (insertSorted x acc) (insertSorted_pairwise hacc)
  exact h l [] (by simp)

/-! ## Discovery-loop lemmas -/

theorem builtChapter_url (text v : List Char) : (builtChapter text v).url.data = v := rfl

theorem discoverLoop_mem_url (n iu : List Char) :
    ∀ (links : List (List Char × List Char)) (seen : List (List Char))
      (acc : List Chapter) (u : List Char),
      (∃ c ∈ discoverLoop n iu links seen acc, c.url.data = u) ↔
        ((∃ c ∈ acc, c.url.data = u) ∨
          (¬(u ∈ seen) ∧ ∃ pr ∈ links, chapterAccept n iu pr.1 = some u)) := by
  intro links
  induction links with
  | nil =>
    intro seen acc u
    simp [discoverLoop]
  | cons hd links ih =>
    intro seen acc u
    obtain ⟨href, text⟩ := hd
    cases hacc : chapterAccept n iu href with
    | none =>
      rw [show discoverLoop n iu ((href, text) :: links) seen acc
          = discoverLoop n iu links seen acc by simp [discoverLoop, hacc]]
      rw [ih seen acc u]
      constructor
      · rintro (h | ⟨hu, pr, hpr, hp⟩)
        · exact Or.inl h
        · exact Or.inr ⟨hu, pr, List.mem_cons_of_mem _ hpr, hp⟩
      · rintro (h | ⟨hu, pr, hpr, hp⟩)
        · exact Or.inl h
        · rcases List.mem_cons.mp hpr with hpr | hpr
          · subst hpr
            rw [hacc] at hp
            cases hp
          · exact Or.inr ⟨hu, pr, hpr, hp⟩
    | some v =>
      by_cases hseen : v ∈ seen
      · rw [show discoverLoop n iu ((href, text) :: links) seen acc
            = discoverLoop n iu links seen acc by simp [discoverLoop, hacc, hseen]]
        rw [ih seen acc u]
        constructor
        · rintro (h | ⟨hu, pr, hpr, hp⟩)
          · exact Or.inl h
          · exact Or.inr ⟨hu, pr, List.mem_cons_of_mem _ hpr, hp⟩
        · rintro (h | ⟨hu, pr, hpr, hp⟩)
          · exact Or.inl h
          · rcases List.mem_cons.mp hpr with hpr | hpr
            · subst hpr
              rw [hacc] at hp
              injection hp with hv
              subst hv
              exact absurd hseen hu
            · exact Or.inr ⟨hu, pr, hpr, hp⟩
      · rw [show discoverLoop n iu ((href, text) :: links) seen acc
            = discoverLoop n iu links (v :: seen) (acc ++ [builtChapter text v])
            by simp [discoverLoop, hacc, hseen]]
        rw [ih (v :: seen) (acc ++ [builtChapter text v]) u]
        constructor
        · rintro (⟨c, hc, hcu⟩ | ⟨hu, pr, hpr, hp⟩)
          · rcases List.mem_append.mp hc with hc | hc
            · exact Or.inl ⟨c, hc, hcu⟩
            · have hcb := List.mem_singleton.mp hc
              subst hcb
              rw [builtChapter_url] at hcu
              subst hcu
              refine Or.inr ⟨hseen, (href, text), List.mem_cons_self _ _, hacc⟩
          · have hu1 : ¬(u = v) := fun h => hu (by simp [h])
            have hu2 : ¬(u ∈ seen) := fun h => hu (by simp [h])
            exact Or.inr ⟨hu2, pr, List.mem_cons_of_mem _ hpr, hp⟩
        · rintro (⟨c, hc, hcu⟩ | ⟨hu, pr, hpr, hp⟩)
          · exact Or.inl ⟨c, List.mem_append_left _ hc, hcu⟩
          · rcases List.mem_cons.mp hpr with hpr | hpr
            · subst hpr
              rw [hacc] at hp
              injection hp with hv
              subst hv
              exact Or.inl ⟨builtChapter text v, List.mem_append_right _ (by simp),
                builtChapter_url text v⟩
            · by_cases huv : u = v
              · subst huv
                exact Or.inl ⟨builtChapter text u, List.mem_append_right _ (by simp),
                  builtChapter_url text u⟩
              · exact Or.inr ⟨by simp [List.mem_cons, huv, hu], pr, hpr, hp⟩

theorem discoverLoop_forward (n iu : List Char) :
    ∀ (links : List (List Char × List Char)) (seen : List (List Char))
      (acc : List Chapter) (c : Chapter),
      c ∈ discoverLoop n iu links seen acc →
      c ∈ acc ∨ ∃ pr ∈ links, ∃ v, chapterAccept n iu pr.1 = some v ∧
        c = builtChapter pr.2 v := by
  intro links
  induction links with
  | nil =>
    intro seen acc c h
    rw [discoverLoop] at h
    exact Or.inl h
  | cons hd links ih =>
    intro seen acc c h
    obtain ⟨href, text⟩ := hd
    cases hacc : chapterAccept n iu href with
    | none =>
      rw [show discoverLoop n iu ((href, text) :: links) seen acc
          = discoverLoop n iu links seen acc by simp [discoverLoop, hacc]] at h
      rcases ih seen acc c h with h | ⟨pr, hpr, v, hv, hc⟩
      · exact Or.inl h
      · exact Or.inr ⟨pr, List.mem_cons_of_mem _ hpr, v, hv, hc⟩
    | some v =>
      by_cases hseen : v ∈ seen
      · rw [show discoverLoop n iu ((href, text) :: links) seen acc
            = discoverLoop n iu links seen acc by simp [discoverLoop, hacc, hseen]] at h
        rcases ih seen acc c h with h | ⟨pr, hpr, w, hw, hc⟩
        · exact Or.inl h
        · exact Or.inr ⟨pr, List.mem_cons_of_mem _ hpr, w, hw, hc⟩
      · rw [show discoverLoop n iu ((href, text) :: links) seen acc
            = discoverLoop n iu links (v :: seen) (acc ++ [builtChapter text v])
            by simp [discoverLoop, hacc, hseen]] at h
        rcases ih _ _ c h with h | ⟨pr, hpr, w, hw, hc⟩
        · rcases List.mem_append.mp h with h | h
          · exact Or.inl h
          · have hcb := List.mem_singleton.mp h
            subst hcb
            exact Or.inr ⟨(href, text), List.mem_cons_self _ _, v, hacc, rfl⟩
        · exact Or.inr ⟨pr, List.mem_cons_of_mem _ hpr, w, hw, hc⟩

theorem discoverLoop_nodup (n iu : List Char) :
    ∀ (links : List (List Char × List Char)) (seen : List (List Char))
      (acc : List Chapter),
      (∀ c ∈ acc, c.url.data ∈ seen) →
      acc.Pairwise (fun a b => ¬(a.url = b.url)) →
      (discoverLoop n iu links seen acc).Pairwise (fun a b => ¬(a.url = b.url)) := by
  intro links
  induction links with
  | nil =>
    intro seen acc _ h2
    rw [discoverLoop]
    exact h2
  | cons hd links ih =>
    intro seen acc hinv hpw
    obtain ⟨href, text⟩ := hd
    cases hacc : chapterAccept n iu href with
    | none =>
      rw [show discoverLoop n iu ((href, text) :: links) seen acc
          = discoverLoop n iu links seen acc by simp [discoverLoop, hacc]]
      exact ih seen acc hinv hpw
    | some v =>
      by_cases hseen : v ∈ seen
      · rw [show discoverLoop n iu ((href, text) :: links) seen acc
            = discoverLoop n iu links seen acc by simp [discoverLoop, hacc, hseen]]
        exact ih seen acc hinv hpw
      · rw [show discoverLoop n iu ((href, text) :: links) seen acc
            = discoverLoop n iu links (v :: seen) (acc ++ [builtChapter text v])
            by simp [discoverLoop, hacc, hseen]]
        apply ih (v :: seen) (acc ++ [builtChapter text v])
        · intro c hc
          rcases List.mem_append.mp hc with h | h
          · exact List.mem_cons_of_mem _ (hinv c h)
          · have hcb := List.mem_singleton.mp h
            subst hcb
            rw [builtChapter_url]
            exact List.mem_cons_self v seen
        · rw [List.pairwise_append]
          refine ⟨hpw, by simp, ?_⟩
          intro a ha b hb
          have hbv := List.mem_singleton.mp hb
          subst hbv
          intro heq
          have hmem : a.url.data ∈ seen := hinv a ha
          rw [heq, builtChapter_url] at hmem
          exact hseen hmem

theorem takeBeforeHash_eq_self {l : List Char} (h : ('#' : Char) ∉ l) :
    takeBeforeHash l = l := by
  simp [takeBeforeHash, splitFirstAt_eq_none h]

theorem chapterAccept_some_spec {n iu href v : List Char}
    (h : chapterAccept n iu href = some v) :
    ((urlparseL [] v).scheme = "http".data ∨ (urlparseL [] v).scheme = "https".data) ∧
    ¬((urlparseL [] v).netloc = []) ∧ ('#' : Char) ∉ v ∧
    (urlparseL [] v).fragment = [] := by
  cases hs : sanitizeUrlL href iu with
  | none =>
    rw [chapterAccept, hs] at h
    cases h
  | some normalized =>
    have hspec := sanitizeUrlL_some_spec hs
    have htb : takeBeforeHash normalized = normalized :=
      takeBeforeHash_eq_self hspec.2.2.1
    simp only [chapterAccept, hs, htb] at h
    split at h
    · cases h
    · split at h
      · cases h
      · split at h
        · cases h
        · injection h with hv
          subst hv
          exact hspec

/-- C4: every discovered chapter's order key equals
`_extract_chapter_order(title, url)` — the first `第N章` number of the
title, else the trailing numeral right before `.html` (at end of URL or
before `?`), else `sys.maxsize` — and the returned list is sorted
ascending by the Python tuple `(order, url)`.  The concrete sort example
of the claim and the three order-key modes are checked by evaluation. -/
theorem C4_chapter_ordering :
    (∀ (index_url : String) (links : List (List Char × List Char)),
        (∀ c ∈ discoverFromLinks index_url links,
            c.order = extractChapterOrderL c.title.data c.url.data) ∧
        (discoverFromLinks index_url links).Pairwise
          (fun a b => chapterKeyLt b a = false)) ∧
    (sortChapters
        [⟨"t", "b", 3⟩, ⟨"t", "a", sysMaxsize⟩, ⟨"t", "c", 1⟩, ⟨"t", "d", sysMaxsize⟩]
      = [⟨"t", "c", 1⟩, ⟨"t", "b", 3⟩, ⟨"t", "a", sysMaxsize⟩, ⟨"t", "d", sysMaxsize⟩]) ∧
    extractChapterOrderL "第 12 章".data "x".data = 12 ∧
    extractChapterOrderL "hello".data "https://a.com/7.html".data = 7 ∧
    extractChapterOrderL "hello".data "https://a.com/7.html?p=2".data = 7 ∧
    extractChapterOrderL "hello".data "https://a.com/7.htmlx".data = sysMaxsize := by
  refine ⟨?_, by decide, by decide, by decide, by decide, by decide⟩
  intro index_url links
  constructor
  · intro c hc
    rw [discoverFromLinks] at hc
    have hc' := mem_sortChapters.mp hc
    rcases discoverLoop_forward _ _ links [] [] c hc' with h | ⟨pr, hpr, v, hv, hcb⟩
    · exact absurd h (List.not_mem_nil c)
    · subst hcb
      rfl
  · rw [discoverFromLinks]
    exact sortChapters_sorted _

/-- C4 witness: the order-key equation applied to the concrete chapter
discovered from a single `/book/9.html` anchor titled `第1章`. -/
theorem C4_witness :
    (⟨"第1章", "https://site.com/book/9.html", 1⟩ : Chapter).order
      = extractChapterOrderL "第1章".data "https://site.com/book/9.html".data :=
  (C4_chapter_ordering.1 "https://site.com/index.html"
      [("/book/9.html".data, "第1章".data)]).1
    ⟨"第1章", "https://site.com/book/9.html", 1⟩ (by decide)

set_option maxRecDepth 4000 in
/-- C8 counterexample: an anchor `/book/.html` with blank text produces a
chapter whose title is the EMPTY string — the slug fallback
`path.rsplit("/", 1)[-1].replace(".html", "")` applied to a path whose
last segment is exactly `.html` is empty, so the claimed "non-empty
title" invariant fails. -/
theorem C8_counterexample :
    (discover_chapters "https://site.com/index.html"
        "<a href=\"/book/.html\"> </a>").map Chapter.title = [""] := by decide

/-- C8 (amended): every chapter produced by `discover_chapters` has an
absolute http(s) URL with a host and no fragment, and its title is the
stripped anchor text when non-blank, else the final-path-segment slug
with `.html` removed — which may be empty. -/
theorem C8_chapter_invariant :
    ∀ (index_url : String) (links : List (List Char × List Char)),
      ∀ c ∈ discoverFromLinks index_url links,
        ((urlparseL [] c.url.data).scheme = "http".data ∨
          (urlparseL [] c.url.data).scheme = "https".data) ∧
        ¬((urlparseL [] c.url.data).netloc = []) ∧
        ¬(('#' : Char) ∈ c.url.data) ∧
        (urlparseL [] c.url.data).fragment = [] ∧
        (∃ pr ∈ links,
            chapterAccept (urlparseL [] index_url.data).netloc index_url.data pr.1
              = some c.url.data ∧
            c = builtChapter pr.2 c.url.data) := by
  intro index_url links c hc
  rw [discoverFromLinks] at hc
  have hc' := mem_sortChapters.mp hc
  rcases discoverLoop_forward _ _ links [] [] c hc' with h | ⟨pr, hpr, v, hv, hcb⟩
  · exact absurd h (List.not_mem_nil c)
  · have hvd : c.url.data = v := by
      rw [hcb]
      exact builtChapter_url pr.2 v
    rw [hvd]
    have hspec := chapterAccept_some_spec hv
    exact ⟨hspec.1, hspec.2.1, hspec.2.2.1, hspec.2.2.2, pr, hpr, hv, hcb⟩

set_option maxRecDepth 4000 in
/-- C8 witness: the invariant applied to the chapter discovered from a
single same-host `/book/1.html` anchor. -/
theorem C8_witness :
    ((urlparseL [] "https://site.com/book/1.html".data).scheme = "http".data ∨
      (urlparseL [] "https://site.com/book/1.html".data).scheme = "https".data) ∧
    ¬((urlparseL [] "https://site.com/book/1.html".data).netloc = []) ∧
    ¬(('#' : Char) ∈ "https://site.com/book/1.html".data) ∧
    (urlparseL [] "https://site.com/book/1.html".data).fragment = [] ∧
    (∃ pr ∈ [("/book/1.html".data, "T".data)],
        chapterAccept (urlparseL [] "https://site.com/index.html".data).netloc
            "https://site.com/index.html".data pr.1
          = some "https://site.com/book/1.html".data ∧
        (⟨"T", "https://site.com/book/1.html", 1⟩ : Chapter)
          = builtChapter pr.2 "https://site.com/book/1.html".data) :=
  C8_chapter_invariant "https://site.com/index.html" [("/book/1.html".data, "T".data)]
    ⟨"T", "https://site.com/book/1.html", 1⟩ (by decide)

/-! ## Combinator lemmas for the `strip_tags` pipeline -/

theorem subScanF_nil (step : List Char → Option (List Char × List Char)) (f : Nat) :
    subScanF step f [] = [] := by
  cases f <;> rfl

theorem collectScanF_nil (step : List Char → Option (List Char × List Char)) (f : Nat) :
    collectScanF step f [] = [] := by
  cases f <;> rfl

theorem subScanF_cons_some {step : List Char → Option (List Char × List Char)}
    {f : Nat} {c : Char} {rest r aft : List Char} (h : step (c :: rest) = some (r, aft)) :
    subScanF step (f + 1) (c :: rest) = r ++ subScanF step f aft := by
  show (match step (c :: rest) with
    | some (repl, after) => repl ++ subScanF step f after
    | none => c :: subScanF step f rest) = r ++ subScanF step f aft
  rw [h]

theorem subScanF_cons_none {step : List Char → Option (List Char × List Char)}
    {f : Nat} {c : Char} {rest : List Char} (h : step (c :: rest) = none) :
    subScanF step (f + 1) (c :: rest) = c :: subScanF step f rest := by
  show (match step (c :: rest) with
    | some (repl, after) => repl ++ subScanF step f after
    | none => c :: subScanF step f rest) = c :: subScanF step f rest
  rw [h]

theorem collectScanF_cons_some {step : List Char → Option (List Char × List Char)}
    {f : Nat} {c : Char} {rest r aft : List Char} (h : step (c :: rest) = some (r, aft)) :
    collectScanF step (f + 1) (c :: rest) = r :: collectScanF step f aft := by
  show (match step (c :: rest) with
    | some (item, after) => item :: collectScanF step f after
    | none => collectScanF step f rest) = r :: collectScanF step f aft
  rw [h]

theorem collectScanF_cons_none {step : List Char → Option (List Char × List Char)}
    {f : Nat} {c : Char} {rest : List Char} (h : step (c :: rest) = none) :
    collectScanF step (f + 1) (c :: rest) = collectScanF step f rest := by
  show (match step (c :: rest) with
    | some (item, after) => item :: collectScanF step f after
    | none => collectScanF step f rest) = collectScanF step f rest
  rw [h]

theorem findScanF_self_some {α : Type} {step : List Char → Option α}
    {c : Char} {rest : List Char} {v : α} (h : step (c :: rest) = some v) (f : Nat) :
    findScanF step (f + 1) (c :: rest) = some v := by
  show (match step (c :: rest) with
    | some v => some v
    | none => findScanF step f rest) = some v
  rw [h]

theorem subScanF_fuel {step : List Char → Option (List Char × List Char)}
    (hs : ∀ {l r a}, step l = some (r, a) → a.length < l.length) :
    ∀ (f g : Nat) (l : List Char), l.length ≤ f → l.length ≤ g →
      subScanF step f l = subScanF step g l := by
  intro f
  induction f with
  | zero =>
    intro g l hf _
    have hl : l = [] := List.eq_nil_of_length_eq_zero (Nat.le_zero.mp hf)
    subst hl
    rw [subScanF_nil, subScanF_nil]
  | succ f ih =>
    intro g l hf hg
    cases l with
    | nil => rw [subScanF_nil, subScanF_nil]
    | cons c rest =>
      cases g with
      | zero => simp at hg
      | succ g =>
        cases hstep : step (c :: rest) with
        | none =>
          rw [subScanF_cons_none hstep, subScanF_cons_none hstep]
          have hf' : rest.length ≤ f := by simp [List.length_cons] at hf; omega
          have hg' : rest.length ≤ g := by simp [List.length_cons] at hg; omega
          rw [ih g rest hf' hg']
        | some pr =>
          obtain ⟨r, aft⟩ := pr
          rw [subScanF_cons_some hstep, subScanF_cons_some hstep]
          have hlen := hs hstep
          simp [List.length_cons] at hlen hf hg
          rw [ih g aft (by omega) (by omega)]

theorem collectScanF_fuel {step : List Char → Option (List Char × List Char)}
    (hs : ∀ {l r a}, step l = some (r, a) → a.length < l.length) :
    ∀ (f g : Nat) (l : List Char), l.length ≤ f → l.length ≤ g →
      collectScanF step f l = collectScanF step g l := by
  intro f
  induction f with
  | zero =>
    intro g l hf _
    have hl : l = [] := List.eq_nil_of_length_eq_zero (Nat.le_zero.mp hf)
    subst hl
    rw [collectScanF_nil, collectScanF_nil]
  | succ f ih =>
    intro g l hf hg
    cases l with
    | nil => rw [collectScanF_nil, collectScanF_nil]
    | cons c rest =>
      cases g with
      | zero => simp at hg
      | succ g =>
        cases hstep : step (c :: rest) with
        | none =>
          rw [collectScanF_cons_none hstep, collectScanF_cons_none hstep]
          have hf' : rest.length ≤ f := by simp [List.length_cons] at hf; omega
          have hg' : rest.length ≤ g := by simp [List.length_cons] at hg; omega
          rw [ih g rest hf' hg']
        | some pr =>
          obtain ⟨r, aft⟩ := pr
          rw [collectScanF_cons_some hstep, collectScanF_cons_some hstep]
          have hlen := hs hstep
          simp [List.length_cons] at hlen hf hg
          rw [ih g aft (by omega) (by omega)]

theorem subScanF_id {step : List Char → Option (List Char × List Char)}
    (hg : ∀ (c : Char) (rest : List Char), ¬(c = '<') → step (c :: rest) = none) :
    ∀ (f : Nat) (l : List Char), '<' ∉ l → subScanF step f l = l := by
  intro f
  induction f with
  | zero => intro l _; rfl
  | succ f ih =>
    intro l h
    cases l with
    | nil => rfl
    | cons c rest =>
      have hc : ¬(c = '<') := fun hh => h (by rw [hh]; exact List.mem_cons_self _ _)
      rw [subScanF_cons_none (hg c rest hc), ih rest (fun hm => h (List.mem_cons_of_mem _ hm))]

theorem collectScanF_none_of_guard {step : List Char → Option (List Char × List Char)}
    (hg : ∀ (c : Char) (rest : List Char), ¬(c = '<') → step (c :: rest) = none) :
    ∀ (f : Nat) (l : List Char), '<' ∉ l → collectScanF step f l = [] := by
  intro f
  induction f with
  | zero => intro l _; rfl
  | succ f ih =>
    intro l h
    cases l with
    | nil => rfl
    | cons c rest =>
      have hc : ¬(c = '<') := fun hh => h (by rw [hh]; exact List.mem_cons_self _ _)
      rw [collectScanF_cons_none (hg c rest hc),
        ih rest (fun hm => h (List.mem_cons_of_mem _ hm))]

theorem subScanF_skip {step : List Char → Option (List Char × List Char)}
    (hs : ∀ {l r a}, step l = some (r, a) → a.length < l.length)
    (hg : ∀ (c : Char) (rest : List Char), ¬(c = '<') → step (c :: rest) = none) :
    ∀ (x : List Char) (f : Nat) (y : List Char), (x ++ y).length ≤ f → '<' ∉ x →
      subScanF step f (x ++ y) = x ++ subScanF step y.length y := by
  intro x
  induction x with
  | nil =>
    intro f y hf _
    simp only [List.nil_append]
    exact subScanF_fuel hs f y.length y (by simpa using hf) (Nat.le_refl _)
  | cons c x ih =>
    intro f y hf hx
    cases f with
    | zero => simp at hf
    | succ f =>
      have hc : ¬(c = '<') := fun hh => hx (by rw [hh]; exact List.mem_cons_self _ _)
      rw [List.cons_append, subScanF_cons_none (hg c _ hc),
        ih f y (by simp [List.length_cons] at hf ⊢; omega)
          (fun hm => hx (List.mem_cons_of_mem _ hm))]
      rfl

theorem collectScanF_skip {step : List Char → Option (List Char × List Char)}
    (hs : ∀ {l r a}, step l = some (r, a) → a.length < l.length)
    (hg : ∀ (c : Char) (rest : List Char), ¬(c = '<') → step (c :: rest) = none) :
    ∀ (x : List Char) (f : Nat) (y : List Char), (x ++ y).length ≤ f → '<' ∉ x →
      collectScanF step f (x ++ y) = collectScanF step y.length y := by
  intro x
  induction x with
  | nil =>
    intro f y hf _
    simp only [List.nil_append]
    exact collectScanF_fuel hs f y.length y (by simpa using hf) (Nat.le_refl _)
  | cons c x ih =>
    intro f y hf hx
    cases f with
    | zero => simp at hf
    | succ f =>
      have hc : ¬(c = '<') := fun hh => hx (by rw [hh]; exact List.mem_cons_self _ _)
      rw [List.cons_append, collectScanF_cons_none (hg c _ hc),
        ih f y (by simp [List.length_cons] at hf ⊢; omega)
          (fun hm => hx (List.mem_cons_of_mem _ hm))]

/-! ## `findCiSub` and opener lemmas -/

theorem ciIsPrefixOf_append_self : ∀ (p t : List Char), ciIsPrefixOf p (p ++ t) = true := by
  intro p t
  induction p with
  | nil => rfl
  | cons c ps ih => simp [ciIsPrefixOf, ih]

theorem lowerChar_eq_lt {c : Char} (h : lowerChar c = '<') : c = '<' := by
  unfold lowerChar at h
  split at h
  · rename_i hu
    exfalso
    simp only [isAsciiUpper, Bool.and_eq_true, decide_eq_true_eq] at hu
    have hvalid : (c.toNat + 32).isValidChar := by
      left
      omega
    have := congrArg Char.toNat h
    rw [toNat_charOfNat hvalid] at this
    have h60 : ('<' : Char).toNat = 60 := by decide
    omega
  · exact h

theorem findCiSub_cons_nomatch {pat : List Char} {c : Char} {rest : List Char}
    (h : ciIsPrefixOf pat (c :: rest) = false) :
    findCiSub pat (c :: rest)
      = (findCiSub pat rest).map (fun pr => (c :: pr.1, pr.2)) := by
  rw [findCiSub, if_neg (by simp [h])]
  cases hf : findCiSub pat rest with
  | none => simp
  | some pr =>
    obtain ⟨u, v⟩ := pr
    simp

theorem findCiSub_exact (c : Char) (ps y : List Char) :
    findCiSub (c :: ps) ((c :: ps) ++ y) = some ([], y) := by
  rw [show (c :: ps) ++ y = c :: (ps ++ y) from rfl, findCiSub, if_pos]
  · rw [show c :: (ps ++ y) = (c :: ps) ++ y from rfl, List.drop_left]
  · rw [show c :: (ps ++ y) = (c :: ps) ++ y from rfl]
    exact ciIsPrefixOf_append_self _ _

theorem findCiSub_skip {ps x y : List Char} (hx : '<' ∉ x) :
    findCiSub ('<' :: ps) (x ++ y)
      = (findCiSub ('<' :: ps) y).map (fun pr => (x ++ pr.1, pr.2)) := by
  induction x with
  | nil =>
    simp only [List.nil_append]
    cases hf : findCiSub ('<' :: ps) y with
    | none => simp
    | some pr =>
      obtain ⟨u, v⟩ := pr
      simp
  | cons c x ih =>
    have hc : ¬(c = '<') := fun hh => hx (by rw [hh]; exact List.mem_cons_self _ _)
    have hlo : ¬(lowerChar '<' = lowerChar c) := by
      rw [show lowerChar '<' = '<' from rfl]
      intro heq
      exact hc (lowerChar_eq_lt heq.symm)
    have hci : ciIsPrefixOf ('<' :: ps) (c :: (x ++ y)) = false := by
      simp [ciIsPrefixOf, hlo]
    rw [List.cons_append, findCiSub_cons_nomatch hci,
      ih (fun hm => hx (List.mem_cons_of_mem _ hm))]
    cases hf : findCiSub ('<' :: ps) y with
    | none => simp
    | some pr =>
      obtain ⟨u, v⟩ := pr
      simp

theorem findCiSub_shrink {pat : List Char} (hp : pat ≠ []) :
    ∀ {l pre after : List Char}, findCiSub pat l = some (pre, after) →
      after.length < l.length := by
  intro l
  induction l with
  | nil =>
    intro pre after h
    cases h
  | cons c rest ih =>
    intro pre after h
    rw [findCiSub] at h
    split at h
    · injection h with h2
      have h3 : after = (c :: rest).drop pat.length := (congrArg Prod.snd h2).symm
      have hplen : 1 ≤ pat.length := List.length_pos.mpr hp
      rw [h3, List.length_drop]
      simp [List.length_cons]
      omega
    · cases hf : findCiSub pat rest with
      | none =>
        rw [hf] at h
        cases h
      | some pr =>
        obtain ⟨u, v⟩ := pr
        rw [hf] at h
        injection h with h2
        have h3 : after = v := (congrArg Prod.snd h2).symm
        have := ih hf
        rw [h3]
        simp [List.length_cons]
        omega

theorem tagOpenAt_guard (name : List Char) {c : Char} (rest : List Char)
    (h : ¬(c = '<')) : tagOpenAt name (c :: rest) = none := by
  rw [tagOpenAt, if_neg h]

theorem tagBlockStep_guard {name close : List Char} {repl : List Char → List Char}
    {c : Char} (rest : List Char) (h : ¬(c = '<')) :
    tagBlockStep name close repl (c :: rest) = none := by
  simp [tagBlockStep, tagOpenAt_guard name rest h]

theorem matchRubyOpen_guard {c : Char} (rest : List Char) (h : ¬(c = '<')) :
    matchRubyOpen (c :: rest) = none := by
  rw [matchRubyOpen, if_neg h]

theorem rubyStep_guard {c : Char} (rest : List Char) (h : ¬(c = '<')) :
    rubyStep (c :: rest) = none := by
  simp [rubyStep, matchRubyOpen_guard rest h]

theorem brStep_guard {c : Char} (rest : List Char) (h : ¬(c = '<')) :
    brStep (c :: rest) = none := by
  rw [brStep, if_neg h]

theorem pCloseStep_guard {c : Char} (rest : List Char) (h : ¬(c = '<')) :
    pCloseStep (c :: rest) = none := by
  rw [pCloseStep.eq_def]
  simp [h]

theorem angleStep_guard {c : Char} (rest : List Char) (h : ¬(c = '<')) :
    angleStep (c :: rest) = none := by
  rw [angleStep, if_neg h]

theorem tagOpenAt_shrink {name l r : List Char} (h : tagOpenAt name l = some r) :
    r.length < l.length := by
  cases l with
  | nil => cases h
  | cons c l1 =>
    simp only [tagOpenAt] at h
    split at h
    · split at h
      · split at h
        · rename_i heq
          injection h with h2
          subst h2
          have hlen := congrArg List.length heq
          rw [List.length_drop, List.length_drop] at hlen
          simp [List.length_cons] at hlen ⊢
          omega
        · cases h
      · cases h
    · cases h

theorem matchRubyOpen_shrink {l r : List Char} (h : matchRubyOpen l = some r) :
    r.length < l.length := by
  cases l with
  | nil => cases h
  | cons c l1 =>
    simp only [matchRubyOpen] at h
    split at h
    · split at h
      · split at h
        · cases h
        · split at h
          · cases h
          · split at h
            · rename_i heq
              injection h with h2
              subst h2
              have hlen := congrArg List.length heq
              rw [List.length_drop, List.length_drop] at hlen
              simp [List.length_cons] at hlen ⊢
              omega
            · cases h
      · cases h
    · cases h

theorem tagBlockStep_shrink {name close : List Char} {repl : List Char → List Char}
    (hc : close ≠ []) :
    ∀ {l r aft : List Char}, tagBlockStep name close repl l = some (r, aft) →
      aft.length < l.length := by
  intro l r aft h
  rw [tagBlockStep] at h
  cases ho : tagOpenAt name l with
  | none =>
    rw [ho] at h
    cases h
  | some afterOpen =>
    rw [ho] at h
    cases hf : findCiSub close afterOpen with
    | none =>
      simp only [hf] at h
      exact Option.noConfusion h
    | some pr =>
      obtain ⟨content, after⟩ := pr
      simp only [hf] at h
      injection h with h2
      have h3 : aft = after := (congrArg Prod.snd h2).symm
      rw [h3]
      exact Nat.lt_trans (findCiSub_shrink hc hf) (tagOpenAt_shrink ho)

theorem rubyStep_shrink :
    ∀ {l r aft : List Char}, rubyStep l = some (r, aft) → aft.length < l.length := by
  intro l r aft h
  rw [rubyStep] at h
  cases ho : matchRubyOpen l with
  | none =>
    rw [ho] at h
    cases h
  | some afterOpen =>
    rw [ho] at h
    cases hf : findCiSub "</ruby>".data afterOpen with
    | none =>
      simp only [hf] at h
      exact Option.noConfusion h
    | some pr =>
      obtain ⟨content, after⟩ := pr
      simp only [hf] at h
      injection h with h2
      have h3 : aft = after := (congrArg Prod.snd h2).symm
      rw [h3]
      exact Nat.lt_trans (findCiSub_shrink (by decide) hf) (matchRubyOpen_shrink ho)

/-! ## Literal matcher facts and identity passes -/

theorem matchRubyOpen_lit (X : List Char) :
    matchRubyOpen ('<' :: 'r' :: 'u' :: 'b' :: 'y' :: '>' :: X) = some X := rfl

theorem tagOpenAt_rt (X : List Char) :
    tagOpenAt "rt".data ('<' :: 'r' :: 't' :: '>' :: X) = some X := rfl

theorem ciIsPrefixOf_ruby_close_rt (W : List Char) :
    ciIsPrefixOf "</ruby>".data ('<' :: 'r' :: 't' :: '>' :: W) = false := rfl

theorem takeWhile_append_all {p : Char → Bool} {x : List Char}
    (h : ∀ c ∈ x, p c = true) :
    ∀ y, (x ++ y).takeWhile p = x ++ y.takeWhile p := by
  induction x with
  | nil => intro y; rfl
  | cons c xs ih =>
    intro y
    rw [List.cons_append, List.takeWhile_cons, if_pos (h c (List.mem_cons_self _ _)),
      ih (fun d hd => h d (List.mem_cons_of_mem _ hd)) y, List.cons_append]

theorem isPrefixOf_self_append : ∀ (p t : List Char), p.isPrefixOf (p ++ t) = true := by
  intro p t
  induction p with
  | nil => simp [List.isPrefixOf]
  | cons c ps ih => simp [List.isPrefixOf, ih]

theorem stripTagsFragmentL_id {l : List Char} (hlt : '<' ∉ l) (hamp : '&' ∉ l) :
    stripTagsFragmentL l = l := by
  rw [stripTagsFragmentL, subScanF_id (fun c rest hc => angleStep_guard rest hc) _ _ hlt,
    htmlUnescapeL_eq_self hamp]

theorem collapse3Aux_id : ∀ (k : Nat) (l : List Char), '\n' ∉ l → collapse3Aux k l = l := by
  intro k l
  induction l generalizing k with
  | nil => intro _; rfl
  | cons c rest ih =>
    intro h
    have hc : ¬(c = '\n') := fun hh => h (by rw [hh]; exact List.mem_cons_self _ _)
    rw [collapse3Aux, if_neg hc, ih 0 (fun hm => h (List.mem_cons_of_mem _ hm))]

theorem string_data_append (s t : String) : (s ++ t).data = s.data ++ t.data := rfl

/-- If the ruby pass maps `l` to a markup-free string `T`, the remaining
`strip_tags` passes leave `T` unchanged. -/
theorem stripTagsL_eq_of_rubySub {l T : List Char}
    (h1 : subScanF rubyStep l.length l = T)
    (hlt : '<' ∉ T) (hamp : '&' ∉ T) (hnl : '\n' ∉ T) (hst : pyStripL T = T) :
    stripTagsL l = T := by
  simp only [stripTagsL]
  rw [h1, subScanF_id (fun c rest hc => brStep_guard rest hc) _ _ hlt,
    subScanF_id (fun c rest hc => pCloseStep_guard rest hc) _ _ hlt,
    stripTagsFragmentL_id hlt hamp, collapse3Aux_id _ _ hnl, hst]

/-! ## The ruby substitution pass on a single `<ruby>` element -/

theorem subScanF_ruby_block (bl al : List Char)
    (hbl : '<' ∉ bl) (hal : '<' ∉ al) (hbamp : '&' ∉ bl) (haamp : '&' ∉ al)
    (hsb : pyStripL bl = bl) (hsa : pyStripL al = al) :
    subScanF rubyStep
        ("<ruby>".data ++ (bl ++ ("<rt>".data ++ (al ++ "</rt></ruby>".data)))).length
        ("<ruby>".data ++ (bl ++ ("<rt>".data ++ (al ++ "</rt></ruby>".data))))
      = if ¬(bl = []) ∧ ¬(al = []) then rubyTokenOpen ++ bl ++ '|' :: (al ++ ['⟧'])
        else if ¬(bl = []) then bl else al := by
  have hform : "<ruby>".data ++ (bl ++ ("<rt>".data ++ (al ++ "</rt></ruby>".data)))
      = '<' :: 'r' :: 'u' :: 'b' :: 'y' :: '>' ::
          (bl ++ ("<rt>".data ++ (al ++ "</rt></ruby>".data))) := by
    rw [show "<ruby>".data = ['<', 'r', 'u', 'b', 'y', '>'] from by decide]
    rfl
  have hpat : "</ruby>".data = '<' :: "/ruby>".data := by decide
  have hrtx : '<' ∉ ('r' :: 't' :: '>' :: al) := by
    intro hm
    simp [List.mem_cons] at hm
    exact hal hm
  have hfind : findCiSub "</ruby>".data
      (bl ++ ("<rt>".data ++ (al ++ "</rt></ruby>".data)))
      = some (bl ++ ('<' :: 'r' :: 't' :: '>' :: (al ++ "</rt>".data)), []) := by
    rw [hpat, findCiSub_skip hbl]
    rw [show "<rt>".data ++ (al ++ "</rt></ruby>".data)
        = '<' :: (('r' :: 't' :: '>' :: al) ++ "</rt></ruby>".data) from by
      rw [show "<rt>".data = ['<', 'r', 't', '>'] from by decide]
      simp]
    rw [findCiSub_cons_nomatch (by
      rw [← hpat]
      rw [show ('r' :: 't' :: '>' :: al) ++ "</rt></ruby>".data
          = 'r' :: 't' :: '>' :: (al ++ "</rt></ruby>".data) from by simp]
      exact ciIsPrefixOf_ruby_close_rt _)]
    rw [findCiSub_skip hrtx]
    rw [show findCiSub ('<' :: "/ruby>".data) "</rt></ruby>".data
        = some ("</rt>".data, []) from by decide]
    simp
  have hstep : rubyStep ('<' :: 'r' :: 'u' :: 'b' :: 'y' :: '>' ::
      (bl ++ ("<rt>".data ++ (al ++ "</rt></ruby>".data))))
      = some (rubyToToken (bl ++ ('<' :: 'r' :: 't' :: '>' :: (al ++ "</rt>".data))), []) := by
    rw [rubyStep, matchRubyOpen_lit]
    show (match findCiSub "</ruby>".data
        (bl ++ ("<rt>".data ++ (al ++ "</rt></ruby>".data))) with
      | some (inner, after) => some (rubyToToken inner, after)
      | none => none)
      = some (rubyToToken (bl ++ ('<' :: 'r' :: 't' :: '>' :: (al ++ "</rt>".data))), [])
    rw [hfind]
  have hf2 : findCiSub "</rt>".data (al ++ "</rt>".data) = some (al, []) := by
    have hpat2 : "</rt>".data = '<' :: "/rt>".data := by decide
    rw [hpat2, findCiSub_skip hal]
    rw [show findCiSub ('<' :: "/rt>".data) ('<' :: "/rt>".data)
        = some ([], []) from by decide]
    simp
  have hstep2 : tagBlockStep "rt".data "</rt>".data id
      ('<' :: 'r' :: 't' :: '>' :: (al ++ "</rt>".data)) = some (al, []) := by
    rw [tagBlockStep, tagOpenAt_rt]
    show (match findCiSub "</rt>".data (al ++ "</rt>".data) with
      | some (content, after) => some (id content, after)
      | none => none) = some (al, [])
    rw [hf2]
    rfl
  have hstep3 : tagBlockStep "rt".data "</rt>".data (fun _ => [])
      ('<' :: 'r' :: 't' :: '>' :: (al ++ "</rt>".data)) = some ([], []) := by
    rw [tagBlockStep, tagOpenAt_rt]
    show (match findCiSub "</rt>".data (al ++ "</rt>".data) with
      | some (content, after) => some (([] : List Char), after)
      | none => none) = some ([], [])
    rw [hf2]
  have hinner_parts : collectScanF (tagBlockStep "rt".data "</rt>".data id)
      (bl ++ ('<' :: 'r' :: 't' :: '>' :: (al ++ "</rt>".data))).length
      (bl ++ ('<' :: 'r' :: 't' :: '>' :: (al ++ "</rt>".data))) = [al] := by
    rw [collectScanF_skip (fun h => tagBlockStep_shrink (by decide) h)
      (fun c rest hc => tagBlockStep_guard rest hc) bl _ _ (Nat.le_refl _) hbl]
    rw [show ('<' :: 'r' :: 't' :: '>' :: (al ++ "</rt>".data)).length
        = ('r' :: 't' :: '>' :: (al ++ "</rt>".data)).length + 1 from rfl]
    rw [collectScanF_cons_some hstep2, collectScanF_nil]
  have hbase1 : subScanF (tagBlockStep "rt".data "</rt>".data (fun _ => []))
      (bl ++ ('<' :: 'r' :: 't' :: '>' :: (al ++ "</rt>".data))).length
      (bl ++ ('<' :: 'r' :: 't' :: '>' :: (al ++ "</rt>".data))) = bl := by
    rw [subScanF_skip (fun h => tagBlockStep_shrink (by decide) h)
      (fun c rest hc => tagBlockStep_guard rest hc) bl _ _ (Nat.le_refl _) hbl]
    rw [show ('<' :: 'r' :: 't' :: '>' :: (al ++ "</rt>".data)).length
        = ('r' :: 't' :: '>' :: (al ++ "</rt>".data)).length + 1 from rfl]
    rw [subScanF_cons_some hstep3, subScanF_nil]
    simp
  have hbase2 : subScanF (tagBlockStep "rp".data "</rp>".data (fun _ => []))
      bl.length bl = bl :=
    subScanF_id (fun c rest hc => tagBlockStep_guard rest hc) _ _ hbl
  have hfa : stripTagsFragmentL al = al := stripTagsFragmentL_id hal haamp
  have hfb : stripTagsFragmentL bl = bl := stripTagsFragmentL_id hbl hbamp
  have htokc : rubyToToken (bl ++ ('<' :: 'r' :: 't' :: '>' :: (al ++ "</rt>".data)))
      = if ¬(bl = []) ∧ ¬(al = []) then rubyTokenOpen ++ bl ++ '|' :: (al ++ ['⟧'])
        else if ¬(bl = []) then bl else al := by
    rw [rubyToToken]
    show (if ¬(pyStripL (stripTagsFragmentL
          (subScanF (tagBlockStep "rp".data "</rp>".data (fun _ => []))
            (subScanF (tagBlockStep "rt".data "</rt>".data (fun _ => []))
              (bl ++ ('<' :: 'r' :: 't' :: '>' :: (al ++ "</rt>".data))).length
              (bl ++ ('<' :: 'r' :: 't' :: '>' :: (al ++ "</rt>".data)))).length
            (subScanF (tagBlockStep "rt".data "</rt>".data (fun _ => []))
              (bl ++ ('<' :: 'r' :: 't' :: '>' :: (al ++ "</rt>".data))).length
              (bl ++ ('<' :: 'r' :: 't' :: '>' :: (al ++ "</rt>".data)))))) = []) ∧
        ¬(pyStripL ((collectScanF (tagBlockStep "rt".data "</rt>".data id)
            (bl ++ ('<' :: 'r' :: 't' :: '>' :: (al ++ "</rt>".data))).length
            (bl ++ ('<' :: 'r' :: 't' :: '>' :: (al ++ "</rt>".data)))).map
              stripTagsFragmentL).flatten = []) then
        rubyTokenOpen ++ pyStripL (stripTagsFragmentL
          (subScanF (tagBlockStep "rp".data "</rp>".data (fun _ => []))
            (subScanF (tagBlockStep "rt".data "</rt>".data (fun _ => []))
              (bl ++ ('<' :: 'r' :: 't' :: '>' :: (al ++ "</rt>".data))).length
              (bl ++ ('<' :: 'r' :: 't' :: '>' :: (al ++ "</rt>".data)))).length
            (subScanF (tagBlockStep "rt".data "</rt>".data (fun _ => []))
              (bl ++ ('<' :: 'r' :: 't' :: '>' :: (al ++ "</rt>".data))).length
              (bl ++ ('<' :: 'r' :: 't' :: '>' :: (al ++ "</rt>".data)))))) ++
          '|' :: (pyStripL ((collectScanF (tagBlockStep "rt".data "</rt>".data id)
            (bl ++ ('<' :: 'r' :: 't' :: '>' :: (al ++ "</rt>".data))).length
            (bl ++ ('<' :: 'r' :: 't' :: '>' :: (al ++ "</rt>".data)))).map
              stripTagsFragmentL).flatten ++ ['⟧'])
      else if ¬(pyStripL (stripTagsFragmentL
          (subScanF (tagBlockStep "rp".data "</rp>".data (fun _ => []))
            (subScanF (tagBlockStep "rt".data "</rt>".data (fun _ => []))
              (bl ++ ('<' :: 'r' :: 't' :: '>' :: (al ++ "</rt>".data))).length
              (bl ++ ('<' :: 'r' :: 't' :: '>' :: (al ++ "</rt>".data)))).length
            (subScanF (tagBlockStep "rt".data "</rt>".data (fun _ => []))
              (bl ++ ('<' :: 'r' :: 't' :: '>' :: (al ++ "</rt>".data))).length
              (bl ++ ('<' :: 'r' :: 't' :: '>' :: (al ++ "</rt>".data)))))) = []) then
        pyStripL (stripTagsFragmentL
          (subScanF (tagBlockStep "rp".data "</rp>".data (fun _ => []))
            (subScanF (tagBlockStep "rt".data "</rt>".data (fun _ => []))
              (bl ++ ('<' :: 'r' :: 't' :: '>' :: (al ++ "</rt>".data))).length
              (bl ++ ('<' :: 'r' :: 't' :: '>' :: (al ++ "</rt>".data)))).length
            (subScanF (tagBlockStep "rt".data "</rt>".data (fun _ => []))
              (bl ++ ('<' :: 'r' :: 't' :: '>' :: (al ++ "</rt>".data))).length
              (bl ++ ('<' :: 'r' :: 't' :: '>' :: (al ++ "</rt>".data))))))
      else pyStripL ((collectScanF (tagBlockStep "rt".data "</rt>".data id)
            (bl ++ ('<' :: 'r' :: 't' :: '>' :: (al ++ "</rt>".data))).length
            (bl ++ ('<' :: 'r' :: 't' :: '>' :: (al ++ "</rt>".data)))).map
              stripTagsFragmentL).flatten)
      = if ¬(bl = []) ∧ ¬(al = []) then rubyTokenOpen ++ bl ++ '|' :: (al ++ ['⟧'])
        else if ¬(bl = []) then bl else al
    rw [hinner_parts, hbase1, hbase2, hfb, hsb]
    rw [show ([al].map stripTagsFragmentL).flatten = stripTagsFragmentL al from by simp]
    rw [hfa, hsa]
  rw [hform]
  rw [show ('<' :: 'r' :: 'u' :: 'b' :: 'y' :: '>' ::
      (bl ++ ("<rt>".data ++ (al ++ "</rt></ruby>".data)))).length
      = ('r' :: 'u' :: 'b' :: 'y' :: '>' ::
          (bl ++ ("<rt>".data ++ (al ++ "</rt></ruby>".data)))).length + 1 from rfl]
  rw [subScanF_cons_some hstep, subScanF_nil, List.append_nil]
  exact htokc

/-! ## Decoding the ruby token (`RUBY_TOKEN_RE`) -/

theorem rubyTokenHere_token (bl al : List Char)
    (hb : ∀ c ∈ bl, ¬(c = '|') ∧ ¬(c = '\n'))
    (ha : ∀ c ∈ al, ¬(c = '⟧') ∧ ¬(c = '\n')) :
    rubyTokenHere (rubyTokenOpen ++ (bl ++ '|' :: (al ++ ['⟧']))) = some (bl, al) := by
  have hb' : ∀ c ∈ bl, (!(c = '|' || c = '\n')) = true := by
    intro c hc
    have h := hb c hc
    simp [h.1, h.2]
  have ha' : ∀ c ∈ al, (!(c = '⟧' || c = '\n')) = true := by
    intro c hc
    have h := ha c hc
    simp [h.1, h.2]
  have hd1 : (rubyTokenOpen ++ (bl ++ '|' :: (al ++ ['⟧']))).drop rubyTokenOpen.length
      = bl ++ '|' :: (al ++ ['⟧']) := List.drop_left _ _
  have hg1 : (bl ++ '|' :: (al ++ ['⟧'])).takeWhile (fun c => !(c = '|' || c = '\n'))
      = bl := by
    rw [takeWhile_append_all hb', List.takeWhile_cons, if_neg (by decide)]
    simp
  have hd2 : (bl ++ '|' :: (al ++ ['⟧'])).drop bl.length = '|' :: (al ++ ['⟧']) :=
    List.drop_left _ _
  have hg2 : (al ++ ['⟧']).takeWhile (fun c => !(c = '⟧' || c = '\n')) = al := by
    rw [takeWhile_append_all ha', List.takeWhile_cons, if_neg (by decide)]
    simp
  have hd3 : (al ++ ['⟧']).drop al.length = ['⟧'] := List.drop_left _ _
  simp only [rubyTokenHere]
  rw [if_pos (isPrefixOf_self_append _ _)]
  rw [hd1, hg1, hd2]
  show (match (al ++ ['⟧']).drop
      ((al ++ ['⟧']).takeWhile (fun c => !(c = '⟧' || c = '\n'))).length with
    | '⟧' :: _ => some (bl, (al ++ ['⟧']).takeWhile (fun c => !(c = '⟧' || c = '\n')))
    | _ => none) = some (bl, al)
  rw [hg2, hd3]
  rfl

theorem rubyDecodeFirst_token (bl al : List Char)
    (hb : ∀ c ∈ bl, ¬(c = '|') ∧ ¬(c = '\n'))
    (ha : ∀ c ∈ al, ¬(c = '⟧') ∧ ¬(c = '\n')) :
    rubyDecodeFirst (rubyTokenOpen ++ (bl ++ '|' :: (al ++ ['⟧']))) = some (bl, al) := by
  have htok := rubyTokenHere_token bl al hb ha
  have hcons : rubyTokenOpen ++ (bl ++ '|' :: (al ++ ['⟧']))
      = '⟦' :: ("RUBY:".data ++ (bl ++ '|' :: (al ++ ['⟧']))) := by
    rw [show rubyTokenOpen = '⟦' :: "RUBY:".data from by decide]
    rfl
  rw [rubyDecodeFirst, hcons]
  rw [show ('⟦' :: ("RUBY:".data ++ (bl ++ '|' :: (al ++ ['⟧'])))).length
      = ("RUBY:".data ++ (bl ++ '|' :: (al ++ ['⟧']))).length + 1 from rfl]
  exact findScanF_self_some (by rw [← hcons]; exact htok) _

/-! ## Character facts about the emitted ruby token -/

theorem token_mem {bl al : List Char} {c : Char}
    (h : c ∈ rubyTokenOpen ++ bl ++ '|' :: (al ++ ['⟧'])) :
    c ∈ rubyTokenOpen ∨ c ∈ bl ∨ c = '|' ∨ c ∈ al ∨ c = '⟧' := by
  simp [List.mem_append, List.mem_cons] at h
  tauto

theorem token_strip (bl al : List Char) :
    pyStripL (rubyTokenOpen ++ bl ++ '|' :: (al ++ ['⟧']))
      = rubyTokenOpen ++ bl ++ '|' :: (al ++ ['⟧']) := by
  apply pyStripL_eq_self
  · intro c hc
    rw [show rubyTokenOpen ++ bl ++ '|' :: (al ++ ['⟧'])
        = '⟦' :: ("RUBY:".data ++ bl ++ '|' :: (al ++ ['⟧'])) from by
      rw [show rubyTokenOpen = '⟦' :: "RUBY:".data from by decide]
      simp] at hc
    rw [List.head?_cons] at hc
    injection hc with h
    rw [← h]
    decide
  · intro c hc
    rw [show rubyTokenOpen ++ bl ++ '|' :: (al ++ ['⟧'])
        = (rubyTokenOpen ++ bl ++ '|' :: al) ++ ['⟧'] from by simp] at hc
    rw [List.getLast?_concat] at hc
    injection hc with h
    rw [← h]
    decide

/-- C5 counterexample.  `base = " a "`, `ann = "b"` contain no HTML markup
and no token delimiters, yet the round trip is not exact: `_ruby_to_token`
strips the captured base text, so the emitted token decodes to
`("a", "b")`, not `(" a ", "b")`. -/
theorem C5_counterexample :
    ¬(strip_tags "<ruby> a <rt>b</rt></ruby>" = "⟦RUBY: a |b⟧") ∧
    strip_tags "<ruby> a <rt>b</rt></ruby>" = "⟦RUBY:a|b⟧" ∧
    rubyDecodeFirst (strip_tags "<ruby> a <rt>b</rt></ruby>").data
      = some ("a".data, "b".data) := by decide

/-- C5 (amended): for every base `b` and annotation `a` whose characters
avoid `<`, `&`, `|`, `⟧` and newline, and which carry no leading or
trailing Python whitespace, `strip_tags` maps
`<ruby>b<rt>a</rt></ruby>` to the single token `⟦RUBY:b|a⟧` when both are
non-empty, and the downstream `RUBY_TOKEN_RE` decoder recovers `(b, a)`
exactly; when one of the two is empty, `strip_tags` emits the other one
with no token. -/
theorem C5_ruby_roundtrip (b a : String)
    (hb : ∀ c ∈ b.data, ¬(c = '<' ∨ c = '&' ∨ c = '|' ∨ c = '⟧' ∨ c = '\n'))
    (ha : ∀ c ∈ a.data, ¬(c = '<' ∨ c = '&' ∨ c = '|' ∨ c = '⟧' ∨ c = '\n'))
    (hsb : pyStripL b.data = b.data) (hsa : pyStripL a.data = a.data) :
    (¬(b = "") → ¬(a = "") →
      strip_tags ("<ruby>" ++ b ++ "<rt>" ++ a ++ "</rt></ruby>")
          = ⟨rubyTokenOpen ++ b.data ++ '|' :: (a.data ++ ['⟧'])⟩ ∧
        rubyDecodeFirst (rubyTokenOpen ++ b.data ++ '|' :: (a.data ++ ['⟧']))
          = some (b.data, a.data)) ∧
    (b = "" → strip_tags ("<ruby>" ++ b ++ "<rt>" ++ a ++ "</rt></ruby>") = a) ∧
    (a = "" → strip_tags ("<ruby>" ++ b ++ "<rt>" ++ a ++ "</rt></ruby>") = b) := by
  have hblt : '<' ∉ b.data := fun h => hb _ h (Or.inl rfl)
  have hbamp : '&' ∉ b.data := fun h => hb _ h (Or.inr (Or.inl rfl))
  have hbnl : '\n' ∉ b.data := fun h => hb _ h (Or.inr (Or.inr (Or.inr (Or.inr rfl))))
  have halt : '<' ∉ a.data := fun h => ha _ h (Or.inl rfl)
  have haamp : '&' ∉ a.data := fun h => ha _ h (Or.inr (Or.inl rfl))
  have hanl : '\n' ∉ a.data := fun h => ha _ h (Or.inr (Or.inr (Or.inr (Or.inr rfl))))
  have hmain := subScanF_ruby_block b.data a.data hblt halt hbamp haamp hsb hsa
  have hfrag : ("<ruby>" ++ b ++ "<rt>" ++ a ++ "</rt></ruby>").data
      = "<ruby>".data ++ (b.data ++ ("<rt>".data ++ (a.data ++ "</rt></ruby>".data))) := by
    simp [string_data_append, List.append_assoc]
  have hstr : ∀ s : String, s.data = [] → s = "" := by
    intro s h
    cases s with
    | mk d =>
      simp only at h
      subst h
      decide
  refine ⟨?_, ?_, ?_⟩
  · intro hbne hane
    have hbd : ¬(b.data = []) := fun h => hbne (hstr b h)
    have had : ¬(a.data = []) := fun h => hane (hstr a h)
    constructor
    · show String.mk (stripTagsL ("<ruby>" ++ b ++ "<rt>" ++ a ++ "</rt></ruby>").data)
        = String.mk (rubyTokenOpen ++ b.data ++ '|' :: (a.data ++ ['⟧']))
      apply congrArg
      rw [hfrag]
      apply stripTagsL_eq_of_rubySub
      · rw [hmain, if_pos ⟨hbd, had⟩]
      · intro hm
        rcases token_mem hm with h | h | h | h | h
        · exact absurd h (by decide)
        · exact hblt h
        · exact absurd h (by decide)
        · exact halt h
        · exact absurd h (by decide)
      · intro hm
        rcases token_mem hm with h | h | h | h | h
        · exact absurd h (by decide)
        · exact hbamp h
        · exact absurd h (by decide)
        · exact haamp h
        · exact absurd h (by decide)
      · intro hm
        rcases token_mem hm with h | h | h | h | h
        · exact absurd h (by decide)
        · exact hbnl h
        · exact absurd h (by decide)
        · exact hanl h
        · exact absurd h (by decide)
      · exact token_strip b.data a.data
    · rw [List.append_assoc]
      exact rubyDecodeFirst_token b.data a.data
        (fun c hc => ⟨fun h => hb c hc (Or.inr (Or.inr (Or.inl h))),
          fun h => hb c hc (Or.inr (Or.inr (Or.inr (Or.inr h))))⟩)
        (fun c hc => ⟨fun h => ha c hc (Or.inr (Or.inr (Or.inr (Or.inl h)))),
          fun h => ha c hc (Or.inr (Or.inr (Or.inr (Or.inr h))))⟩)
  · intro hbe
    have hbd : b.data = [] := by rw [hbe]
    have hres : stripTagsL ("<ruby>" ++ b ++ "<rt>" ++ a ++ "</rt></ruby>").data
        = a.data := by
      rw [hfrag]
      apply stripTagsL_eq_of_rubySub
      · rw [hmain, if_neg (fun hh => hh.1 hbd), if_neg (fun hh => hh hbd)]
      · exact halt
      · exact haamp
      · exact hanl
      · exact hsa
    show String.mk (stripTagsL ("<ruby>" ++ b ++ "<rt>" ++ a ++ "</rt></ruby>").data) = a
    rw [hres]
  · intro hae
    have had : a.data = [] := by rw [hae]
    by_cases hbd : b.data = []
    · have hres : stripTagsL ("<ruby>" ++ b ++ "<rt>" ++ a ++ "</rt></ruby>").data
          = a.data := by
        rw [hfrag]
        apply stripTagsL_eq_of_rubySub
        · rw [hmain, if_neg (fun hh => hh.1 hbd), if_neg (fun hh => hh hbd)]
        · exact halt
        · exact haamp
        · exact hanl
        · exact hsa
      show String.mk (stripTagsL ("<ruby>" ++ b ++ "<rt>" ++ a ++ "</rt></ruby>").data) = b
      rw [hres, had, ← hbd]
    · have hres : stripTagsL ("<ruby>" ++ b ++ "<rt>" ++ a ++ "</rt></ruby>").data
          = b.data := by
        rw [hfrag]
        apply stripTagsL_eq_of_rubySub
        · rw [hmain, if_neg (fun hh => hh.2 had), if_pos hbd]
        · exact hblt
        · exact hbamp
        · exact hbnl
        · exact hsb
      show String.mk (stripTagsL ("<ruby>" ++ b ++ "<rt>" ++ a ++ "</rt></ruby>").data) = b
      rw [hres]

/-- C5 witness: the round trip applied at base `漢` and annotation `か`. -/
theorem C5_witness :
    strip_tags ("<ruby>" ++ "漢" ++ "<rt>" ++ "か" ++ "</rt></ruby>")
        = ⟨rubyTokenOpen ++ "漢".data ++ '|' :: ("か".data ++ ['⟧'])⟩ ∧
      rubyDecodeFirst (rubyTokenOpen ++ "漢".data ++ '|' :: ("か".data ++ ['⟧']))
        = some ("漢".data, "か".data) :=
  (C5_ruby_roundtrip "漢" "か" (by decide) (by decide) (by decide) (by decide)).1
    (by decide) (by decide)

/-! ## The `ValueError` path of `urlsplit` ("Invalid IPv6 URL")

`urlsplitL`/`urlparseL` model the raise-free computation of CPython's
`urlsplit`/`urlparse`.  CPython additionally deletes every tab, CR and
LF from the URL up front and raises `ValueError("Invalid IPv6 URL")`
when the extracted netloc contains `[` without `]` or `]` without `[`;
neither `sanitize_url` (text.py 12-23) nor `discover_chapters`
(sites.py 89-121) has a handler, so the exception propagates out of
them.  The wrappers below add those behaviours.  (CPython 3.11
additionally validates the host inside a balanced `[...]` pair; the
theorems below only assert raise-freedom for inputs with no bracket
characters at all, where all versions agree.) -/

/-- `_UNSAFE_URL_BYTES_TO_REMOVE`: `urlsplit` deletes every tab, CR and
LF before parsing. -/
def stripUnsafeL (l : List Char) : List Char :=
  l.filter (fun c => !(c = '\t' || c = '\r' || c = '\n'))

/-- The raise condition on an extracted netloc: a bracket of one kind
without its partner. -/
def netlocBadB (netloc : List Char) : Bool :=
  (netloc.contains '[' && !(netloc.contains ']')) ||
  (netloc.contains ']' && !(netloc.contains '['))

/-- Whether `urlsplit` raises `ValueError("Invalid IPv6 URL")` on `url`
(to be applied to the tab/CR/LF-stripped URL); the netloc is extracted
exactly as in `urlsplitL`. -/
def urlsplitRaisesB (url : List Char) : Bool :=
  let rest := match splitSchemeL url with
    | some (_, r) => r
    | none => url
  netlocBadB (splitNetlocL rest).1

def invalidIpv6Msg : List Char := "Invalid IPv6 URL".data

/-- The resolution step with the byte removal CPython performs inside
each `urlsplit` call (`urljoin` parses both of its arguments; without a
base the candidate is parsed directly by `urlparse`). -/
def resolveCandidateE (base candidate : List Char) : List Char :=
  if ¬(base = []) then urljoinL (stripUnsafeL base) (stripUnsafeL candidate)
  else stripUnsafeL candidate

/-- `sanitize_url` with the urllib `ValueError` path: `.error` when a
`urlsplit` call inside `urljoin`/`urlparse` raises (the joined URL's
netloc is taken verbatim from one of the two already-checked inputs, so
no later call can raise), otherwise the result of the raise-free
pipeline. -/
def sanitizeUrlE (rawUrl baseUrl : List Char) : Except (List Char) (Option (List Char)) :=
  let candidate := pyStripL (htmlUnescapeL rawUrl)
  if candidate.isEmpty then .ok none
  else if (¬(baseUrl = []) ∧ urlsplitRaisesB (stripUnsafeL baseUrl) = true) ∨
      urlsplitRaisesB (stripUnsafeL candidate) = true then
    .error invalidIpv6Msg
  else
    let p := urlparseL [] (resolveCandidateE baseUrl candidate)
    if ¬(p.scheme = "http".data ∨ p.scheme = "https".data) ∨ p.netloc = [] then .ok none
    else
      .ok (some (urlunparseL ⟨p.scheme, p.netloc, quoteL safePath (unquoteL p.path),
        p.params, quoteL safeQuery (unquoteL p.query), []⟩))

def sanitize_urlE (rawUrl : String) (baseUrl : String := "") :
    Except String (Option String) :=
  match sanitizeUrlE rawUrl.data baseUrl.data with
  | .error e => .error ⟨e⟩
  | .ok o => .ok (o.map String.mk)

/-- The per-anchor filter chain of `discover_chapters` with the urllib
`ValueError` path of `sanitize_url`. -/
def chapterAcceptE (indexNetloc index_url href : List Char) :
    Except (List Char) (Option (List Char)) :=
  match sanitizeUrlE href index_url with
  | .error e => .error e
  | .ok none => .ok none
  | .ok (some normalized) =>
    let absolute_url := takeBeforeHash normalized
    let parsed_abs := urlparseL [] absolute_url
    if ¬(parsed_abs.netloc = []) ∧ ¬(parsed_abs.netloc = indexNetloc) then .ok none
    else if ¬(endsWithB ".html".data (lowerL parsed_abs.path) = true) then .ok none
    else if ¬(containsSubB "/book/".data parsed_abs.path = true) then .ok none
    else .ok (some absolute_url)

def discoverLoopE (indexNetloc index_url : List Char) :
    List (List Char × List Char) → List (List Char) → List Chapter →
      Except (List Char) (List Chapter)
  | [], _, acc => .ok acc
  | (href, text) :: links, seen, acc =>
    match chapterAcceptE indexNetloc index_url href with
    | .error e => .error e
    | .ok none => discoverLoopE indexNetloc index_url links seen acc
    | .ok (some absolute_url) =>
      if absolute_url ∈ seen then discoverLoopE indexNetloc index_url links seen acc
      else
        discoverLoopE indexNetloc index_url links (absolute_url :: seen)
          (acc ++ [builtChapter text absolute_url])

/-- `discover_chapters` with the urllib `ValueError` path:
`urlparse(index_url)` (sites.py 92) can raise, and so can
`sanitize_url` on each anchor (sites.py 98); there is no handler. -/
def discoverFromLinksE (index_url : String) (links : List (List Char × List Char)) :
    Except (List Char) (List Chapter) :=
  if urlsplitRaisesB (stripUnsafeL index_url.data) = true then .error invalidIpv6Msg
  else
    match discoverLoopE (urlparseL [] index_url.data).netloc index_url.data links [] [] with
    | .error e => .error e
    | .ok chapters => .ok (sortChapters chapters)

def discover_chaptersE (index_url html_text : String) : Except (List Char) (List Chapter) :=
  discoverFromLinksE index_url (anchorLinks (pickChapterListHtmlL html_text.data))

/-- No bracket characters and none of the bytes `urlsplit` strips: on
such strings the raise-free model agrees with CPython on every version. -/
def cleanB (l : List Char) : Bool :=
  l.all (fun c => !(c = '[' || c = ']' || c = '\t' || c = '\r' || c = '\n'))

example : sanitize_urlE "//[x" "https://site.com/index.html"
    = .error "Invalid IPv6 URL" := rfl
example : sanitize_urlE "//[x" "" = .error "Invalid IPv6 URL" := rfl
example : sanitize_urlE "/book/5/1.html" "https://site.com/index.html"
    = .ok (some "https://site.com/book/5/1.html") := rfl
example : sanitize_urlE "a\tb.html" "https://site.com/x/" =
    .ok (some "https://site.com/x/ab.html") := rfl

theorem cleanB_spec {l : List Char} (h : cleanB l = true) :
    ∀ c ∈ l, ¬(c = '[') ∧ ¬(c = ']') ∧ ¬(c = '\t') ∧ ¬(c = '\r') ∧ ¬(c = '\n') := by
  intro c hc
  simp only [cleanB, List.all_eq_true] at h
  have h2 := h c hc
  simp at h2
  tauto

theorem stripUnsafe_id {l : List Char}
    (h : ∀ c ∈ l, ¬(c = '\t') ∧ ¬(c = '\r') ∧ ¬(c = '\n')) : stripUnsafeL l = l := by
  rw [stripUnsafeL, List.filter_eq_self]
  intro a ha
  have h2 := h a ha
  simp [h2.1, h2.2.1, h2.2.2]

theorem mem_splitNetlocL_fst {u : List Char} {c : Char}
    (h : c ∈ (splitNetlocL u).1) : c ∈ u := by
  unfold splitNetlocL at h
  split at h
  · have h' : c ∈ List.takeWhile (fun c => !isNetlocEnd c) _ := h
    have h2 := (List.takeWhile_sublist _).subset h'
    exact List.mem_cons_of_mem _ (List.mem_cons_of_mem _ h2)
  · exact absurd h (List.not_mem_nil c)

theorem netlocBad_false {n : List Char} (h1 : '[' ∉ n) (h2 : ']' ∉ n) :
    netlocBadB n = false := by
  simp [netlocBadB, h1, h2]

theorem urlsplitRaises_false {l : List Char} (h1 : '[' ∉ l) (h2 : ']' ∉ l) :
    urlsplitRaisesB l = false := by
  rw [urlsplitRaisesB]
  apply netlocBad_false
  · intro hm
    have hrest := mem_splitNetlocL_fst hm
    cases hs : splitSchemeL l with
    | none =>
      rw [hs] at hrest
      exact h1 hrest
    | some pr =>
      obtain ⟨p, r⟩ := pr
      rw [hs] at hrest
      exact h1 (splitSchemeL_some_sub hs _ hrest)
  · intro hm
    have hrest := mem_splitNetlocL_fst hm
    cases hs : splitSchemeL l with
    | none =>
      rw [hs] at hrest
      exact h2 hrest
    | some pr =>
      obtain ⟨p, r⟩ := pr
      rw [hs] at hrest
      exact h2 (splitSchemeL_some_sub hs _ hrest)

theorem sanitizeUrlE_ok {raw base : List Char}
    (hc : cleanB (pyStripL (htmlUnescapeL raw)) = true) (hb : cleanB base = true) :
    sanitizeUrlE raw base = .ok (sanitizeUrlL raw base) := by
  have hcs := cleanB_spec hc
  have hbs := cleanB_spec hb
  have hid1 : stripUnsafeL (pyStripL (htmlUnescapeL raw)) = pyStripL (htmlUnescapeL raw) :=
    stripUnsafe_id (fun c h => ⟨(hcs c h).2.2.1, (hcs c h).2.2.2.1, (hcs c h).2.2.2.2⟩)
  have hid2 : stripUnsafeL base = base :=
    stripUnsafe_id (fun c h => ⟨(hbs c h).2.2.1, (hbs c h).2.2.2.1, (hbs c h).2.2.2.2⟩)
  have hr1 : urlsplitRaisesB (pyStripL (htmlUnescapeL raw)) = false :=
    urlsplitRaises_false (fun h => (hcs _ h).1 rfl) (fun h => (hcs _ h).2.1 rfl)
  have hr2 : urlsplitRaisesB base = false :=
    urlsplitRaises_false (fun h => (hbs _ h).1 rfl) (fun h => (hbs _ h).2.1 rfl)
  have hres : resolveCandidateE base (pyStripL (htmlUnescapeL raw))
      = resolveCandidate base (pyStripL (htmlUnescapeL raw)) := by
    rw [resolveCandidateE, resolveCandidate, hid1, hid2]
  simp [sanitizeUrlE, sanitizeUrlL, hid1, hid2, hr1, hr2, hres]
  split_ifs <;> rfl

theorem chapterAcceptE_ok {n iu href : List Char}
    (hc : cleanB (pyStripL (htmlUnescapeL href)) = true) (hb : cleanB iu = true) :
    chapterAcceptE n iu href = .ok (chapterAccept n iu href) := by
  rw [chapterAcceptE, chapterAccept, sanitizeUrlE_ok hc hb]
  cases sanitizeUrlL href iu with
  | none => rfl
  | some v =>
    dsimp only
    split_ifs <;> rfl

theorem discoverLoopE_ok {n iu : List Char} (hb : cleanB iu = true) :
    ∀ (links : List (List Char × List Char)) (seen : List (List Char))
      (acc : List Chapter),
      (∀ pr ∈ links, cleanB (pyStripL (htmlUnescapeL pr.1)) = true) →
      discoverLoopE n iu links seen acc = .ok (discoverLoop n iu links seen acc) := by
  intro links
  induction links with
  | nil => intro seen acc _; rfl
  | cons hd links ih =>
    intro seen acc h
    obtain ⟨href, text⟩ := hd
    have hhd : cleanB (pyStripL (htmlUnescapeL href)) = true := h _ (List.mem_cons_self _ _)
    have htl : ∀ pr ∈ links, cleanB (pyStripL (htmlUnescapeL pr.1)) = true :=
      fun pr hp => h pr (List.mem_cons_of_mem _ hp)
    rw [show discoverLoopE n iu ((href, text) :: links) seen acc
        = (match chapterAcceptE n iu href with
          | .error e => .error e
          | .ok none => discoverLoopE n iu links seen acc
          | .ok (some absolute_url) =>
            if absolute_url ∈ seen then discoverLoopE n iu links seen acc
            else discoverLoopE n iu links (absolute_url :: seen)
              (acc ++ [builtChapter text absolute_url])) from rfl]
    rw [chapterAcceptE_ok hhd hb]
    cases hacc : chapterAccept n iu href with
    | none =>
      rw [show discoverLoop n iu ((href, text) :: links) seen acc
          = discoverLoop n iu links seen acc from by simp [discoverLoop, hacc]]
      exact ih seen acc htl
    | some v =>
      by_cases hseen : v ∈ seen
      · show (if v ∈ seen then discoverLoopE n iu links seen acc
          else discoverLoopE n iu links (v :: seen) (acc ++ [builtChapter text v]))
          = .ok (discoverLoop n iu ((href, text) :: links) seen acc)
        rw [if_pos hseen, show discoverLoop n iu ((href, text) :: links) seen acc
            = discoverLoop n iu links seen acc from by simp [discoverLoop, hacc, hseen]]
        exact ih seen acc htl
      · show (if v ∈ seen then discoverLoopE n iu links seen acc
          else discoverLoopE n iu links (v :: seen) (acc ++ [builtChapter text v]))
          = .ok (discoverLoop n iu ((href, text) :: links) seen acc)
        rw [if_neg hseen, show discoverLoop n iu ((href, text) :: links) seen acc
            = discoverLoop n iu links (v :: seen) (acc ++ [builtChapter text v])
            from by simp [discoverLoop, hacc, hseen]]
        exact ih (v :: seen) (acc ++ [builtChapter text v]) htl

theorem discoverFromLinksE_ok {index_url : String}
    {links : List (List Char × List Char)} (hb : cleanB index_url.data = true)
    (hl : ∀ pr ∈ links, cleanB (pyStripL (htmlUnescapeL pr.1)) = true) :
    discoverFromLinksE index_url links = .ok (discoverFromLinks index_url links) := by
  have hbs := cleanB_spec hb
  have hid : stripUnsafeL index_url.data = index_url.data :=
    stripUnsafe_id (fun c h => ⟨(hbs c h).2.2.1, (hbs c h).2.2.2.1, (hbs c h).2.2.2.2⟩)
  have hr : urlsplitRaisesB index_url.data = false :=
    urlsplitRaises_false (fun h => (hbs _ h).1 rfl) (fun h => (hbs _ h).2.1 rfl)
  rw [discoverFromLinksE, hid, hr, if_neg (by simp),
    discoverLoopE_ok hb links [] [] hl, discoverFromLinks]

